import Mathlib

/-!
# libtaskqueue: the job list, the worker loop and the pool lifecycle

A shallow embedding of `src/taskqueue.c` (with the helpers of `src/utils.c`).

* Job records live in a heap indexed by address; a pointer is an `Option Nat`
  (`none` is `NULL`).
* Every call of a platform or allocator function made by the code is appended,
  as an `Event`, to the trace of the world; the results of the fallible calls
  are inputs of the embedded functions.
* The code of a thread between two points at which it can be suspended on the
  queue mutex or on the condition variable is one atomic transition of the
  world: every access to the job list happens inside such a section.
* The library is the one built without `NDEBUG`, in which `tq_trace` prints.
  `tq_trace` holds the process-wide `tq_trace_mutex` while it writes to
  `stdout`, where a thread with a pending cancellation request is cancelled;
  the mutex is then never released (`World.trace_abandoned`) and every later
  call of `tq_trace` blocks.  The embedded functions give what a call does
  when its calls of `tq_trace` return.
* `nb_jobs` is a C `int`: `++` and `--` are followed by `int_wrap`.
-/

namespace TaskQueue

/-! ## Data model -/

/-- The format strings handed to `tq_set_error` and `tq_trace`. -/
inductive Msg where
  | cannot_allocate_task_queue
  | cannot_allocate_workers
  | cannot_allocate_job
  | cannot_create_mutex
  | cannot_destroy_mutex
  | cannot_lock_mutex
  | cannot_unlock_mutex
  | cannot_create_thread
  | cannot_join_thread
  | cannot_wait_for_condition
  deriving DecidableEq

/-- One call made by the library, in program order.  `enqueue` and `dequeue`
are history markers: they record the link of a job at `taskqueue.c:256` and the
unlink of a job at `taskqueue.c:346-353`, with the function and the argument of
the job. -/
inductive Event where
  | malloc (res : Option Nat)
  | free (a : Nat)
  | alloc_queue (ok : Bool)
  | alloc_workers (ok : Bool)
  | free_workers
  | free_queue
  | mutex_init (ok : Bool)
  | mutex_destroy (ok : Bool)
  | cond_init (ok : Bool)
  | cond_destroy
  | mutex_lock (ok : Bool)
  | mutex_unlock (ok : Bool)
  | cond_broadcast
  | cond_wait
  | set_error (m : Msg)
  | trace_msg (m : Msg)
  | thread_create (i : Nat) (ok : Bool)
  | thread_cancel (i : Nat)
  | thread_join (i : Nat) (ok : Bool)
  | thread_exit (i : Nat)
  | job_started_hook (w hook arg : Nat)
  | job_func (w func arg : Nat)
  | job_done_hook (w hook arg : Nat)
  | enqueue (func arg : Nat)
  | dequeue (w func arg : Nat)
  deriving DecidableEq

/-- The value a 32-bit two's complement `int` holds after an operation whose
mathematical result is `x`: `x` itself when it lies between `INT_MIN` and
`INT_MAX`, and `x` reduced modulo `2^32` into that range otherwise (signed
overflow is undefined in C; this is what the usual implementations compute). -/
def int_wrap (x : Int) : Int :=
  (x + 2147483648) % 4294967296 - 2147483648

/-- `struct tq_job`: the function pointer and the argument are opaque values. -/
structure tq_job where
  func : Nat
  arg : Nat
  prev : Option Nat
  next : Option Nat
  deriving DecidableEq

/-- `struct tq_worker`: the slot index and the exit flag.  The `queue` field is
the constant back reference; the state of the thread behind the `thread`
handle is kept in `World.threads`. -/
structure tq_worker where
  id : Int
  exit : Bool
  deriving DecidableEq

/-- `struct tq_queue`.  `nb_jobs` is a C `int`: its value stays between
`INT_MIN` and `INT_MAX`, and the increment and the decrement wrap around
(`int_wrap`).  The mutex and the condition variable have no state of their own
here. -/
structure tq_queue where
  jobs : Option Nat
  next_job : Option Nat
  nb_jobs : Int
  workers : Nat → tq_worker
  nb_workers : Int
  job_started_hook : Option Nat
  job_done_hook : Option Nat

/-- The job records that are currently allocated, by address. -/
abbrev Heap := Nat → Option tq_job

/-- Where a worker thread stands in `tq_worker_func`. -/
inductive WorkerPc where
  /-- No thread has been created for the slot. -/
  | absent
  /-- Created, before the first `tq_mutex_lock` (`taskqueue.c:308`). -/
  | startup
  /-- At the top of the `for (;;)` loop, before `tq_mutex_lock` (line 322). -/
  | idle
  /-- Suspended in `pthread_cond_wait` (line 337). -/
  | waiting
  /-- Holds an unlinked job, before the started hook (line 361). -/
  | started (job : Nat)
  /-- Holds an unlinked job, before the call of its function (line 364). -/
  | running (job : Nat)
  /-- Holds an executed job, before the done hook and `tq_free` (line 366). -/
  | finishing (job : Nat)
  /-- The thread has terminated. -/
  | terminated
  deriving DecidableEq

/-- The job a worker has unlinked and not yet freed. -/
def WorkerPc.job : WorkerPc → Option Nat
  | .started a => some a
  | .running a => some a
  | .finishing a => some a
  | _ => none

/-- The job a worker has unlinked and whose function it has not yet called. -/
def WorkerPc.todo : WorkerPc → Option Nat
  | .started a => some a
  | .running a => some a
  | _ => none

/-- The queue, the job heap, the worker threads and the calls made so far:
`threads i` is where the thread of slot `i` stands, `cancel i` tells whether
`pthread_cancel` was called on it, and `trace` lists the calls, oldest first.
`trace_abandoned` tells whether a thread was cancelled inside `tq_trace`
(`utils.c:103-119`), that is, while it held `tq_trace_mutex`: no thread can
take that mutex any more. -/
structure World where
  heap : Heap
  queue : tq_queue
  threads : Nat → WorkerPc
  cancel : Nat → Bool
  trace : List Event
  trace_abandoned : Bool

/-! ## utils.c -/

/-- `tq_trace` (`utils.c:103-119`, compiled when `NDEBUG` is not defined): it
takes `tq_trace_mutex`, prints and releases it.  `none` stands for a caller
suspended for ever in the lock of `tq_trace_mutex`, which a thread cancelled
inside `tq_trace` has not released. -/
def tq_trace (m : Msg) (W : World) : Option World :=
  if W.trace_abandoned then none
  else some { W with trace := W.trace ++ [Event.trace_msg m] }

/-- `tq_mutex_lock` (`utils.c:149-172`): the calls it makes; it returns `-1`
exactly when `ok` is false.  On that path it calls `tq_trace` before
`tq_set_error`: the list is that of a call whose `tq_trace` returns, which it
does in the worlds where `trace_abandoned` is false. -/
def tq_mutex_lock (ok : Bool) : List Event :=
  if ok then [Event.mutex_lock true]
  else [Event.mutex_lock false, Event.trace_msg Msg.cannot_lock_mutex,
        Event.set_error Msg.cannot_lock_mutex]

/-- `tq_mutex_unlock` (`utils.c:174-197`); on the failure path `tq_trace` is
called before `tq_set_error`, as in `tq_mutex_lock`. -/
def tq_mutex_unlock (ok : Bool) : List Event :=
  if ok then [Event.mutex_unlock true]
  else [Event.mutex_unlock false, Event.trace_msg Msg.cannot_unlock_mutex,
        Event.set_error Msg.cannot_unlock_mutex]

/-- `tq_mutex_lock` (`utils.c:149-172`) as a call made in a world: its result
and the world after it; `none` for a caller suspended for ever in the
`tq_trace` of the failure path.  When `tq_trace` returns the calls made are
those of `tq_mutex_lock ok`. -/
def tq_mutex_lock_call (ok : Bool) (W : World) : Option (Int × World) :=
  if ok then some (0, { W with trace := W.trace ++ [Event.mutex_lock true] })
  else
    match tq_trace Msg.cannot_lock_mutex
        { W with trace := W.trace ++ [Event.mutex_lock false] } with
    | none => none
    | some W1 =>
      some (-1, { W1 with trace := W1.trace ++ [Event.set_error Msg.cannot_lock_mutex] })

/-- `tq_mutex_unlock` (`utils.c:174-197`) as a call made in a world, as
`tq_mutex_lock_call`. -/
def tq_mutex_unlock_call (ok : Bool) (W : World) : Option (Int × World) :=
  if ok then some (0, { W with trace := W.trace ++ [Event.mutex_unlock true] })
  else
    match tq_trace Msg.cannot_unlock_mutex
        { W with trace := W.trace ++ [Event.mutex_unlock false] } with
    | none => none
    | some W1 =>
      some (-1, { W1 with trace := W1.trace ++ [Event.set_error Msg.cannot_unlock_mutex] })

/-- `tq_mutex_init` (`utils.c:123-134`). -/
def tq_mutex_init (ok : Bool) : List Event :=
  if ok then [Event.mutex_init true]
  else [Event.mutex_init false, Event.set_error Msg.cannot_create_mutex]

/-- `tq_mutex_free` (`utils.c:136-147`). -/
def tq_mutex_free (ok : Bool) : List Event :=
  if ok then [Event.mutex_destroy true]
  else [Event.mutex_destroy false, Event.set_error Msg.cannot_destroy_mutex]

/-! ## Heap accesses -/

/-- The assignment `a->prev = p`; nothing is written when `a` is not allocated. -/
def set_prev (heap : Heap) (a : Nat) (p : Option Nat) : Heap :=
  fun x => if x = a then (heap a).map (fun j => { j with prev := p }) else heap x

/-- The assignment `a->next = p`; nothing is written when `a` is not allocated. -/
def set_next (heap : Heap) (a : Nat) (p : Option Nat) : Heap :=
  fun x => if x = a then (heap a).map (fun j => { j with next := p }) else heap x

/-- The function and the argument stored in the job at an address. -/
def payload (heap : Heap) (a : Nat) : Nat × Nat :=
  match heap a with
  | some j => (j.func, j.arg)
  | none => (0, 0)

/-- The addresses visited from `p` by following `next`, when the walk reaches
`NULL` within `fuel` nodes. -/
def nodes_from (heap : Heap) : Nat → Option Nat → Option (List Nat)
  | _, none => some []
  | 0, some _ => none
  | fuel + 1, some a =>
    match heap a with
    | none => none
    | some j => (nodes_from heap fuel j.next).map (fun l => a :: l)

/-! ## taskqueue.c -/

/-- The worker slots written by the loop of `tq_queue_new` (lines 83-89) into
the zeroed array. -/
def new_workers : Nat → tq_worker :=
  fun i => { id := (i : Int), exit := false }

/-- The queue that `tq_queue_new` returns: it is zeroed by `memset` but for the
worker array and its length. -/
def new_queue (nb_workers : Int) : tq_queue :=
  { jobs := none, next_job := none, nb_jobs := 0,
    workers := new_workers, nb_workers := nb_workers,
    job_started_hook := none, job_done_hook := none }

/-- `tq_queue_new` (lines 62-106): the queue, or `NULL`, and the calls made.
The inputs are the results of the two allocations, of the initialisations of
the mutex and of the condition variable, and of the destruction of the mutex
on the last failure path. -/
def tq_queue_new (nb_workers : Int)
    (queue_ok workers_ok mutex_ok cond_ok destroy_ok : Bool) :
    Option tq_queue × List Event :=
  if !queue_ok then
    (none, [Event.alloc_queue false, Event.set_error Msg.cannot_allocate_task_queue])
  else if !workers_ok then
    (none, [Event.alloc_queue true, Event.alloc_workers false,
            Event.set_error Msg.cannot_allocate_workers, Event.free_queue])
  else if !mutex_ok then
    (none, [Event.alloc_queue true, Event.alloc_workers true] ++ tq_mutex_init false ++
            [Event.free_workers, Event.free_queue])
  else if !cond_ok then
    (none, [Event.alloc_queue true, Event.alloc_workers true] ++ tq_mutex_init true ++
            [Event.cond_init false] ++ tq_mutex_free destroy_ok ++
            [Event.free_workers, Event.free_queue])
  else
    (some (new_queue nb_workers),
     [Event.alloc_queue true, Event.alloc_workers true] ++ tq_mutex_init true ++
       [Event.cond_init true])

/-- The world right after a successful `tq_queue_new nb_workers`: the queue it
returns and the calls it made, no job allocated and no thread in existence. -/
def World.new (nb_workers : Int) : World :=
  { heap := fun _ => none, queue := new_queue nb_workers,
    threads := fun _ => WorkerPc.absent, cancel := fun _ => false,
    trace := (tq_queue_new nb_workers true true true true true).2,
    trace_abandoned := false }

/-- `tq_queue_set_job_started_hook` (lines 132-136). -/
def tq_queue_set_job_started_hook (hook : Option Nat) (W : World) : World :=
  { W with queue := { W.queue with job_started_hook := hook } }

/-- `tq_queue_set_job_done_hook` (lines 138-142). -/
def tq_queue_set_job_done_hook (hook : Option Nat) (W : World) : World :=
  { W with queue := { W.queue with job_done_hook := hook } }

/-- `tq_queue_get_nb_jobs` (lines 144-147). -/
def tq_queue_get_nb_jobs (W : World) : Int :=
  W.queue.nb_jobs

/-- `tq_queue_add_job` (lines 229-266).  `mem` is the result of `tq_malloc`,
`lock_ok` and `unlock_ok` those of `tq_mutex_lock` and `tq_mutex_unlock`.
Returns the result of the call and the world after it. -/
def tq_queue_add_job (func arg : Nat) (mem : Option Nat) (lock_ok unlock_ok : Bool)
    (W : World) : Int × World :=
  match mem with
  | none =>
    (-1, { W with trace := W.trace ++
              [Event.malloc none, Event.set_error Msg.cannot_allocate_job] })
  | some job =>
    -- memset, job->func = func, job->arg = arg
    let heap1 : Heap :=
      Function.update W.heap job (some { func := func, arg := arg, prev := none, next := none })
    if !lock_ok then
      (-1, { W with heap := Function.update heap1 job none,
                    trace := W.trace ++ [Event.malloc (some job)] ++ tq_mutex_lock false ++
                      [Event.free job] })
    else
      let q := W.queue
      let heap2 : Heap :=
        match q.jobs with
        | some head => set_prev heap1 head (some job)
        | none => heap1
      let next_job :=
        match q.jobs with
        | some _ => q.next_job
        | none => some job
      let heap3 := set_next heap2 job q.jobs
      -- queue->nb_jobs++
      let nb_jobs := int_wrap (q.nb_jobs + 1)
      let q1 : tq_queue := { q with jobs := some job, next_job := next_job, nb_jobs := nb_jobs }
      (0, { W with heap := heap3, queue := q1,
                   trace := W.trace ++ [Event.malloc (some job)] ++ tq_mutex_lock true ++
                     [Event.enqueue func arg] ++
                     (if nb_jobs = 1 then [Event.cond_broadcast] else []) ++
                     tq_mutex_unlock unlock_ok })

/-- The body of the `do ... while (!job)` loop of `tq_worker_func` followed,
when a job is found, by the unlink (lines 327-358), run by worker `i` with the
mutex held.  When the job pointer read from the queue is not an allocated
record the access is undefined and the world is left as it is. -/
def worker_take (i : Nat) (unlock_ok : Bool) (W : World) : World :=
  if (W.queue.workers i).exit then
    { W with threads := Function.update W.threads i WorkerPc.terminated,
             trace := W.trace ++ tq_mutex_unlock unlock_ok ++ [Event.thread_exit i] }
  else
    match W.queue.next_job with
    | none =>
      { W with threads := Function.update W.threads i WorkerPc.waiting,
               trace := W.trace ++ [Event.cond_wait] }
    | some job =>
      match W.heap job with
      | none => W
      | some j =>
        let q := W.queue
        let heap1 : Heap :=
          match j.prev with
          | some p => set_next W.heap p none
          | none => W.heap
        let q1 : tq_queue :=
          match j.prev with
          | some p => { q with next_job := some p }
          | none => { q with jobs := none, next_job := none }
        -- queue->nb_jobs--
        let nb_jobs := int_wrap (q1.nb_jobs - 1)
        { W with heap := heap1, queue := { q1 with nb_jobs := nb_jobs },
                 threads := Function.update W.threads i (WorkerPc.started job),
                 trace := W.trace ++ [Event.dequeue i j.func j.arg] ++
                   (if nb_jobs = 0 then [Event.cond_broadcast] else []) ++
                   tq_mutex_unlock unlock_ok }

/-- One transition of worker thread `i` through `tq_worker_func`
(lines 299-373): from the point where it stands to the next point at which it
can be suspended.  `lock_ok`, `wait_ok` and `unlock_ok` are the results of the
lock, of the condition wait and of the unlock made in the transition.
A cancellation request is pending only on threads that have not passed
`pthread_testcancel` (`cancel_pending_early`), so that the later cancellation
points of the loop never see one.  It acts at `pthread_testcancel`, or before
that inside `tq_trace` when the first lock or unlock fails: `tq_trace` writes
to `stdout` with `tq_trace_mutex` held, the thread is cancelled there, before
`tq_set_error`, and the mutex is never released.  In the other branches the
transition is that of a thread whose calls of `tq_trace` return. -/
def tq_worker_func (i : Nat) (lock_ok wait_ok unlock_ok : Bool) (W : World) : World :=
  match W.threads i with
  | .absent => W
  | .terminated => W
  | .startup =>
    if !lock_ok then
      if W.cancel i then
        -- cancelled inside the tq_trace of tq_mutex_lock
        { W with threads := Function.update W.threads i WorkerPc.terminated,
                 trace := W.trace ++ [Event.mutex_lock false,
                   Event.trace_msg Msg.cannot_lock_mutex],
                 trace_abandoned := true }
      else
        { W with threads := Function.update W.threads i WorkerPc.terminated,
                 trace := W.trace ++ tq_mutex_lock false ++
                   [Event.trace_msg Msg.cannot_lock_mutex] }
    else if W.cancel i then
      if !unlock_ok then
        -- cancelled inside the tq_trace of tq_mutex_unlock
        { W with threads := Function.update W.threads i WorkerPc.terminated,
                 trace := W.trace ++ tq_mutex_lock true ++ [Event.mutex_unlock false,
                   Event.trace_msg Msg.cannot_unlock_mutex],
                 trace_abandoned := true }
      else
        -- pthread_testcancel acts on the pending request
        { W with threads := Function.update W.threads i WorkerPc.terminated,
                 trace := W.trace ++ tq_mutex_lock true ++ tq_mutex_unlock true }
    else
      { W with threads := Function.update W.threads i WorkerPc.idle,
               trace := W.trace ++ tq_mutex_lock true ++ tq_mutex_unlock unlock_ok }
  | .idle =>
    if !lock_ok then
      { W with threads := Function.update W.threads i WorkerPc.terminated,
               trace := W.trace ++ tq_mutex_lock false ++
                 [Event.trace_msg Msg.cannot_lock_mutex] }
    else
      worker_take i unlock_ok { W with trace := W.trace ++ tq_mutex_lock true }
  | .waiting =>
    if !wait_ok then
      { W with threads := Function.update W.threads i WorkerPc.terminated,
               trace := W.trace ++ [Event.trace_msg Msg.cannot_wait_for_condition] ++
                 tq_mutex_unlock unlock_ok }
    else
      worker_take i unlock_ok W
  | .started job =>
    match W.heap job with
    | none => W
    | some j =>
      { W with threads := Function.update W.threads i (WorkerPc.running job),
               trace := W.trace ++
                 (match W.queue.job_started_hook with
                  | some hook => [Event.job_started_hook i hook j.arg]
                  | none => []) }
  | .running job =>
    match W.heap job with
    | none => W
    | some j =>
      { W with threads := Function.update W.threads i (WorkerPc.finishing job),
               trace := W.trace ++ [Event.job_func i j.func j.arg] }
  | .finishing job =>
    match W.heap job with
    | none => W
    | some j =>
      { W with heap := Function.update W.heap job none,
               threads := Function.update W.threads i WorkerPc.idle,
               trace := W.trace ++
                 (match W.queue.job_done_hook with
                  | some hook => [Event.job_done_hook i hook j.arg]
                  | none => []) ++ [Event.free job] }

/-- One scheduled transition of a worker thread, with the results of the
platform calls it makes. -/
structure WorkerStep where
  i : Nat
  lock_ok : Bool
  wait_ok : Bool
  unlock_ok : Bool

/-- The worker threads run the transitions of a schedule, in order. -/
def run_workers (sched : List WorkerStep) (W : World) : World :=
  sched.foldl (fun V s => tq_worker_func s.i s.lock_ok s.wait_ok s.unlock_ok V) W

/-- `pthread_join` on the thread of slot `j`.  While the caller is in the call
the worker threads run `sched`.  With `ok` false the call fails; otherwise it
returns only if the thread has terminated, and `none` stands for a caller that
is still suspended in the call. -/
def pthread_join (j : Nat) (ok : Bool) (sched : List WorkerStep) (W : World) :
    Option World :=
  let W1 := run_workers sched W
  if !ok then
    some { W1 with trace := W1.trace ++ [Event.thread_join j false] }
  else if W1.threads j = WorkerPc.terminated then
    some { W1 with trace := W1.trace ++ [Event.thread_join j true] }
  else
    none

/-- The thread creation loop of `tq_queue_start` (lines 156-163), `n` slots
from slot `i` on: the slot at which `pthread_create` failed, if any. -/
def start_create (create_ok : Nat → Bool) : Nat → Nat → World → Option Nat × World
  | 0, _, W => (none, W)
  | n + 1, i, W =>
    if create_ok i then
      start_create create_ok n (i + 1)
        { W with threads := Function.update W.threads i WorkerPc.startup,
                 trace := W.trace ++ [Event.thread_create i true] }
    else
      (some i, { W with trace := W.trace ++
                   [Event.thread_create i false, Event.set_error Msg.cannot_create_thread] })

/-- The cancellation loop of `tq_queue_start` (lines 166-171): `pthread_cancel`
on the threads of the `n` slots from slot `j` on. -/
def start_cancel : Nat → Nat → World → World
  | 0, _, W => W
  | n + 1, j, W =>
    start_cancel n (j + 1)
      { W with cancel := Function.update W.cancel j true,
               trace := W.trace ++ [Event.thread_cancel j] }

/-- How the section of `tq_queue_start` that holds the mutex ended. -/
inductive StartOutcome where
  | lock_failed
  | created
  | create_failed (slot : Nat)
  deriving DecidableEq

/-- `tq_queue_start` from its entry to the unlock (lines 153-174 and 188):
the mutex is held throughout, so that this is one transition. -/
def start_section (lock_ok : Bool) (create_ok : Nat → Bool) (unlock_ok : Bool)
    (W : World) : StartOutcome × World :=
  if !lock_ok then
    (StartOutcome.lock_failed, { W with trace := W.trace ++ tq_mutex_lock false })
  else
    match start_create create_ok W.queue.nb_workers.toNat 0
        { W with trace := W.trace ++ tq_mutex_lock true } with
    | (none, W1) =>
      (StartOutcome.created, { W1 with trace := W1.trace ++ tq_mutex_unlock unlock_ok })
    | (some i, W1) =>
      let W2 := start_cancel i 0 W1
      (StartOutcome.create_failed i,
       { W2 with trace := W2.trace ++ tq_mutex_unlock unlock_ok })

/-- The join loop of the failure path of `tq_queue_start` (lines 177-182):
the results of the joins are not looked at. -/
def start_join (join_ok : Nat → Bool) (sched : Nat → List WorkerStep) :
    Nat → Nat → World → Option World
  | 0, _, W => some W
  | n + 1, j, W =>
    match pthread_join j (join_ok j) (sched j) W with
    | none => none
    | some W1 => start_join join_ok sched n (j + 1) W1

/-- `tq_queue_start` (lines 149-190).  `sched j` is what the worker threads do
while the caller is in the join of slot `j`; `none` stands for a call that has
not returned under that schedule. -/
def tq_queue_start (lock_ok : Bool) (create_ok : Nat → Bool) (unlock_ok : Bool)
    (join_ok : Nat → Bool) (sched : Nat → List WorkerStep) (W : World) :
    Option (Int × World) :=
  match start_section lock_ok create_ok unlock_ok W with
  | (StartOutcome.lock_failed, W1) => some (-1, W1)
  | (StartOutcome.created, W1) => some (0, W1)
  | (StartOutcome.create_failed i, W1) =>
    (start_join join_ok sched i 0 W1).map (fun W2 => (-1, W2))

/-- The loop of `tq_queue_stop` that sets the exit flags (lines 199-204), on
the `n` slots from slot `i` on. -/
def stop_flags : Nat → Nat → (Nat → tq_worker) → (Nat → tq_worker)
  | 0, _, ws => ws
  | n + 1, i, ws =>
    stop_flags n (i + 1) (Function.update ws i { ws i with exit := true })

/-- `tq_queue_stop` from its entry to the broadcast (lines 196-209): whether
the lock was taken, and the world after. -/
def stop_section (lock_ok unlock_ok : Bool) (W : World) : Bool × World :=
  if !lock_ok then
    (false, { W with trace := W.trace ++ tq_mutex_lock false })
  else
    (true,
     { W with queue := { W.queue with
                workers := stop_flags W.queue.nb_workers.toNat 0 W.queue.workers },
              trace := W.trace ++ tq_mutex_lock true ++ tq_mutex_unlock unlock_ok ++
                [Event.cond_broadcast] })

/-- The join loop of `tq_queue_stop` (lines 211-226), `n` slots from slot `i`
on, with the result accumulated so far. -/
def stop_join (join_ok : Nat → Bool) (sched : Nat → List WorkerStep) :
    Nat → Nat → Int → World → Option (Int × World)
  | 0, _, ret, W => some (ret, W)
  | n + 1, i, ret, W =>
    match pthread_join i (join_ok i) (sched i) W with
    | none => none
    | some W1 =>
      if join_ok i then
        stop_join join_ok sched n (i + 1) ret W1
      else
        stop_join join_ok sched n (i + 1) (-1)
          { W1 with trace := W1.trace ++ [Event.set_error Msg.cannot_join_thread] }

/-- `tq_queue_stop` (lines 192-227).  `sched i` is what the worker threads do
while the caller is in the join of slot `i`; `none` stands for a call that has
not returned under that schedule. -/
def tq_queue_stop (lock_ok unlock_ok : Bool) (join_ok : Nat → Bool)
    (sched : Nat → List WorkerStep) (W : World) : Option (Int × World) :=
  match stop_section lock_ok unlock_ok W with
  | (false, W1) => some (-1, W1)
  | (true, W1) => stop_join join_ok sched W1.queue.nb_workers.toNat 0 0 W1

/-- The loop of `tq_queue_delete` that frees the job records (lines 115-122):
the heap after, and the addresses freed in order.  `none` when the walk does
not end within `fuel` nodes or reads a record that is not allocated. -/
def delete_jobs : Nat → Option Nat → Heap → Option (Heap × List Event)
  | _, none, heap => some (heap, [])
  | 0, some _, _ => none
  | fuel + 1, some job, heap =>
    match heap job with
    | none => none
    | some j =>
      match delete_jobs fuel j.next (Function.update heap job none) with
      | none => none
      | some (heap1, ev) => some (heap1, Event.free job :: ev)

/-- `tq_queue_delete` (lines 108-130) on a handle that may be `NULL`: the job
heap after the call and the calls made. -/
def tq_queue_delete (fuel : Nat) (destroy_ok : Bool) (queue : Option tq_queue)
    (heap : Heap) : Option (Heap × List Event) :=
  match queue with
  | none => some (heap, [])
  | some q =>
    match delete_jobs fuel q.jobs heap with
    | none => none
    | some (heap1, ev) =>
      some (heap1, ev ++ [Event.free_workers] ++ tq_mutex_free destroy_ok ++
              [Event.cond_destroy, Event.free_queue])

/-! ## Interleavings -/

/-- One transition of the world: a call of the library made by some thread
(up to the point where it can be suspended), or a transition of a worker. -/
inductive Action where
  | add_job (func arg : Nat) (mem : Option Nat) (lock_ok unlock_ok : Bool)
  | worker (i : Nat) (lock_ok wait_ok unlock_ok : Bool)
  | start (lock_ok : Bool) (create_ok : Nat → Bool) (unlock_ok : Bool)
  | stop (lock_ok unlock_ok : Bool)
  | set_job_started_hook (hook : Option Nat)
  | set_job_done_hook (hook : Option Nat)

/-- The world after an action. -/
def step (W : World) : Action → World
  | .add_job func arg mem lock_ok unlock_ok =>
    (tq_queue_add_job func arg mem lock_ok unlock_ok W).2
  | .worker i lock_ok wait_ok unlock_ok => tq_worker_func i lock_ok wait_ok unlock_ok W
  | .start lock_ok create_ok unlock_ok => (start_section lock_ok create_ok unlock_ok W).2
  | .stop lock_ok unlock_ok => (stop_section lock_ok unlock_ok W).2
  | .set_job_started_hook hook => tq_queue_set_job_started_hook hook W
  | .set_job_done_hook hook => tq_queue_set_job_done_hook hook W

/-- What the environment guarantees for an action: `tq_malloc` returns memory
that is not in use, and `tq_queue_start` is called on a pool whose slots have
no thread yet. -/
def Action.valid (W : World) : Action → Prop
  | .add_job _ _ (some job) _ _ => W.heap job = none
  | .start _ _ _ => ∀ i, i < W.queue.nb_workers.toNat → W.threads i = WorkerPc.absent
  | _ => True

instance Action.decidable_valid (W : World) (a : Action) : Decidable (a.valid W) := by
  cases a with
  | add_job func arg mem lock_ok unlock_ok =>
    cases mem with
    | none => exact isTrue trivial
    | some job => exact inferInstanceAs (Decidable (W.heap job = none))
  | start lock_ok create_ok unlock_ok =>
    exact inferInstanceAs
      (Decidable (∀ i, i < W.queue.nb_workers.toNat → W.threads i = WorkerPc.absent))
  | worker i lock_ok wait_ok unlock_ok => exact isTrue trivial
  | stop lock_ok unlock_ok => exact isTrue trivial
  | set_job_started_hook hook => exact isTrue trivial
  | set_job_done_hook hook => exact isTrue trivial

/-- The world after a sequence of actions. -/
def run (W : World) (acts : List Action) : World :=
  acts.foldl step W

/-- The world after a sequence of actions of the other threads; `none` when
one of the actions is not one the environment can make. -/
def run_env (W : World) : List Action → Option World
  | [] => some W
  | a :: acts => if a.valid W then run_env (step W a) acts else none

/-- The worlds that a queue created by `tq_queue_new nb_workers` can be in. -/
inductive Reachable (nb_workers : Int) : World → Prop where
  | new : Reachable nb_workers (World.new nb_workers)
  | step {W : World} (a : Action) :
      Reachable nb_workers W → a.valid W → Reachable nb_workers (step W a)

/-- `tq_queue_drain` (lines 268-297) from the top of its `for (;;)` loop, in
iteration `k`.  `lock_ok k`, `wait_ok k` and `unlock_ok k` are the results of
the platform calls of iteration `k`; each element of `turns` gives what the
other threads do while the caller is suspended in `pthread_cond_wait`, and
then between the unlock of line 292 and the next lock.  A wait that fails
returns with or without a turn of the other threads.  `none` stands for a
caller still suspended in the wait (or for a schedule that cannot happen). -/
def drain_loop (lock_ok wait_ok unlock_ok : Nat → Bool) :
    List (List Action × List Action) → Nat → World → Option (Int × World)
  | turns, k, W =>
    if !lock_ok k then
      some (-1, { W with trace := W.trace ++ tq_mutex_lock false })
    else
      let W1 : World := { W with trace := W.trace ++ tq_mutex_lock true }
      if W1.queue.nb_jobs = 0 then
        some (0, { W1 with trace := W1.trace ++ tq_mutex_unlock (unlock_ok k) })
      else
        match turns with
        | [] =>
          if !wait_ok k then
            some (-1, { W1 with trace := W1.trace ++ [Event.cond_wait] ++
                          [Event.set_error Msg.cannot_wait_for_condition] ++
                          tq_mutex_unlock (unlock_ok k) })
          else none
        | (during_wait, after_unlock) :: rest =>
          match run_env { W1 with trace := W1.trace ++ [Event.cond_wait] } during_wait with
          | none => none
          | some W2 =>
            if !wait_ok k then
              some (-1, { W2 with trace := W2.trace ++
                            [Event.set_error Msg.cannot_wait_for_condition] ++
                            tq_mutex_unlock (unlock_ok k) })
            else if W2.queue.nb_jobs = 0 then
              some (0, { W2 with trace := W2.trace ++ tq_mutex_unlock (unlock_ok k) })
            else
              match run_env { W2 with trace := W2.trace ++ tq_mutex_unlock (unlock_ok k) }
                  after_unlock with
              | none => none
              | some W3 => drain_loop lock_ok wait_ok unlock_ok rest (k + 1) W3

/-- `tq_queue_drain` (lines 268-297). -/
def tq_queue_drain (lock_ok wait_ok unlock_ok : Nat → Bool)
    (turns : List (List Action × List Action)) (W : World) : Option (Int × World) :=
  drain_loop lock_ok wait_ok unlock_ok turns 0 W

/-! ## The list invariant and the history of a trace -/

/-- The nodes reached from `p` by `next` are exactly `l`, and the `prev` field
of each is the node before it (`pv` for the first). -/
def dll (heap : Heap) : Option Nat → Option Nat → List Nat → Prop
  | _, p, [] => p = none
  | pv, p, a :: l =>
    p = some a ∧ ∃ j, heap a = some j ∧ j.prev = pv ∧ dll heap (some a) j.next l

/-- The invariant of the job list, for the list `l` of linked nodes from
`jobs` (the most recent) to `next_job` (the oldest): the nodes are distinct
and doubly linked, `nb_jobs` counts them as a C `int` does, and the job a
worker holds is allocated, linked nowhere and held by no other worker. -/
structure Inv (W : World) (l : List Nat) : Prop where
  nodup : l.Nodup
  chain : dll W.heap none W.queue.jobs l
  last : W.queue.next_job = l.getLast?
  count : W.queue.nb_jobs = int_wrap (l.length : Int)
  held : ∀ i a, (W.threads i).job = some a →
    a ∉ l ∧ W.heap a ≠ none ∧ ∀ k, (W.threads k).job = some a → k = i

/-- The jobs linked by `tq_queue_add_job`, in order. -/
def submitted (tr : List Event) : List (Nat × Nat) :=
  tr.filterMap (fun e => match e with
    | Event.enqueue func arg => some (func, arg)
    | _ => none)

/-- The jobs unlinked by the workers, in order, each with its worker. -/
def dequeues (tr : List Event) : List (Nat × Nat × Nat) :=
  tr.filterMap (fun e => match e with
    | Event.dequeue w func arg => some (w, func, arg)
    | _ => none)

/-- The jobs whose function was called, in order, each with its worker. -/
def executions (tr : List Event) : List (Nat × Nat × Nat) :=
  tr.filterMap (fun e => match e with
    | Event.job_func w func arg => some (w, func, arg)
    | _ => none)

/-- The jobs unlinked by the workers, in order. -/
def dequeued (tr : List Event) : List (Nat × Nat) :=
  (dequeues tr).map (fun d => d.2)

/-- The jobs whose function was called, in order. -/
def executed (tr : List Event) : List (Nat × Nat) :=
  (executions tr).map (fun d => d.2)

/-- The jobs unlinked by worker `i`, in order. -/
def dequeued_by (i : Nat) (tr : List Event) : List (Nat × Nat) :=
  ((dequeues tr).filter (fun d => d.1 = i)).map (fun d => d.2)

/-- The jobs whose function was called by worker `i`, in order. -/
def executed_by (i : Nat) (tr : List Event) : List (Nat × Nat) :=
  ((executions tr).filter (fun d => d.1 = i)).map (fun d => d.2)

/-- The job worker `i` has unlinked and not yet executed, if any. -/
def pending_of (W : World) (i : Nat) : List (Nat × Nat) :=
  match (W.threads i).todo with
  | some a => [payload W.heap a]
  | none => []

/-- The history of a world whose linked nodes are `l`: the jobs submitted are
those unlinked so far followed by the linked ones from the oldest on, and each
worker has executed the jobs it unlinked, but for the one it holds. -/
structure Hist (W : World) (l : List Nat) : Prop where
  fifo : submitted W.trace = dequeued W.trace ++ (l.map (payload W.heap)).reverse
  mine : ∀ i, dequeued_by i W.trace = executed_by i W.trace ++ pending_of W i

/-- The calls and markers that a transition of worker `i` can add to the trace. -/
def Event.of_worker (i : Nat) : Event → Bool
  | .mutex_lock _ => true
  | .mutex_unlock _ => true
  | .trace_msg _ => true
  | .set_error _ => true
  | .cond_broadcast => true
  | .cond_wait => true
  | .free _ => true
  | .thread_exit w => decide (w = i)
  | .job_started_hook w _ _ => decide (w = i)
  | .job_func w _ _ => decide (w = i)
  | .job_done_hook w _ _ => decide (w = i)
  | .dequeue w _ _ => decide (w = i)
  | _ => false

/-- The slots on which `pthread_cancel` was called, in order. -/
def cancels (tr : List Event) : List Nat :=
  tr.filterMap (fun e => match e with
    | Event.thread_cancel i => some i
    | _ => none)

/-- The slots on which `pthread_join` was called, in order, with the result. -/
def joins (tr : List Event) : List (Nat × Bool) :=
  tr.filterMap (fun e => match e with
    | Event.thread_join i ok => some (i, ok)
    | _ => none)

/-- The slots on which `pthread_create` was called, in order, with the result. -/
def creations (tr : List Event) : List (Nat × Bool) :=
  tr.filterMap (fun e => match e with
    | Event.thread_create i ok => some (i, ok)
    | _ => none)

/-- The pool of a queue created for `n` workers: threads exist only in the
slots below `n`, and only they unlink and execute jobs. -/
structure Slots (n : Int) (W : World) : Prop where
  nb : W.queue.nb_workers = n
  none_above : ∀ k, n.toNat ≤ k → W.threads k = WorkerPc.absent
  deq : ∀ d ∈ dequeues W.trace, d.1 < n.toNat
  exe : ∀ d ∈ executions W.trace, d.1 < n.toNat

/-- The trace `t2` links, unlinks and executes the same jobs as `t1`. -/
def Quiet (t1 t2 : List Event) : Prop :=
  submitted t2 = submitted t1 ∧ dequeues t2 = dequeues t1 ∧ executions t2 = executions t1

/-- The world `V` after a start of `W0` that failed at slot `k`, while the
threads created so far run: the queue and the heap are those of `W0`, the
threads of the slots below `k` have a cancellation request pending and are
still before their first lock or have terminated, there is no other thread,
and nothing was linked, unlinked, executed, created or cancelled since. -/
structure Aborted (k : Nat) (W0 V : World) : Prop where
  heap : V.heap = W0.heap
  queue : V.queue = W0.queue
  low : ∀ j, j < k → V.cancel j = true ∧
    (V.threads j = WorkerPc.startup ∨ V.threads j = WorkerPc.terminated)
  high : ∀ j, k ≤ j → V.threads j = WorkerPc.absent
  quiet : Quiet W0.trace V.trace
  cancels : cancels V.trace = cancels W0.trace
  creations : creations V.trace = creations W0.trace

/-- A bound on the number of transitions a thread makes before it terminates
once its exit flag is set. -/
def WorkerPc.rank : WorkerPc → Nat
  | .terminated => 0
  | .idle => 1
  | .waiting => 1
  | .startup => 2
  | .finishing _ => 2
  | .running _ => 3
  | .started _ => 4
  | .absent => 5

/-- The number of transitions of thread `i` in a schedule. -/
def steps_of (i : Nat) (sched : List WorkerStep) : Nat :=
  (sched.filter (fun s => s.i = i)).length

/-- The worlds in which the invariants of a pool of `n` workers hold. -/
def Good (n : Int) (W : World) : Prop :=
  Slots n W ∧ ∃ l, Inv W l ∧ Hist W l

/-- Every job is unlinked and executed once: the jobs submitted are those
unlinked so far, in order, followed by the jobs still linked from the oldest
on; each worker has executed, in order, the jobs it unlinked, but for the one
it still holds; when no worker holds a job to execute the executions are a
rearrangement of the unlinks, worker by worker; and when `nb_jobs` is zero
every submitted job has been unlinked, as long as fewer than `2^31` submitted
jobs had not been unlinked (beyond that the counter has wrapped around). -/
def ExactlyOnce (W : World) : Prop :=
  (∃ l : List Nat,
    (∀ fuel, l.length ≤ fuel → nodes_from W.heap fuel W.queue.jobs = some l) ∧
    submitted W.trace = dequeued W.trace ++ (l.map (payload W.heap)).reverse) ∧
  (∀ i, dequeued_by i W.trace = executed_by i W.trace ++ pending_of W i) ∧
  ((∀ i, (W.threads i).todo = none) → (executions W.trace).Perm (dequeues W.trace)) ∧
  (W.queue.nb_jobs = 0 →
    (submitted W.trace).length - (dequeued W.trace).length < 2147483648 →
    dequeued W.trace = submitted W.trace)

/-- The world `W` while `tq_queue_stop` completes, `W0` being the world right
after the exit flags were set, with linked nodes `l`: the invariants hold,
the flags are set, the queue is that of `W0`, the nodes of `l` are as in `W0`,
nothing was linked or unlinked since, and no thread has disappeared. -/
structure Stopping (n : Int) (l : List Nat) (W0 W : World) : Prop where
  good : Good n W
  inv : Inv W l
  flags : ∀ i, i < n.toNat → (W.queue.workers i).exit = true
  queue : W.queue = W0.queue
  nodes : ∀ x ∈ l, W.heap x = W0.heap x
  sub : submitted W.trace = submitted W0.trace
  deq : dequeues W.trace = dequeues W0.trace
  present : ∀ i, W0.threads i ≠ WorkerPc.absent → W.threads i ≠ WorkerPc.absent

/-! ## A scenario: one worker, three jobs submitted before the start -/

/-- Jobs `(1, 10)`, `(2, 20)` and `(3, 30)` are submitted in that order, the
pool is started, and its worker runs until it waits for more work. -/
def scenario_abc : List Action :=
  [Action.add_job 1 10 (some 100) true true,
   Action.add_job 2 20 (some 200) true true,
   Action.add_job 3 30 (some 300) true true,
   Action.start true (fun _ => true) true,
   Action.worker 0 true true true,
   Action.worker 0 true true true, Action.worker 0 true true true,
   Action.worker 0 true true true, Action.worker 0 true true true,
   Action.worker 0 true true true, Action.worker 0 true true true,
   Action.worker 0 true true true, Action.worker 0 true true true,
   Action.worker 0 true true true, Action.worker 0 true true true,
   Action.worker 0 true true true, Action.worker 0 true true true,
   Action.worker 0 true true true]

/-- The world at the end of the scenario. -/
def world_abc : World :=
  run (World.new 1) scenario_abc

/-- The world of the scenario once the three jobs are submitted. -/
def world_queued : World :=
  run (World.new 1) (scenario_abc.take 3)

/-- The three jobs are submitted, the pool is started and its worker reaches
the top of its loop. -/
def world_idle : World :=
  run (World.new 1) (scenario_abc.take 4 ++ [Action.worker 0 true true true])

/-- The three jobs are submitted, the pool is started, its worker reaches the
top of its loop, and `tq_queue_stop` sets the exit flags. -/
def world_stopped : World :=
  run (World.new 1)
    (scenario_abc.take 4 ++ [Action.worker 0 true true true, Action.stop true true])

/-- A pool of two workers right after a successful start. -/
def world_started : World :=
  run (World.new 2) [Action.start true (fun _ => true) true]

/-- Four transitions of the thread of slot `i`, every platform call succeeding. -/
def four_steps (i : Nat) : List WorkerStep :=
  List.replicate 4 { i := i, lock_ok := true, wait_ok := true, unlock_ok := true }

/-! ## Accesses to the fields of the queue -/

/-- The fields of `struct tq_queue` and of `struct tq_worker` that hold the job
list, the job count, the exit flags and the hooks. -/
inductive Field where
  | jobs
  | next_job
  | nb_jobs
  | exit (slot : Nat)
  | job_started_hook
  | job_done_hook
  deriving DecidableEq

/-- The fields of the job list, the job count and the exit flags: all the
fields but the two hooks. -/
def Field.of_list : Field → Bool
  | .job_started_hook => false
  | .job_done_hook => false
  | _ => true

/-- Every field. -/
def Field.any : Field → Bool :=
  fun _ => true

/-- One step of a thread, in program order: a call, as it is recorded in the
trace, or a read or a write of a field. -/
inductive Op where
  | call (e : Event)
  | read (f : Field)
  | write (f : Field)
  deriving DecidableEq

/-- The calls among the steps of a thread. -/
def calls_of (ops : List Op) : List Event :=
  ops.filterMap (fun o => match o with
    | Op.call e => some e
    | _ => none)

/-- Whether a thread holds the queue mutex after a call, given whether it held
it before: it holds it from a `pthread_mutex_lock` that succeeds to its next
`pthread_mutex_unlock`; `pthread_cond_wait` returns with the mutex held. -/
def held_after_call (held : Bool) : Event → Bool
  | .mutex_lock true => true
  | .mutex_unlock _ => false
  | _ => held

/-- Whether a thread holds the queue mutex after a sequence of steps. -/
def held_after : Bool → List Op → Bool
  | held, [] => held
  | held, Op.call e :: ops => held_after (held_after_call held e) ops
  | held, _ :: ops => held_after held ops

/-- Every read and every write of a field selected by `p` is made while the
thread holds the queue mutex; `held` tells whether it holds it at the start. -/
def guarded (p : Field → Bool) : Bool → List Op → Bool
  | _, [] => true
  | held, Op.call e :: ops => guarded p (held_after_call held e) ops
  | held, Op.read f :: ops => (held || !p f) && guarded p held ops
  | held, Op.write f :: ops => (held || !p f) && guarded p held ops

/-- Whether a worker thread holds the queue mutex at the point where it
stands: it does when it is suspended in `pthread_cond_wait`, which it entered
with the mutex held and which returns with the mutex held. -/
def WorkerPc.holds : WorkerPc → Bool
  | .waiting => true
  | _ => false

/-- The steps of `tq_queue_new` (lines 62-106): `memset` writes every field of
the new queue; the exit flags are zeroed by `tq_calloc`. -/
def tq_queue_new_ops (queue_ok workers_ok mutex_ok cond_ok destroy_ok : Bool) : List Op :=
  if !queue_ok then
    [Op.call (Event.alloc_queue false),
     Op.call (Event.set_error Msg.cannot_allocate_task_queue)]
  else
    [Op.call (Event.alloc_queue true), Op.write Field.jobs, Op.write Field.next_job,
     Op.write Field.nb_jobs, Op.write Field.job_started_hook, Op.write Field.job_done_hook] ++
    if !workers_ok then
      [Op.call (Event.alloc_workers false),
       Op.call (Event.set_error Msg.cannot_allocate_workers), Op.call Event.free_queue]
    else if !mutex_ok then
      [Op.call (Event.alloc_workers true)] ++ (tq_mutex_init false).map Op.call ++
        [Op.call Event.free_workers, Op.call Event.free_queue]
    else if !cond_ok then
      [Op.call (Event.alloc_workers true)] ++ (tq_mutex_init true).map Op.call ++
        [Op.call (Event.cond_init false)] ++ (tq_mutex_free destroy_ok).map Op.call ++
        [Op.call Event.free_workers, Op.call Event.free_queue]
    else
      [Op.call (Event.alloc_workers true)] ++ (tq_mutex_init true).map Op.call ++
        [Op.call (Event.cond_init true)]

/-- The steps of `tq_queue_delete` (lines 108-130) on a queue: the read of
`jobs` at line 115, then its calls. -/
def tq_queue_delete_ops (fuel : Nat) (destroy_ok : Bool) (queue : tq_queue) (heap : Heap) :
    Option (List Op) :=
  (tq_queue_delete fuel destroy_ok (some queue) heap).map
    (fun r => Op.read Field.jobs :: r.2.map Op.call)

/-- The steps of `tq_queue_set_job_started_hook` (lines 132-136). -/
def tq_queue_set_job_started_hook_ops : List Op :=
  [Op.write Field.job_started_hook]

/-- The steps of `tq_queue_set_job_done_hook` (lines 138-142). -/
def tq_queue_set_job_done_hook_ops : List Op :=
  [Op.write Field.job_done_hook]

/-- The steps of `tq_queue_get_nb_jobs` (lines 144-147). -/
def tq_queue_get_nb_jobs_ops : List Op :=
  [Op.read Field.nb_jobs]

/-- The steps of `tq_queue_start` from its entry to the unlock (lines 153-174
and 188): the function reads `nb_workers` and the worker array only, so that
its steps are its calls. -/
def start_section_ops (lock_ok : Bool) (create_ok : Nat → Bool) (unlock_ok : Bool)
    (W : World) : List Op :=
  ((start_section lock_ok create_ok unlock_ok W).2.trace.drop W.trace.length).map Op.call

/-- The steps of `tq_queue_stop` from its entry to the broadcast
(lines 196-209). -/
def stop_section_ops (lock_ok unlock_ok : Bool) (W : World) : List Op :=
  if !lock_ok then
    (tq_mutex_lock false).map Op.call
  else
    (tq_mutex_lock true).map Op.call ++
      (List.range W.queue.nb_workers.toNat).map (fun i => Op.write (Field.exit i)) ++
      (tq_mutex_unlock unlock_ok).map Op.call ++ [Op.call Event.cond_broadcast]

/-- The steps of `tq_queue_add_job` (lines 229-266). -/
def tq_queue_add_job_ops (func arg : Nat) (mem : Option Nat) (lock_ok unlock_ok : Bool)
    (W : World) : List Op :=
  match mem with
  | none =>
    [Op.call (Event.malloc none), Op.call (Event.set_error Msg.cannot_allocate_job)]
  | some job =>
    if !lock_ok then
      [Op.call (Event.malloc (some job))] ++ (tq_mutex_lock false).map Op.call ++
        [Op.call (Event.free job)]
    else
      [Op.call (Event.malloc (some job))] ++ (tq_mutex_lock true).map Op.call ++
        -- if (queue->jobs) queue->jobs->prev = job; else queue->next_job = job;
        [Op.read Field.jobs] ++
        (match W.queue.jobs with
         | some _ => [Op.read Field.jobs]
         | none => [Op.write Field.next_job]) ++
        -- job->next = queue->jobs; queue->jobs = job; queue->nb_jobs++;
        [Op.read Field.jobs, Op.write Field.jobs, Op.call (Event.enqueue func arg),
         Op.read Field.nb_jobs, Op.write Field.nb_jobs] ++
        -- if (queue->nb_jobs == 1) pthread_cond_broadcast
        [Op.read Field.nb_jobs] ++
        (if int_wrap (W.queue.nb_jobs + 1) = 1 then [Op.call Event.cond_broadcast] else []) ++
        (tq_mutex_unlock unlock_ok).map Op.call

/-- The steps of one iteration of the loop of `tq_queue_drain` (lines 272-293)
and, when the iteration leaves the loop, of the unlock of line 295.  `empty`
is the outcome of the test of line 278; after the second test (line 289) the
thread unlocks on either branch. -/
def drain_turn_ops (lock_ok wait_ok unlock_ok empty : Bool) : List Op :=
  if !lock_ok then
    (tq_mutex_lock false).map Op.call
  else
    (tq_mutex_lock true).map Op.call ++ [Op.read Field.nb_jobs] ++
    if empty then
      (tq_mutex_unlock unlock_ok).map Op.call
    else if !wait_ok then
      [Op.call Event.cond_wait, Op.call (Event.set_error Msg.cannot_wait_for_condition)] ++
        (tq_mutex_unlock unlock_ok).map Op.call
    else
      [Op.call Event.cond_wait, Op.read Field.nb_jobs] ++
        (tq_mutex_unlock unlock_ok).map Op.call

/-- The steps of the body of the `do ... while (!job)` loop of
`tq_worker_func` and of the unlink (lines 327-358), as in `worker_take`. -/
def worker_take_ops (i : Nat) (unlock_ok : Bool) (W : World) : List Op :=
  Op.read (Field.exit i) ::
  if (W.queue.workers i).exit then
    (tq_mutex_unlock unlock_ok).map Op.call ++ [Op.call (Event.thread_exit i)]
  else
    Op.read Field.next_job ::
    match W.queue.next_job with
    | none => [Op.call Event.cond_wait]
    | some job =>
      match W.heap job with
      | none => []
      | some j =>
        (match j.prev with
         | some _ => [Op.write Field.next_job]
         | none => [Op.write Field.jobs, Op.write Field.next_job]) ++
        [Op.call (Event.dequeue i j.func j.arg), Op.read Field.nb_jobs,
         Op.write Field.nb_jobs, Op.read Field.nb_jobs] ++
        (if int_wrap (W.queue.nb_jobs - 1) = 0 then [Op.call Event.cond_broadcast] else []) ++
        (tq_mutex_unlock unlock_ok).map Op.call

/-- The steps of one transition of worker thread `i` through `tq_worker_func`
(lines 299-373), as in `tq_worker_func`: the hooks are read at lines 361-362
and 366-367, after the unlock of line 358. -/
def tq_worker_func_ops (i : Nat) (lock_ok wait_ok unlock_ok : Bool) (W : World) : List Op :=
  match W.threads i with
  | .absent => []
  | .terminated => []
  | .startup =>
    if !lock_ok then
      if W.cancel i then
        [Op.call (Event.mutex_lock false), Op.call (Event.trace_msg Msg.cannot_lock_mutex)]
      else
        (tq_mutex_lock false).map Op.call ++
          [Op.call (Event.trace_msg Msg.cannot_lock_mutex)]
    else if W.cancel i && !unlock_ok then
      (tq_mutex_lock true).map Op.call ++
        [Op.call (Event.mutex_unlock false), Op.call (Event.trace_msg Msg.cannot_unlock_mutex)]
    else
      (tq_mutex_lock true).map Op.call ++ (tq_mutex_unlock unlock_ok).map Op.call
  | .idle =>
    if !lock_ok then
      (tq_mutex_lock false).map Op.call ++ [Op.call (Event.trace_msg Msg.cannot_lock_mutex)]
    else
      (tq_mutex_lock true).map Op.call ++ worker_take_ops i unlock_ok W
  | .waiting =>
    if !wait_ok then
      [Op.call (Event.trace_msg Msg.cannot_wait_for_condition)] ++
        (tq_mutex_unlock unlock_ok).map Op.call
    else
      worker_take_ops i unlock_ok W
  | .started job =>
    match W.heap job with
    | none => []
    | some j =>
      Op.read Field.job_started_hook ::
        (match W.queue.job_started_hook with
         | some hook =>
           [Op.read Field.job_started_hook, Op.call (Event.job_started_hook i hook j.arg)]
         | none => [])
  | .running job =>
    match W.heap job with
    | none => []
    | some j => [Op.call (Event.job_func i j.func j.arg)]
  | .finishing job =>
    match W.heap job with
    | none => []
    | some j =>
      Op.read Field.job_done_hook ::
        ((match W.queue.job_done_hook with
          | some hook =>
            [Op.read Field.job_done_hook, Op.call (Event.job_done_hook i hook j.arg)]
          | none => []) ++ [Op.call (Event.free job)])

/-- The pool of the scenario when its worker has unlinked the first job and
stands before the started hook. -/
def world_taken : World :=
  run (World.new 1) (scenario_abc.take 6)

/-- A pool of two workers whose start failed at the second `pthread_create`,
and whose first thread then had its first lock fail: with the cancellation
request pending it was cancelled inside `tq_trace`. -/
def world_abandoned : World :=
  run (World.new 2)
    [Action.start true (fun i => decide (i = 0)) true, Action.worker 0 false true true]

/-! ## Submitting jobs and running the workers -/

/-- The calls `tq_queue_add_job(queue, func, arg)` for the jobs of `js`, in
order, every platform call succeeding: a job is given by its function, its
argument and the address that `tq_malloc` returns for its record. -/
def submit (js : List (Nat × Nat × Nat)) : List Action :=
  js.map (fun j => Action.add_job j.1 j.2.1 (some j.2.2) true true)

/-- The function and the argument of the jobs of `js`, in order. -/
def jobs_of (js : List (Nat × Nat × Nat)) : List (Nat × Nat) :=
  js.map (fun j => (j.1, j.2.1))

/-- The jobs of `js` are submitted to a new queue of `n` workers, and the
pool is then started, every platform call succeeding. -/
def world_after (n : Int) (js : List (Nat × Nat × Nat)) : World :=
  run (World.new n) (submit js ++ [Action.start true (fun _ => true) true])

/-- A transition of the thread of slot `i` in which every platform call
succeeds. -/
def ok_step (i : Nat) : WorkerStep :=
  { i := i, lock_ok := true, wait_ok := true, unlock_ok := true }

/-- The number of transitions, every platform call succeeding, that a worker
needs from where it stands to be back at the top of its loop: one from
`startup`, and three, two or one when it holds a job. -/
def WorkerPc.work : WorkerPc → Nat
  | .startup => 1
  | .started _ => 3
  | .running _ => 2
  | .finishing _ => 1
  | _ => 0

/-- Every platform call of the transition succeeds. -/
def WorkerStep.all_ok (s : WorkerStep) : Bool :=
  s.lock_ok && s.wait_ok && s.unlock_ok

/-- Worker `i` serves the queue: its thread exists and has not terminated,
its exit flag is not set and no cancellation request is pending on it. -/
def Serving (i : Nat) (W : World) : Prop :=
  W.threads i ≠ WorkerPc.absent ∧ W.threads i ≠ WorkerPc.terminated ∧
  (W.queue.workers i).exit = false ∧ W.cancel i = false

/-! ## The C `int` counter -/

theorem int_wrap_of_range {x : Int} (h1 : -2147483648 ≤ x) (h2 : x < 2147483648) :
    int_wrap x = x := by
  unfold int_wrap
  omega

theorem int_wrap_range (x : Int) : -2147483648 ≤ int_wrap x ∧ int_wrap x < 2147483648 := by
  unfold int_wrap
  omega

theorem int_wrap_succ (k : Int) : int_wrap (int_wrap k + 1) = int_wrap (k + 1) := by
  unfold int_wrap
  omega

theorem int_wrap_pred (k : Int) : int_wrap (int_wrap k - 1) = int_wrap (k - 1) := by
  unfold int_wrap
  omega

theorem int_wrap_length {l : List Nat} (h : l.length < 2147483648) :
    int_wrap (l.length : Int) = (l.length : Int) :=
  int_wrap_of_range (by omega) (by omega)

theorem int_wrap_length_eq_zero {l : List Nat} (h : l.length < 4294967296)
    (h0 : int_wrap (l.length : Int) = 0) : l = [] := by
  unfold int_wrap at h0
  have : l.length = 0 := by omega
  exact List.length_eq_zero.1 this

theorem int_wrap_zero : int_wrap 0 = 0 := by decide

/-! ## The doubly linked list -/

theorem dll_live {heap : Heap} {l : List Nat} :
    ∀ {pv p : Option Nat}, dll heap pv p l → ∀ x ∈ l, heap x ≠ none := by
  induction l with
  | nil => intro _ _ _ x hx; simp at hx
  | cons a l ih =>
    intro pv p h x hx
    obtain ⟨_, j, hj, _, hrest⟩ := h
    rcases List.mem_cons.1 hx with rfl | hx
    · simp [hj]
    · exact ih hrest x hx

theorem dll_congr {heap heap2 : Heap} {l : List Nat} (hag : ∀ x ∈ l, heap2 x = heap x) :
    ∀ {pv p : Option Nat}, dll heap pv p l → dll heap2 pv p l := by
  induction l with
  | nil => intro _ _ h; exact h
  | cons a l ih =>
    intro pv p h
    obtain ⟨hp, j, hj, hprev, hrest⟩ := h
    refine ⟨hp, j, ?_, hprev, ?_⟩
    · rw [hag a (List.mem_cons_self a l)]; exact hj
    · exact ih (fun x hx => hag x (List.mem_cons_of_mem a hx)) hrest

theorem dll_head {heap : Heap} {pv p : Option Nat} {l : List Nat}
    (h : dll heap pv p l) : p = l.head? := by
  cases l with
  | nil => exact h
  | cons a l => exact h.1

theorem dll_nodes_from {heap : Heap} {l : List Nat} :
    ∀ {pv p : Option Nat}, dll heap pv p l →
      ∀ fuel, l.length ≤ fuel → nodes_from heap fuel p = some l := by
  induction l with
  | nil =>
    intro pv p h fuel _
    have hp : p = none := h
    subst hp
    cases fuel <;> rfl
  | cons a l ih =>
    intro pv p h fuel hfuel
    obtain ⟨hp, j, hj, _, hrest⟩ := h
    subst hp
    cases fuel with
    | zero => simp at hfuel
    | succ fuel =>
      have hlen : l.length ≤ fuel := by simpa using hfuel
      simp [nodes_from, hj, ih hrest fuel hlen]

/-- Linking a new record in front, as `tq_queue_add_job` does. -/
theorem dll_push {heap : Heap} {jobs : Option Nat} {l : List Nat} {a func arg : Nat} :
    dll heap none jobs l → l.Nodup → heap a = none →
    dll (set_next
          (match jobs with
           | some head =>
             set_prev (Function.update heap a
               (some { func := func, arg := arg, prev := none, next := none })) head (some a)
           | none =>
             Function.update heap a
               (some { func := func, arg := arg, prev := none, next := none }))
          a jobs) none (some a) (a :: l) := by
  intro hl hnd hfresh
  have hal : a ∉ l := fun hmem => dll_live hl a hmem hfresh
  cases l with
  | nil =>
    have hj : jobs = none := hl
    subst hj
    refine ⟨rfl, { func := func, arg := arg, prev := none, next := none }, ?_, rfl, rfl⟩
    simp [set_next]
  | cons h t =>
    obtain ⟨hp, jh, hjh, hprev, hrest⟩ := hl
    subst hp
    have hah : a ≠ h := fun e => hal (e ▸ List.mem_cons_self _ _)
    have hha : h ≠ a := fun e => hah e.symm
    refine ⟨rfl, { func := func, arg := arg, prev := none, next := some h }, ?_, rfl, ?_⟩
    · simp [set_next, set_prev, hah]
    · refine ⟨rfl, { jh with prev := some a }, ?_, rfl, ?_⟩
      · simp [set_next, set_prev, hha, hjh]
      · refine dll_congr ?_ hrest
        intro x hx
        have hxa : x ≠ a := fun e => hal (e ▸ List.mem_cons_of_mem _ hx)
        have hxh : x ≠ h := fun e => (List.nodup_cons.1 hnd).1 (e ▸ hx)
        simp [set_next, set_prev, hxa, hxh]

/-- The oldest node of a list, and the list once it is unlinked as
`tq_worker_func` does. -/
theorem dll_unlink_last {heap : Heap} {a : Nat} {l : List Nat} :
    ∀ {pv p : Option Nat}, (l ++ [a]).Nodup → dll heap pv p (l ++ [a]) →
      ∃ j, heap a = some j ∧
        (l = [] → j.prev = pv ∧ p = some a) ∧
        (∀ b, l.getLast? = some b →
          j.prev = some b ∧ dll (set_next heap b none) pv p l) := by
  induction l with
  | nil =>
    intro pv p _ h
    obtain ⟨hp, j, hj, hprev, _⟩ := h
    exact ⟨j, hj, fun _ => ⟨hprev, hp⟩, fun b hb => by simp at hb⟩
  | cons c l ih =>
    intro pv p hnd h
    obtain ⟨hp, jc, hjc, hprev, hrest⟩ := h
    have hnd2 : (l ++ [a]).Nodup := (List.nodup_cons.1 hnd).2
    have hc : c ∉ l ++ [a] := (List.nodup_cons.1 hnd).1
    obtain ⟨j, hj, hnil, hlast⟩ := ih hnd2 hrest
    refine ⟨j, hj, fun e => by simp at e, ?_⟩
    intro b hb
    cases l with
    | nil =>
      have hbc : b = c := by simpa using hb.symm
      subst hbc
      obtain ⟨hjp, hnx⟩ := hnil rfl
      refine ⟨hjp, hp, { jc with next := none }, ?_, hprev, rfl⟩
      simp [set_next, hjc]
    | cons d l =>
      have hb2 : (d :: l).getLast? = some b := by simpa using hb
      obtain ⟨hjp, hdl⟩ := hlast b hb2
      have hbmem : b ∈ d :: l := List.mem_of_getLast?_eq_some hb2
      have hcb : c ≠ b := fun e => hc (List.mem_append_left _ (e ▸ hbmem))
      refine ⟨hjp, hp, jc, ?_, hprev, hdl⟩
      simp [set_next, hcb, hjc]

/-! ## Histories -/

theorem submitted_append (s t : List Event) :
    submitted (s ++ t) = submitted s ++ submitted t := by
  simp [submitted]

theorem dequeues_append (s t : List Event) :
    dequeues (s ++ t) = dequeues s ++ dequeues t := by
  simp [dequeues]

theorem executions_append (s t : List Event) :
    executions (s ++ t) = executions s ++ executions t := by
  simp [executions]

theorem quiet_refl (t : List Event) : Quiet t t := ⟨rfl, rfl, rfl⟩

theorem quiet_trans {t1 t2 t3 : List Event} (h1 : Quiet t1 t2) (h2 : Quiet t2 t3) :
    Quiet t1 t3 :=
  ⟨h2.1.trans h1.1, h2.2.1.trans h1.2.1, h2.2.2.trans h1.2.2⟩

theorem quiet_append {t ev : List Event} (h1 : submitted ev = []) (h2 : dequeues ev = [])
    (h3 : executions ev = []) : Quiet t (t ++ ev) := by
  refine ⟨?_, ?_, ?_⟩
  · rw [submitted_append, h1, List.append_nil]
  · rw [dequeues_append, h2, List.append_nil]
  · rw [executions_append, h3, List.append_nil]

@[simp] theorem submitted_lock (ok : Bool) : submitted (tq_mutex_lock ok) = [] := by
  cases ok <;> rfl

@[simp] theorem dequeues_lock (ok : Bool) : dequeues (tq_mutex_lock ok) = [] := by
  cases ok <;> rfl

@[simp] theorem executions_lock (ok : Bool) : executions (tq_mutex_lock ok) = [] := by
  cases ok <;> rfl

@[simp] theorem submitted_unlock (ok : Bool) : submitted (tq_mutex_unlock ok) = [] := by
  cases ok <;> rfl

@[simp] theorem dequeues_unlock (ok : Bool) : dequeues (tq_mutex_unlock ok) = [] := by
  cases ok <;> rfl

@[simp] theorem executions_unlock (ok : Bool) : executions (tq_mutex_unlock ok) = [] := by
  cases ok <;> rfl

theorem quiet_lock (t : List Event) (ok : Bool) : Quiet t (t ++ tq_mutex_lock ok) :=
  quiet_append (by simp) (by simp) (by simp)

theorem quiet_unlock (t : List Event) (ok : Bool) : Quiet t (t ++ tq_mutex_unlock ok) :=
  quiet_append (by simp) (by simp) (by simp)

/-! ## Heap accesses -/

theorem payload_set_next (heap : Heap) (b : Nat) (v : Option Nat) (x : Nat) :
    payload (set_next heap b v) x = payload heap x := by
  unfold payload set_next
  by_cases hx : x = b
  · subst hx
    cases h : heap x <;> simp [h]
  · simp [hx]

theorem payload_set_prev (heap : Heap) (b : Nat) (v : Option Nat) (x : Nat) :
    payload (set_prev heap b v) x = payload heap x := by
  unfold payload set_prev
  by_cases hx : x = b
  · subst hx
    cases h : heap x <;> simp [h]
  · simp [hx]

theorem payload_update_of_ne (heap : Heap) {a x : Nat} (v : Option tq_job) (hx : x ≠ a) :
    payload (Function.update heap a v) x = payload heap x := by
  unfold payload
  rw [Function.update_noteq hx]

theorem set_next_eq_none (heap : Heap) (b : Nat) (v : Option Nat) (x : Nat) :
    set_next heap b v x = none ↔ heap x = none := by
  unfold set_next
  by_cases hx : x = b
  · subst hx
    cases h : heap x <;> simp [h]
  · simp [hx]

theorem set_prev_eq_none (heap : Heap) (b : Nat) (v : Option Nat) (x : Nat) :
    set_prev heap b v x = none ↔ heap x = none := by
  unfold set_prev
  by_cases hx : x = b
  · subst hx
    cases h : heap x <;> simp [h]
  · simp [hx]

/-! ## Transitions that leave the list alone -/

theorem frame {W V : World} {l : List Nat} (hheap : V.heap = W.heap)
    (hjobs : V.queue.jobs = W.queue.jobs) (hnext : V.queue.next_job = W.queue.next_job)
    (hnb : V.queue.nb_jobs = W.queue.nb_jobs)
    (hjob : ∀ i, (V.threads i).job = (W.threads i).job)
    (htodo : ∀ i, (V.threads i).todo = (W.threads i).todo)
    (hq : Quiet W.trace V.trace) (hI : Inv W l) (hH : Hist W l) : Inv V l ∧ Hist V l := by
  constructor
  · refine ⟨hI.nodup, ?_, ?_, ?_, ?_⟩
    · rw [hheap, hjobs]; exact hI.chain
    · rw [hnext]; exact hI.last
    · rw [hnb]; exact hI.count
    · intro i a ha
      rw [hjob] at ha
      obtain ⟨h1, h2, h3⟩ := hI.held i a ha
      refine ⟨h1, by rw [hheap]; exact h2, ?_⟩
      intro k hk
      rw [hjob] at hk
      exact h3 k hk
  · obtain ⟨hs, hd, he⟩ := hq
    constructor
    · rw [hs, hheap]
      have := hH.fifo
      simpa [dequeued, hd] using this
    · intro i
      have := hH.mine i
      simpa [dequeued_by, executed_by, pending_of, hd, he, htodo, hheap] using this

/-! ## tq_queue_add_job -/

theorem add_job_ok_heap (func arg a : Nat) (u : Bool) (W : World) :
    (tq_queue_add_job func arg (some a) true u W).2.heap =
      set_next
        (match W.queue.jobs with
         | some head =>
           set_prev (Function.update W.heap a
             (some { func := func, arg := arg, prev := none, next := none })) head (some a)
         | none =>
           Function.update W.heap a
             (some { func := func, arg := arg, prev := none, next := none }))
        a W.queue.jobs := rfl

theorem add_job_ok_trace (func arg a : Nat) (u : Bool) (W : World) :
    (tq_queue_add_job func arg (some a) true u W).2.trace =
      W.trace ++ [Event.malloc (some a)] ++ tq_mutex_lock true ++ [Event.enqueue func arg] ++
        (if int_wrap (W.queue.nb_jobs + 1) = 1 then [Event.cond_broadcast] else []) ++
        tq_mutex_unlock u := rfl

theorem add_job_ok_heap_of_ne {func arg a : Nat} {u : Bool} {W : World} {l : List Nat}
    (hI : Inv W l) {x : Nat} (hxa : x ≠ a) (hxl : x ∉ l) :
    (tq_queue_add_job func arg (some a) true u W).2.heap x = W.heap x := by
  rw [add_job_ok_heap]
  have hhead := dll_head hI.chain
  cases l with
  | nil =>
    simp at hhead
    simp [hhead, set_next, hxa]
  | cons h t =>
    simp at hhead
    have hxh : x ≠ h := fun e => hxl (e ▸ List.mem_cons_self _ _)
    simp [hhead, set_next, set_prev, hxa, hxh]

theorem add_job_ok_payload {func arg a : Nat} {u : Bool} {W : World}
    (x : Nat) (hxa : x ≠ a) :
    payload (tq_queue_add_job func arg (some a) true u W).2.heap x = payload W.heap x := by
  rw [add_job_ok_heap, payload_set_next]
  cases W.queue.jobs with
  | none => exact payload_update_of_ne _ _ hxa
  | some h => simp only []; rw [payload_set_prev]; exact payload_update_of_ne _ _ hxa

theorem add_job_ok_payload_self {func arg a : Nat} {u : Bool} {W : World} :
    payload (tq_queue_add_job func arg (some a) true u W).2.heap a = (func, arg) := by
  rw [add_job_ok_heap, payload_set_next]
  cases W.queue.jobs with
  | none => simp [payload]
  | some h => simp only []; rw [payload_set_prev]; simp [payload]

theorem add_job_ok_inv {func arg a : Nat} {u : Bool} {W : World} {l : List Nat}
    (hI : Inv W l) (hfresh : W.heap a = none) :
    Inv (tq_queue_add_job func arg (some a) true u W).2 (a :: l) := by
  have hal : a ∉ l := fun hmem => dll_live hI.chain a hmem hfresh
  have hhead := dll_head hI.chain
  refine ⟨List.nodup_cons.2 ⟨hal, hI.nodup⟩, ?_, ?_, ?_, ?_⟩
  · rw [add_job_ok_heap]
    exact dll_push hI.chain hI.nodup hfresh
  · show (match W.queue.jobs with
          | some _ => W.queue.next_job
          | none => some a) = (a :: l).getLast?
    cases l with
    | nil => simp at hhead; simp [hhead]
    | cons h t =>
      simp at hhead
      simp only [hhead, hI.last, List.getLast?_cons_cons]
  · show int_wrap (W.queue.nb_jobs + 1) = int_wrap ((a :: l).length : Int)
    rw [hI.count, int_wrap_succ]; simp
  · intro i b hb
    have hb2 : (W.threads i).job = some b := hb
    obtain ⟨h1, h2, h3⟩ := hI.held i b hb2
    have hba : b ≠ a := fun e => h2 (e ▸ hfresh)
    refine ⟨?_, ?_, h3⟩
    · simp [hba, h1]
    · rw [add_job_ok_heap_of_ne hI hba h1]; exact h2

theorem add_job_ok_hist {func arg a : Nat} {u : Bool} {W : World} {l : List Nat}
    (hI : Inv W l) (hH : Hist W l) (hfresh : W.heap a = none) :
    Hist (tq_queue_add_job func arg (some a) true u W).2 (a :: l) := by
  have hal : a ∉ l := fun hmem => dll_live hI.chain a hmem hfresh
  have hs : submitted (tq_queue_add_job func arg (some a) true u W).2.trace =
      submitted W.trace ++ [(func, arg)] := by
    rw [add_job_ok_trace]
    simp only [submitted_append, submitted_lock, submitted_unlock]
    split <;> simp [submitted]
  have hd : dequeues (tq_queue_add_job func arg (some a) true u W).2.trace =
      dequeues W.trace := by
    rw [add_job_ok_trace]
    simp only [dequeues_append, dequeues_lock, dequeues_unlock]
    split <;> simp [dequeues]
  have he : executions (tq_queue_add_job func arg (some a) true u W).2.trace =
      executions W.trace := by
    rw [add_job_ok_trace]
    simp only [executions_append, executions_lock, executions_unlock]
    split <;> simp [executions]
  constructor
  · rw [hs, hH.fifo]
    have hmap : l.map (payload (tq_queue_add_job func arg (some a) true u W).2.heap) =
        l.map (payload W.heap) := by
      apply List.map_congr_left
      intro x hx
      exact add_job_ok_payload x (fun e => hal (e ▸ hx))
    simp [dequeued, hd, hmap, add_job_ok_payload_self]
  · intro i
    have hp : pending_of (tq_queue_add_job func arg (some a) true u W).2 i = pending_of W i := by
      unfold pending_of
      show (match (W.threads i).todo with
            | some b => [payload (tq_queue_add_job func arg (some a) true u W).2.heap b]
            | none => []) = _
      cases hpc : W.threads i with
      | started b =>
        have hb : (W.threads i).job = some b := by rw [hpc]; rfl
        have hba : b ≠ a := fun e => (hI.held i b hb).2.1 (e ▸ hfresh)
        simp [WorkerPc.todo, add_job_ok_payload b hba]
      | running b =>
        have hb : (W.threads i).job = some b := by rw [hpc]; rfl
        have hba : b ≠ a := fun e => (hI.held i b hb).2.1 (e ▸ hfresh)
        simp [WorkerPc.todo, add_job_ok_payload b hba]
      | _ => simp [WorkerPc.todo]
    rw [hp]
    have := hH.mine i
    simpa [dequeued_by, executed_by, hd, he] using this

/-! ## The worker -/

theorem todo_eq_none_of_job {pc : WorkerPc} (h : pc.job = none) : pc.todo = none := by
  cases pc <;> simp [WorkerPc.job] at h <;> rfl

theorem worker_take_exit {i : Nat} {u : Bool} {W : World}
    (hexit : (W.queue.workers i).exit = true) :
    worker_take i u W =
      { W with threads := Function.update W.threads i WorkerPc.terminated,
               trace := W.trace ++ tq_mutex_unlock u ++ [Event.thread_exit i] } := by
  unfold worker_take
  simp [hexit]

theorem worker_take_wait {i : Nat} {u : Bool} {W : World}
    (hexit : (W.queue.workers i).exit = false) (hnext : W.queue.next_job = none) :
    worker_take i u W =
      { W with threads := Function.update W.threads i WorkerPc.waiting,
               trace := W.trace ++ [Event.cond_wait] } := by
  unfold worker_take
  simp [hexit, hnext]

theorem worker_take_last {i a : Nat} {u : Bool} {W : World} {j : tq_job}
    (hexit : (W.queue.workers i).exit = false) (hnext : W.queue.next_job = some a)
    (hj : W.heap a = some j) (hp : j.prev = none) :
    worker_take i u W =
      { W with queue := { W.queue with jobs := none, next_job := none,
                                       nb_jobs := int_wrap (W.queue.nb_jobs - 1) },
               threads := Function.update W.threads i (WorkerPc.started a),
               trace := W.trace ++ [Event.dequeue i j.func j.arg] ++
                 (if int_wrap (W.queue.nb_jobs - 1) = 0 then [Event.cond_broadcast] else []) ++
                 tq_mutex_unlock u } := by
  unfold worker_take
  simp [hexit, hnext, hj, hp]

theorem worker_take_more {i a b : Nat} {u : Bool} {W : World} {j : tq_job}
    (hexit : (W.queue.workers i).exit = false) (hnext : W.queue.next_job = some a)
    (hj : W.heap a = some j) (hp : j.prev = some b) :
    worker_take i u W =
      { W with heap := set_next W.heap b none,
               queue := { W.queue with next_job := some b, nb_jobs := int_wrap (W.queue.nb_jobs - 1) },
               threads := Function.update W.threads i (WorkerPc.started a),
               trace := W.trace ++ [Event.dequeue i j.func j.arg] ++
                 (if int_wrap (W.queue.nb_jobs - 1) = 0 then [Event.cond_broadcast] else []) ++
                 tq_mutex_unlock u } := by
  unfold worker_take
  simp [hexit, hnext, hj, hp]

/-- The invariant and the history after worker `i` has unlinked the oldest
node `a` of the list. -/
theorem unlink_good {W V : World} {l0 : List Nat} {a i : Nat} {j : tq_job} {ev : List Event}
    (hI : Inv W (l0 ++ [a])) (hH : Hist W (l0 ++ [a])) (hidle : (W.threads i).job = none)
    (hj : W.heap a = some j)
    (hthreads : V.threads = Function.update W.threads i (WorkerPc.started a))
    (htrace : V.trace = W.trace ++ [Event.dequeue i j.func j.arg] ++ ev)
    (hev : submitted ev = [] ∧ dequeues ev = [] ∧ executions ev = [])
    (hpay : ∀ x, payload V.heap x = payload W.heap x)
    (hlive : ∀ x, V.heap x = none ↔ W.heap x = none)
    (hchain : dll V.heap none V.queue.jobs l0)
    (hlast : V.queue.next_job = l0.getLast?)
    (hnb : V.queue.nb_jobs = int_wrap (W.queue.nb_jobs - 1)) :
    Inv V l0 ∧ Hist V l0 := by
  have hnd : l0.Nodup ∧ a ∉ l0 := by
    have := hI.nodup
    rw [List.nodup_append] at this
    refine ⟨this.1, fun hmem => ?_⟩
    exact this.2.2 hmem (List.mem_singleton_self a)
  have hjobk : ∀ k, k ≠ i → V.threads k = W.threads k := by
    intro k hk
    rw [hthreads, Function.update_noteq hk]
  have hjobi : V.threads i = WorkerPc.started a := by
    rw [hthreads, Function.update_same]
  have hnotheld : ∀ k, (W.threads k).job ≠ some a := by
    intro k hk
    exact (hI.held k a hk).1 (by simp)
  constructor
  · refine ⟨hnd.1, hchain, hlast, ?_, ?_⟩
    · rw [hnb, hI.count, int_wrap_pred]; simp
    · intro k b hb
      by_cases hki : k = i
      · subst hki
        rw [hjobi] at hb
        have hba : b = a := by simpa [WorkerPc.job] using hb.symm
        subst hba
        refine ⟨hnd.2, ?_, ?_⟩
        · rw [Ne, hlive, hj]; simp
        · intro k2 hk2
          by_contra hne
          rw [hjobk k2 hne] at hk2
          exact hnotheld k2 hk2
      · rw [hjobk k hki] at hb
        obtain ⟨h1, h2, h3⟩ := hI.held k b hb
        refine ⟨fun hmem => h1 (List.mem_append_left _ hmem), ?_, ?_⟩
        · rw [Ne, hlive]; exact h2
        · intro k2 hk2
          by_cases hk2i : k2 = i
          · subst hk2i
            rw [hjobi] at hk2
            have hba : b = a := by simpa [WorkerPc.job] using hk2.symm
            subst hba
            exact absurd hb (hnotheld k)
          · rw [hjobk k2 hk2i] at hk2
            exact h3 k2 hk2
  · have hs : submitted V.trace = submitted W.trace := by
      rw [htrace, submitted_append, submitted_append, hev.1]
      show submitted W.trace ++ [] ++ [] = _
      simp
    have hd : dequeues V.trace = dequeues W.trace ++ [(i, j.func, j.arg)] := by
      rw [htrace, dequeues_append, dequeues_append, hev.2.1]
      show dequeues W.trace ++ [(i, j.func, j.arg)] ++ [] = _
      simp
    have he : executions V.trace = executions W.trace := by
      rw [htrace, executions_append, executions_append, hev.2.2]
      show executions W.trace ++ [] ++ [] = _
      simp
    have hpa : payload W.heap a = (j.func, j.arg) := by simp [payload, hj]
    have hmap : l0.map (payload V.heap) = l0.map (payload W.heap) :=
      List.map_congr_left (fun x _ => hpay x)
    constructor
    · rw [hs, hH.fifo]
      simp [dequeued, hd, hmap, hpa]
    · intro k
      have hm := hH.mine k
      by_cases hki : k = i
      · subst hki
        have hp0 : pending_of W k = [] := by
          unfold pending_of
          rw [todo_eq_none_of_job hidle]
        have hp1 : pending_of V k = [(j.func, j.arg)] := by
          unfold pending_of
          rw [hjobi]
          simp [WorkerPc.todo, hpay, hpa]
        rw [hp0] at hm
        rw [hp1]
        simp only [dequeued_by, executed_by, hd, he, List.append_nil] at hm ⊢
        simp [List.filter_append, hm]
      · have hp : pending_of V k = pending_of W k := by
          unfold pending_of
          rw [hjobk k hki]
          cases (W.threads k).todo <;> simp [hpay]
        rw [hp]
        have hik : ¬ i = k := fun e => hki e.symm
        simp only [dequeued_by, executed_by, hd, he] at hm ⊢
        simp [List.filter_append, hm, hik]

theorem worker_take_good {i : Nat} {u : Bool} {W : World} {l : List Nat}
    (hI : Inv W l) (hH : Hist W l) (hidle : (W.threads i).job = none) :
    ∃ l2, Inv (worker_take i u W) l2 ∧ Hist (worker_take i u W) l2 := by
  have hjob : ∀ (pc : WorkerPc), pc.job = none → ∀ k,
      (Function.update W.threads i pc k).job = (W.threads k).job := by
    intro pc hpc k
    by_cases hk : k = i
    · subst hk; rw [Function.update_same, hpc, hidle]
    · rw [Function.update_noteq hk]
  have htodo : ∀ (pc : WorkerPc), pc.job = none → ∀ k,
      (Function.update W.threads i pc k).todo = (W.threads k).todo := by
    intro pc hpc k
    by_cases hk : k = i
    · subst hk
      rw [Function.update_same, todo_eq_none_of_job hpc, todo_eq_none_of_job hidle]
    · rw [Function.update_noteq hk]
  cases hexit : (W.queue.workers i).exit with
  | true =>
    rw [worker_take_exit hexit]
    refine ⟨l, @frame W _ l rfl rfl rfl rfl (hjob WorkerPc.terminated rfl)
      (htodo WorkerPc.terminated rfl) ?_ hI hH⟩
    exact quiet_trans (quiet_unlock _ u)
      (@quiet_append _ [Event.thread_exit i] rfl rfl rfl)
  | false =>
    cases hnext : W.queue.next_job with
    | none =>
      rw [worker_take_wait hexit hnext]
      exact ⟨l, @frame W _ l rfl rfl rfl rfl (hjob WorkerPc.waiting rfl)
        (htodo WorkerPc.waiting rfl) (@quiet_append _ [Event.cond_wait] rfl rfl rfl) hI hH⟩
    | some a =>
      have hla : l.getLast? = some a := by rw [← hI.last, hnext]
      obtain ⟨l0, rfl⟩ := List.getLast?_eq_some_iff.1 hla
      obtain ⟨j, hj, hnil, hmore⟩ := dll_unlink_last hI.nodup hI.chain
      have hev : ∀ (c : Prop) [Decidable c],
          submitted ((if c then [Event.cond_broadcast] else []) ++ tq_mutex_unlock u) = [] ∧
          dequeues ((if c then [Event.cond_broadcast] else []) ++ tq_mutex_unlock u) = [] ∧
          executions ((if c then [Event.cond_broadcast] else []) ++ tq_mutex_unlock u) = [] := by
        intro c _
        by_cases hc : c
        · rw [if_pos hc]; cases u <;> exact ⟨rfl, rfl, rfl⟩
        · rw [if_neg hc]; cases u <;> exact ⟨rfl, rfl, rfl⟩
      refine ⟨l0, ?_⟩
      rcases List.eq_nil_or_concat l0 with hl0 | ⟨l1, b, hl0⟩
      · subst hl0
        obtain ⟨hp, hjobs⟩ := hnil rfl
        rw [worker_take_last hexit hnext hj hp]
        refine unlink_good hI hH hidle hj rfl ?_ (hev (int_wrap (W.queue.nb_jobs - 1) = 0)) (fun _ => rfl) (fun _ => Iff.rfl)
          rfl rfl rfl
        simp [List.append_assoc]
      · have hl0b : l0.getLast? = some b := by
          rw [hl0, List.concat_eq_append, List.getLast?_concat]
        obtain ⟨hp, hdl⟩ := hmore b hl0b
        rw [worker_take_more hexit hnext hj hp]
        refine unlink_good hI hH hidle hj rfl ?_ (hev (int_wrap (W.queue.nb_jobs - 1) = 0)) (fun x => payload_set_next _ _ _ x)
          (fun x => set_next_eq_none _ _ _ x) hdl hl0b.symm rfl
        simp [List.append_assoc]

theorem worker_func_absent {i : Nat} {lo wo uo : Bool} {W : World}
    (hpc : W.threads i = WorkerPc.absent) : tq_worker_func i lo wo uo W = W := by
  unfold tq_worker_func; simp [hpc]

theorem worker_func_terminated {i : Nat} {lo wo uo : Bool} {W : World}
    (hpc : W.threads i = WorkerPc.terminated) : tq_worker_func i lo wo uo W = W := by
  unfold tq_worker_func; simp [hpc]

theorem worker_func_lock_failed {i : Nat} {wo uo : Bool} {W : World}
    (hpc : (W.threads i = WorkerPc.startup ∧ W.cancel i = false) ∨
      W.threads i = WorkerPc.idle) :
    tq_worker_func i false wo uo W =
      { W with threads := Function.update W.threads i WorkerPc.terminated,
               trace := W.trace ++ tq_mutex_lock false ++
                 [Event.trace_msg Msg.cannot_lock_mutex] } := by
  unfold tq_worker_func
  rcases hpc with ⟨hpc, hc⟩ | hpc <;> simp [hpc, *]

/-- A thread with a pending cancellation request whose first lock fails is
cancelled inside `tq_trace`. -/
theorem worker_func_cancelled_lock {i : Nat} {wo uo : Bool} {W : World}
    (hpc : W.threads i = WorkerPc.startup) (hc : W.cancel i = true) :
    tq_worker_func i false wo uo W =
      { W with threads := Function.update W.threads i WorkerPc.terminated,
               trace := W.trace ++
                 [Event.mutex_lock false, Event.trace_msg Msg.cannot_lock_mutex],
               trace_abandoned := true } := by
  unfold tq_worker_func
  simp [hpc, hc]

theorem worker_func_startup {i : Nat} {wo uo : Bool} {W : World}
    (hpc : W.threads i = WorkerPc.startup) (hc : W.cancel i = false) :
    tq_worker_func i true wo uo W =
      { W with threads := Function.update W.threads i WorkerPc.idle,
               trace := W.trace ++ tq_mutex_lock true ++ tq_mutex_unlock uo } := by
  unfold tq_worker_func
  simp [hpc, hc]

/-- A thread with a pending cancellation request whose first lock succeeds
terminates at `pthread_testcancel`, or inside `tq_trace` when its unlock
fails. -/
theorem worker_func_cancelled {i : Nat} {wo uo : Bool} {W : World}
    (hpc : W.threads i = WorkerPc.startup) (hc : W.cancel i = true) :
    tq_worker_func i true wo uo W =
      { W with threads := Function.update W.threads i WorkerPc.terminated,
               trace := W.trace ++ tq_mutex_lock true ++
                 (if uo then tq_mutex_unlock true
                  else [Event.mutex_unlock false, Event.trace_msg Msg.cannot_unlock_mutex]),
               trace_abandoned := W.trace_abandoned || !uo } := by
  unfold tq_worker_func
  cases uo <;> simp [hpc, hc]

theorem worker_func_idle {i : Nat} {wo uo : Bool} {W : World}
    (hpc : W.threads i = WorkerPc.idle) :
    tq_worker_func i true wo uo W =
      worker_take i uo { W with trace := W.trace ++ tq_mutex_lock true } := by
  unfold tq_worker_func; simp [hpc]

theorem worker_func_wait_failed {i : Nat} {lo uo : Bool} {W : World}
    (hpc : W.threads i = WorkerPc.waiting) :
    tq_worker_func i lo false uo W =
      { W with threads := Function.update W.threads i WorkerPc.terminated,
               trace := W.trace ++ [Event.trace_msg Msg.cannot_wait_for_condition] ++
                 tq_mutex_unlock uo } := by
  unfold tq_worker_func; simp [hpc]

theorem worker_func_woken {i : Nat} {lo uo : Bool} {W : World}
    (hpc : W.threads i = WorkerPc.waiting) :
    tq_worker_func i lo true uo W = worker_take i uo W := by
  unfold tq_worker_func; simp [hpc]

theorem worker_func_dangling {i a : Nat} {lo wo uo : Bool} {W : World}
    (hpc : (W.threads i).job = some a) (hj : W.heap a = none) :
    tq_worker_func i lo wo uo W = W := by
  unfold tq_worker_func
  cases h : W.threads i <;> simp [h, WorkerPc.job] at hpc <;> subst hpc <;> simp [hj]

theorem worker_func_started {i a : Nat} {lo wo uo : Bool} {W : World} {j : tq_job}
    (hpc : W.threads i = WorkerPc.started a) (hj : W.heap a = some j) :
    tq_worker_func i lo wo uo W =
      { W with threads := Function.update W.threads i (WorkerPc.running a),
               trace := W.trace ++
                 (match W.queue.job_started_hook with
                  | some hook => [Event.job_started_hook i hook j.arg]
                  | none => []) } := by
  unfold tq_worker_func; simp [hpc, hj]

theorem worker_func_running {i a : Nat} {lo wo uo : Bool} {W : World} {j : tq_job}
    (hpc : W.threads i = WorkerPc.running a) (hj : W.heap a = some j) :
    tq_worker_func i lo wo uo W =
      { W with threads := Function.update W.threads i (WorkerPc.finishing a),
               trace := W.trace ++ [Event.job_func i j.func j.arg] } := by
  unfold tq_worker_func; simp [hpc, hj]

theorem worker_func_finishing {i a : Nat} {lo wo uo : Bool} {W : World} {j : tq_job}
    (hpc : W.threads i = WorkerPc.finishing a) (hj : W.heap a = some j) :
    tq_worker_func i lo wo uo W =
      { W with heap := Function.update W.heap a none,
               threads := Function.update W.threads i WorkerPc.idle,
               trace := W.trace ++
                 (match W.queue.job_done_hook with
                  | some hook => [Event.job_done_hook i hook j.arg]
                  | none => []) ++ [Event.free a] } := by
  unfold tq_worker_func; simp [hpc, hj]

theorem job_update {W : World} {i : Nat} {pc : WorkerPc} (h : pc.job = (W.threads i).job) :
    ∀ k, (Function.update W.threads i pc k).job = (W.threads k).job := by
  intro k
  by_cases hk : k = i
  · subst hk; rw [Function.update_same, h]
  · rw [Function.update_noteq hk]

theorem todo_update {W : World} {i : Nat} {pc : WorkerPc} (h : pc.todo = (W.threads i).todo) :
    ∀ k, (Function.update W.threads i pc k).todo = (W.threads k).todo := by
  intro k
  by_cases hk : k = i
  · subst hk; rw [Function.update_same, h]
  · rw [Function.update_noteq hk]

theorem worker_running_good {i a : Nat} {W : World} {j : tq_job} {l : List Nat}
    (hI : Inv W l) (hH : Hist W l) (hpc : W.threads i = WorkerPc.running a)
    (hj : W.heap a = some j) :
    Inv { W with threads := Function.update W.threads i (WorkerPc.finishing a),
                 trace := W.trace ++ [Event.job_func i j.func j.arg] } l ∧
    Hist { W with threads := Function.update W.threads i (WorkerPc.finishing a),
                  trace := W.trace ++ [Event.job_func i j.func j.arg] } l := by
  have hjob := @job_update W i (WorkerPc.finishing a) (by rw [hpc]; rfl)
  constructor
  · refine ⟨hI.nodup, hI.chain, hI.last, hI.count, ?_⟩
    intro k b hb
    have hb2 : (W.threads k).job = some b := by rw [← hjob k]; exact hb
    obtain ⟨h1, h2, h3⟩ := hI.held k b hb2
    refine ⟨h1, h2, ?_⟩
    intro k2 hk2
    have hk3 : (W.threads k2).job = some b := by rw [← hjob k2]; exact hk2
    exact h3 k2 hk3
  · have hs : submitted (W.trace ++ [Event.job_func i j.func j.arg]) = submitted W.trace := by
      rw [submitted_append]
      show submitted W.trace ++ [] = _
      simp
    have hd : dequeues (W.trace ++ [Event.job_func i j.func j.arg]) = dequeues W.trace := by
      rw [dequeues_append]
      show dequeues W.trace ++ [] = _
      simp
    have he : executions (W.trace ++ [Event.job_func i j.func j.arg]) =
        executions W.trace ++ [(i, j.func, j.arg)] := by
      rw [executions_append]
      rfl
    constructor
    · show submitted (W.trace ++ [Event.job_func i j.func j.arg]) =
        dequeued (W.trace ++ [Event.job_func i j.func j.arg]) ++ _
      rw [hs, hH.fifo]
      simp [dequeued, hd]
    · intro k
      have hm := hH.mine k
      show dequeued_by k (W.trace ++ [Event.job_func i j.func j.arg]) =
        executed_by k (W.trace ++ [Event.job_func i j.func j.arg]) ++ _
      by_cases hki : k = i
      · subst hki
        have hp0 : pending_of W k = [(j.func, j.arg)] := by
          unfold pending_of
          rw [hpc]
          simp [WorkerPc.todo, payload, hj]
        have hp1 : pending_of { W with
            threads := Function.update W.threads k (WorkerPc.finishing a),
            trace := W.trace ++ [Event.job_func k j.func j.arg] } k = [] := by
          unfold pending_of
          simp [WorkerPc.todo]
        rw [hp0] at hm
        rw [hp1]
        simp only [dequeued_by, executed_by, hd, he] at hm ⊢
        simp [List.filter_append, hm]
      · have hp : pending_of { W with
            threads := Function.update W.threads i (WorkerPc.finishing a),
            trace := W.trace ++ [Event.job_func i j.func j.arg] } k = pending_of W k := by
          unfold pending_of
          simp [Function.update_noteq hki]
        rw [hp]
        have hik : ¬ i = k := fun e => hki e.symm
        simp only [dequeued_by, executed_by, hd, he] at hm ⊢
        simp [List.filter_append, hm, hik]

theorem worker_finishing_good {i a : Nat} {W : World} {l : List Nat} {ev : List Event}
    (hI : Inv W l) (hH : Hist W l) (hpc : W.threads i = WorkerPc.finishing a)
    (hev : Quiet W.trace (W.trace ++ ev)) :
    Inv { W with heap := Function.update W.heap a none,
                 threads := Function.update W.threads i WorkerPc.idle,
                 trace := W.trace ++ ev } l ∧
    Hist { W with heap := Function.update W.heap a none,
                  threads := Function.update W.threads i WorkerPc.idle,
                  trace := W.trace ++ ev } l := by
  have hia : (W.threads i).job = some a := by rw [hpc]; rfl
  obtain ⟨hal, _, huniq⟩ := hI.held i a hia
  have hother : ∀ k b, (Function.update W.threads i WorkerPc.idle k).job = some b →
      k ≠ i ∧ (W.threads k).job = some b ∧ b ≠ a := by
    intro k b hb
    by_cases hk : k = i
    · subst hk
      rw [Function.update_same] at hb
      simp [WorkerPc.job] at hb
    · rw [Function.update_noteq hk] at hb
      exact ⟨hk, hb, fun e => hk (huniq k (e ▸ hb))⟩
  constructor
  · refine ⟨hI.nodup, ?_, hI.last, hI.count, ?_⟩
    · refine dll_congr ?_ hI.chain
      intro x hx
      have hxa : x ≠ a := fun e => hal (e ▸ hx)
      exact Function.update_noteq hxa _ _
    · intro k b hb
      obtain ⟨_, hb2, hba⟩ := hother k b hb
      obtain ⟨h1, h2, h3⟩ := hI.held k b hb2
      refine ⟨h1, ?_, ?_⟩
      · show Function.update W.heap a none b ≠ none
        rw [Function.update_noteq hba]; exact h2
      · intro k2 hk2
        exact h3 k2 (hother k2 b hk2).2.1
  · obtain ⟨hs, hd, he⟩ := hev
    constructor
    · show submitted (W.trace ++ ev) = dequeued (W.trace ++ ev) ++ _
      rw [hs, hH.fifo]
      have hmap : l.map (payload (Function.update W.heap a none)) = l.map (payload W.heap) := by
        apply List.map_congr_left
        intro x hx
        exact payload_update_of_ne _ _ (fun e => hal (e ▸ hx))
      simp [dequeued, hd, hmap]
    · intro k
      have hm := hH.mine k
      show dequeued_by k (W.trace ++ ev) = executed_by k (W.trace ++ ev) ++ _
      have hp : ∀ V : World, V.heap = Function.update W.heap a none →
          V.threads = Function.update W.threads i WorkerPc.idle →
          pending_of V k = pending_of W k := by
        intro V hVh hVt
        unfold pending_of
        rw [hVh, hVt]
        by_cases hk : k = i
        · subst hk
          simp [hpc, WorkerPc.todo]
        · simp only [Function.update_noteq hk]
          cases hpk : W.threads k with
          | started b =>
            have hb : (W.threads k).job = some b := by rw [hpk]; rfl
            have hba : b ≠ a := fun e => hk (huniq k (e ▸ hb))
            simp [WorkerPc.todo, payload_update_of_ne _ _ hba]
          | running b =>
            have hb : (W.threads k).job = some b := by rw [hpk]; rfl
            have hba : b ≠ a := fun e => hk (huniq k (e ▸ hb))
            simp [WorkerPc.todo, payload_update_of_ne _ _ hba]
          | _ => simp [WorkerPc.todo]
      rw [hp _ rfl rfl]
      simpa [dequeued_by, executed_by, hd, he] using hm

theorem worker_good {i : Nat} {lo wo uo : Bool} {W : World} {l : List Nat}
    (hI : Inv W l) (hH : Hist W l) :
    ∃ l2, Inv (tq_worker_func i lo wo uo W) l2 ∧ Hist (tq_worker_func i lo wo uo W) l2 := by
  cases hpc : W.threads i with
  | absent => rw [worker_func_absent hpc]; exact ⟨l, hI, hH⟩
  | terminated => rw [worker_func_terminated hpc]; exact ⟨l, hI, hH⟩
  | startup =>
    cases hc : W.cancel i with
    | false =>
      cases lo with
      | false =>
        rw [worker_func_lock_failed (Or.inl ⟨hpc, hc⟩)]
        refine ⟨l, @frame W _ l rfl rfl rfl rfl (job_update (by rw [hpc]; rfl))
          (todo_update (by rw [hpc]; rfl)) ?_ hI hH⟩
        exact quiet_trans (quiet_lock _ false)
          (@quiet_append _ [Event.trace_msg Msg.cannot_lock_mutex] rfl rfl rfl)
      | true =>
        rw [worker_func_startup hpc hc]
        refine ⟨l, @frame W _ l rfl rfl rfl rfl (job_update (by rw [hpc]; rfl))
          (todo_update (by rw [hpc]; rfl)) ?_ hI hH⟩
        exact quiet_trans (quiet_lock _ true) (quiet_unlock _ uo)
    | true =>
      cases lo with
      | false =>
        rw [worker_func_cancelled_lock hpc hc]
        refine ⟨l, @frame W _ l rfl rfl rfl rfl (job_update (by rw [hpc]; rfl))
          (todo_update (by rw [hpc]; rfl)) ?_ hI hH⟩
        exact @quiet_append _
          [Event.mutex_lock false, Event.trace_msg Msg.cannot_lock_mutex] rfl rfl rfl
      | true =>
        rw [worker_func_cancelled hpc hc]
        refine ⟨l, @frame W _ l rfl rfl rfl rfl (job_update (by rw [hpc]; rfl))
          (todo_update (by rw [hpc]; rfl)) ?_ hI hH⟩
        cases uo with
        | true => exact quiet_trans (quiet_lock _ true) (quiet_unlock _ true)
        | false =>
          exact quiet_trans (quiet_lock _ true) (@quiet_append _
            [Event.mutex_unlock false, Event.trace_msg Msg.cannot_unlock_mutex] rfl rfl rfl)
  | idle =>
    cases lo with
    | false =>
      rw [worker_func_lock_failed (Or.inr hpc)]
      refine ⟨l, @frame W _ l rfl rfl rfl rfl (job_update (by rw [hpc]; rfl))
        (todo_update (by rw [hpc]; rfl)) ?_ hI hH⟩
      exact quiet_trans (quiet_lock _ false)
        (@quiet_append _ [Event.trace_msg Msg.cannot_lock_mutex] rfl rfl rfl)
    | true =>
      rw [worker_func_idle hpc]
      obtain ⟨h1, h2⟩ := @frame W { W with trace := W.trace ++ tq_mutex_lock true } l
        rfl rfl rfl rfl (fun _ => rfl) (fun _ => rfl) (quiet_lock _ true) hI hH
      exact worker_take_good h1 h2 (by show (W.threads i).job = none; rw [hpc]; rfl)
  | waiting =>
    cases wo with
    | false =>
      rw [worker_func_wait_failed hpc]
      refine ⟨l, @frame W _ l rfl rfl rfl rfl (job_update (by rw [hpc]; rfl))
        (todo_update (by rw [hpc]; rfl)) ?_ hI hH⟩
      exact quiet_trans
        (@quiet_append _ [Event.trace_msg Msg.cannot_wait_for_condition] rfl rfl rfl)
        (quiet_unlock _ uo)
    | true =>
      rw [worker_func_woken hpc]
      exact worker_take_good hI hH (by rw [hpc]; rfl)
  | started a =>
    cases hj : W.heap a with
    | none =>
      rw [worker_func_dangling (by rw [hpc]; rfl) hj]; exact ⟨l, hI, hH⟩
    | some j =>
      rw [worker_func_started hpc hj]
      refine ⟨l, @frame W _ l rfl rfl rfl rfl (job_update (by rw [hpc]; rfl))
        (todo_update (by rw [hpc]; rfl)) ?_ hI hH⟩
      cases W.queue.job_started_hook with
      | none => exact @quiet_append _ [] rfl rfl rfl
      | some hook => exact @quiet_append _ [Event.job_started_hook i hook j.arg] rfl rfl rfl
  | running a =>
    cases hj : W.heap a with
    | none =>
      rw [worker_func_dangling (by rw [hpc]; rfl) hj]; exact ⟨l, hI, hH⟩
    | some j =>
      rw [worker_func_running hpc hj]
      exact ⟨l, worker_running_good hI hH hpc hj⟩
  | finishing a =>
    cases hj : W.heap a with
    | none =>
      rw [worker_func_dangling (by rw [hpc]; rfl) hj]; exact ⟨l, hI, hH⟩
    | some j =>
      rw [worker_func_finishing hpc hj, List.append_assoc]
      refine ⟨l, worker_finishing_good hI hH hpc ?_⟩
      cases W.queue.job_done_hook with
      | none => exact @quiet_append _ ([] ++ [Event.free a]) rfl rfl rfl
      | some hook =>
        exact @quiet_append _ ([Event.job_done_hook i hook j.arg] ++ [Event.free a])
          rfl rfl rfl

/-! ## tq_queue_start and tq_queue_stop -/

theorem start_create_heap (c : Nat → Bool) :
    ∀ (n i : Nat) (W : World), (start_create c n i W).2.heap = W.heap := by
  intro n
  induction n with
  | zero => intro i W; rfl
  | succ n ih =>
    intro i W
    unfold start_create
    cases hc : c i
    · simp
    · simp [ih]

theorem start_create_queue (c : Nat → Bool) :
    ∀ (n i : Nat) (W : World), (start_create c n i W).2.queue = W.queue := by
  intro n
  induction n with
  | zero => intro i W; rfl
  | succ n ih =>
    intro i W
    unfold start_create
    cases hc : c i
    · simp
    · simp [ih]

theorem start_create_cancel (c : Nat → Bool) :
    ∀ (n i : Nat) (W : World), (start_create c n i W).2.cancel = W.cancel := by
  intro n
  induction n with
  | zero => intro i W; rfl
  | succ n ih =>
    intro i W
    unfold start_create
    cases hc : c i
    · simp
    · simp [ih]

theorem start_create_quiet (c : Nat → Bool) :
    ∀ (n i : Nat) (W : World), Quiet W.trace (start_create c n i W).2.trace := by
  intro n
  induction n with
  | zero => intro i W; exact quiet_refl _
  | succ n ih =>
    intro i W
    unfold start_create
    cases hc : c i
    · simp only [Bool.false_eq_true, if_false]
      exact @quiet_append _
        [Event.thread_create i false, Event.set_error Msg.cannot_create_thread] rfl rfl rfl
    · simp only [if_true]
      exact quiet_trans (@quiet_append _ [Event.thread_create i true] rfl rfl rfl) (ih _ _)

theorem start_create_threads (c : Nat → Bool) :
    ∀ (n i : Nat) (W : World) (k : Nat),
      (start_create c n i W).2.threads k = W.threads k ∨
      (start_create c n i W).2.threads k = WorkerPc.startup := by
  intro n
  induction n with
  | zero => intro i W k; exact Or.inl rfl
  | succ n ih =>
    intro i W k
    unfold start_create
    cases hc : c i
    · simp
    · simp only [if_true]
      have hih := ih (i + 1)
        { W with threads := Function.update W.threads i WorkerPc.startup,
                 trace := W.trace ++ [Event.thread_create i true] } k
      rcases hih with h | h
      · rw [h]
        by_cases hk : k = i
        · subst hk; right; simp
        · left; simp [Function.update_noteq hk]
      · exact Or.inr h

/-- The creation loop when `pthread_create` fails at slot `s` and succeeds on
the slots before it. -/
theorem start_create_fail (c : Nat → Bool) :
    ∀ (n i : Nat) (W : World) (s : Nat), i ≤ s → s < i + n → c s = false →
      (∀ k, i ≤ k → k < s → c k = true) →
      (start_create c n i W).1 = some s ∧
      (∀ k, (start_create c n i W).2.threads k =
        if i ≤ k ∧ k < s then WorkerPc.startup else W.threads k) ∧
      (start_create c n i W).2.trace =
        W.trace ++ (List.range' i (s - i)).map (fun k => Event.thread_create k true) ++
          [Event.thread_create s false, Event.set_error Msg.cannot_create_thread] := by
  intro n
  induction n with
  | zero => intro i W s h1 h2; omega
  | succ n ih =>
    intro i W s h1 h2 hfail hok
    unfold start_create
    by_cases his : i = s
    · subst his
      simp only [hfail, Bool.false_eq_true, if_false]
      refine ⟨?_, ?_, ?_⟩
      · simp
      · intro k
        have : ¬ (i ≤ k ∧ k < i) := by omega
        simp [this]
      · simp
    · have hlt : i < s := by omega
      have hci : c i = true := hok i (le_refl i) hlt
      simp only [hci, if_true]
      obtain ⟨r1, r2, r3⟩ := ih (i + 1)
        { W with threads := Function.update W.threads i WorkerPc.startup,
                 trace := W.trace ++ [Event.thread_create i true] } s (by omega) (by omega)
        hfail (fun k hk1 hk2 => hok k (by omega) hk2)
      refine ⟨r1, ?_, ?_⟩
      · intro k
        rw [r2 k]
        by_cases hki : k = i
        · subst hki
          have h1 : ¬ (k + 1 ≤ k ∧ k < s) := by omega
          have h2 : k ≤ k ∧ k < s := by omega
          simp [h1, h2]
        · by_cases hin : i + 1 ≤ k ∧ k < s
          · have h2 : i ≤ k ∧ k < s := by omega
            simp [hin, h2]
          · have h2 : ¬ (i ≤ k ∧ k < s) := by omega
            simp [hin, h2, Function.update_noteq hki]
      · rw [r3]
        have hsi : s - i = (s - (i + 1)) + 1 := by omega
        rw [hsi, List.range'_succ]
        simp

/-- The creation loop when every `pthread_create` succeeds. -/
theorem start_create_ok (c : Nat → Bool) :
    ∀ (n i : Nat) (W : World), (∀ k, i ≤ k → k < i + n → c k = true) →
      (start_create c n i W).1 = none ∧
      (∀ k, (start_create c n i W).2.threads k =
        if i ≤ k ∧ k < i + n then WorkerPc.startup else W.threads k) ∧
      (start_create c n i W).2.trace =
        W.trace ++ (List.range' i n).map (fun k => Event.thread_create k true) := by
  intro n
  induction n with
  | zero =>
    intro i W _
    refine ⟨rfl, ?_, by simp [start_create]⟩
    intro k
    have : ¬ (i ≤ k ∧ k < i) := by omega
    simp [start_create, this]
  | succ n ih =>
    intro i W hok
    unfold start_create
    have hci : c i = true := hok i (le_refl i) (by omega)
    simp only [hci, if_true]
    obtain ⟨r1, r2, r3⟩ := ih (i + 1)
      { W with threads := Function.update W.threads i WorkerPc.startup,
               trace := W.trace ++ [Event.thread_create i true] }
      (fun k hk1 hk2 => hok k (by omega) (by omega))
    refine ⟨r1, ?_, ?_⟩
    · intro k
      rw [r2 k]
      by_cases hki : k = i
      · subst hki
        have h1 : ¬ (k + 1 ≤ k ∧ k < k + 1 + n) := by omega
        have h2 : k ≤ k ∧ k < k + (n + 1) := by omega
        simp [h1, h2]
      · by_cases hin : i + 1 ≤ k ∧ k < i + 1 + n
        · have h2 : i ≤ k ∧ k < i + (n + 1) := by omega
          simp [hin, h2]
        · have h2 : ¬ (i ≤ k ∧ k < i + (n + 1)) := by omega
          simp [hin, h2, Function.update_noteq hki]
    · rw [r3, List.range'_succ]
      simp

theorem start_cancel_spec :
    ∀ (n j : Nat) (W : World),
      (start_cancel n j W).heap = W.heap ∧ (start_cancel n j W).queue = W.queue ∧
      (start_cancel n j W).threads = W.threads ∧
      (∀ k, (start_cancel n j W).cancel k = if j ≤ k ∧ k < j + n then true else W.cancel k) ∧
      (start_cancel n j W).trace =
        W.trace ++ (List.range' j n).map (fun k => Event.thread_cancel k) := by
  intro n
  induction n with
  | zero =>
    intro j W
    refine ⟨rfl, rfl, rfl, ?_, by simp [start_cancel]⟩
    intro k
    have : ¬ (j ≤ k ∧ k < j) := by omega
    simp [start_cancel, this]
  | succ n ih =>
    intro j W
    unfold start_cancel
    obtain ⟨r1, r2, r3, r4, r5⟩ := ih (j + 1)
      { W with cancel := Function.update W.cancel j true,
               trace := W.trace ++ [Event.thread_cancel j] }
    refine ⟨r1, r2, r3, ?_, ?_⟩
    · intro k
      rw [r4 k]
      by_cases hkj : k = j
      · subst hkj
        have h1 : ¬ (k + 1 ≤ k ∧ k < k + 1 + n) := by omega
        have h2 : k ≤ k ∧ k < k + (n + 1) := by omega
        simp [h1, h2]
      · by_cases hin : j + 1 ≤ k ∧ k < j + 1 + n
        · have h2 : j ≤ k ∧ k < j + (n + 1) := by omega
          simp [hin, h2]
        · have h2 : ¬ (j ≤ k ∧ k < j + (n + 1)) := by omega
          simp [hin, h2, Function.update_noteq hkj]
    · rw [r5, List.range'_succ]
      simp

theorem start_cancel_quiet (n j : Nat) (W : World) :
    Quiet W.trace (start_cancel n j W).trace := by
  rw [(start_cancel_spec n j W).2.2.2.2]
  apply quiet_append
  · simp [submitted, List.filterMap_map]
  · simp [dequeues, List.filterMap_map]
  · simp [executions, List.filterMap_map]

theorem stop_flags_spec :
    ∀ (n i : Nat) (ws : Nat → tq_worker) (k : Nat),
      stop_flags n i ws k = if i ≤ k ∧ k < i + n then { ws k with exit := true } else ws k := by
  intro n
  induction n with
  | zero =>
    intro i ws k
    have : ¬ (i ≤ k ∧ k < i) := by omega
    simp [stop_flags, this]
  | succ n ih =>
    intro i ws k
    unfold stop_flags
    rw [ih]
    by_cases hki : k = i
    · subst hki
      have h1 : ¬ (k + 1 ≤ k ∧ k < k + 1 + n) := by omega
      have h2 : k ≤ k ∧ k < k + (n + 1) := by omega
      simp [h1, h2]
    · by_cases hin : i + 1 ≤ k ∧ k < i + 1 + n
      · have h2 : i ≤ k ∧ k < i + (n + 1) := by omega
        simp [hin, h2, Function.update_noteq hki]
      · have h2 : ¬ (i ≤ k ∧ k < i + (n + 1)) := by omega
        simp [hin, h2, Function.update_noteq hki]

theorem start_section_frame (lo : Bool) (c : Nat → Bool) (uo : Bool) (W : World) :
    (start_section lo c uo W).2.heap = W.heap ∧
    (start_section lo c uo W).2.queue = W.queue ∧
    Quiet W.trace (start_section lo c uo W).2.trace ∧
    ∀ k, (start_section lo c uo W).2.threads k = W.threads k ∨
      (start_section lo c uo W).2.threads k = WorkerPc.startup := by
  cases lo with
  | false =>
    exact ⟨rfl, rfl, quiet_lock _ false, fun k => Or.inl rfl⟩
  | true =>
    have h1 := start_create_heap c W.queue.nb_workers.toNat 0
      { W with trace := W.trace ++ tq_mutex_lock true }
    have h2 := start_create_queue c W.queue.nb_workers.toNat 0
      { W with trace := W.trace ++ tq_mutex_lock true }
    have h3 := start_create_quiet c W.queue.nb_workers.toNat 0
      { W with trace := W.trace ++ tq_mutex_lock true }
    have h4 := start_create_threads c W.queue.nb_workers.toNat 0
      { W with trace := W.trace ++ tq_mutex_lock true }
    unfold start_section
    simp only [Bool.not_true, Bool.false_eq_true, if_false]
    cases hsc : start_create c W.queue.nb_workers.toNat 0
        { W with trace := W.trace ++ tq_mutex_lock true } with
    | mk r V =>
      rw [hsc] at h1 h2 h3 h4
      simp only at h1 h2 h3 h4
      cases r with
      | none =>
        refine ⟨h1, h2, ?_, h4⟩
        exact quiet_trans (quiet_trans (quiet_lock _ true) h3) (quiet_unlock _ uo)
      | some s =>
        obtain ⟨c1, c2, c3, _, _⟩ := start_cancel_spec s 0 V
        refine ⟨c1.trans h1, c2.trans h2, ?_, ?_⟩
        · exact quiet_trans (quiet_trans (quiet_trans (quiet_lock _ true) h3)
            (start_cancel_quiet s 0 V)) (quiet_unlock _ uo)
        · intro k
          show (start_cancel s 0 V).threads k = _ ∨ (start_cancel s 0 V).threads k = _
          rw [c3]
          exact h4 k

theorem new_good (n : Int) : Inv (World.new n) [] ∧ Hist (World.new n) [] := by
  constructor
  · refine ⟨List.nodup_nil, rfl, rfl, rfl, ?_⟩
    intro i a h
    exact absurd h (by simp [World.new, WorkerPc.job])
  · constructor
    · rfl
    · intro i; rfl

/-! ## What a worker transition touches -/

theorem of_worker_lock (i : Nat) (ok : Bool) :
    ∀ e ∈ tq_mutex_lock ok, Event.of_worker i e = true := by
  cases ok <;> simp [tq_mutex_lock, Event.of_worker]

theorem of_worker_unlock (i : Nat) (ok : Bool) :
    ∀ e ∈ tq_mutex_unlock ok, Event.of_worker i e = true := by
  cases ok <;> simp [tq_mutex_unlock, Event.of_worker]

theorem worker_take_frame (i : Nat) (uo : Bool) (W : World) :
    (worker_take i uo W).cancel = W.cancel ∧
    (worker_take i uo W).queue.workers = W.queue.workers ∧
    (worker_take i uo W).queue.nb_workers = W.queue.nb_workers ∧
    (worker_take i uo W).queue.job_started_hook = W.queue.job_started_hook ∧
    (worker_take i uo W).queue.job_done_hook = W.queue.job_done_hook ∧
    (∀ k, k ≠ i → (worker_take i uo W).threads k = W.threads k) ∧
    ∃ ev, (worker_take i uo W).trace = W.trace ++ ev ∧ ∀ e ∈ ev, Event.of_worker i e = true := by
  cases hexit : (W.queue.workers i).exit with
  | true =>
    rw [worker_take_exit hexit]
    refine ⟨rfl, rfl, rfl, rfl, rfl, fun k hk => Function.update_noteq hk _ _,
      tq_mutex_unlock uo ++ [Event.thread_exit i], by simp, ?_⟩
    intro e he
    rcases List.mem_append.1 he with h | h
    · exact of_worker_unlock i uo e h
    · simp at h; subst h; simp [Event.of_worker]
  | false =>
    cases hnext : W.queue.next_job with
    | none =>
      rw [worker_take_wait hexit hnext]
      refine ⟨rfl, rfl, rfl, rfl, rfl, fun k hk => Function.update_noteq hk _ _,
        [Event.cond_wait], rfl, ?_⟩
      intro e he
      simp at he; subst he; rfl
    | some a =>
      cases hj : W.heap a with
      | none =>
        have : worker_take i uo W = W := by
          unfold worker_take; simp [hexit, hnext, hj]
        rw [this]
        exact ⟨rfl, rfl, rfl, rfl, rfl, fun _ _ => rfl, [], by simp, by simp⟩
      | some j =>
        have hev : ∀ e ∈ [Event.dequeue i j.func j.arg] ++
            (if int_wrap (W.queue.nb_jobs - 1) = 0 then [Event.cond_broadcast] else []) ++
            tq_mutex_unlock uo, Event.of_worker i e = true := by
          intro e he
          rcases List.mem_append.1 he with h | h
          · rcases List.mem_append.1 h with h | h
            · simp at h; subst h; simp [Event.of_worker]
            · split at h
              · simp at h; subst h; rfl
              · simp at h
          · exact of_worker_unlock i uo e h
        cases hp : j.prev with
        | none =>
          rw [worker_take_last hexit hnext hj hp]
          exact ⟨rfl, rfl, rfl, rfl, rfl, fun k hk => Function.update_noteq hk _ _,
            _, by simp only [List.append_assoc], hev⟩
        | some b =>
          rw [worker_take_more hexit hnext hj hp]
          exact ⟨rfl, rfl, rfl, rfl, rfl, fun k hk => Function.update_noteq hk _ _,
            _, by simp only [List.append_assoc], hev⟩

theorem worker_frame (i : Nat) (lo wo uo : Bool) (W : World) :
    (tq_worker_func i lo wo uo W).cancel = W.cancel ∧
    (tq_worker_func i lo wo uo W).queue.workers = W.queue.workers ∧
    (tq_worker_func i lo wo uo W).queue.nb_workers = W.queue.nb_workers ∧
    (tq_worker_func i lo wo uo W).queue.job_started_hook = W.queue.job_started_hook ∧
    (tq_worker_func i lo wo uo W).queue.job_done_hook = W.queue.job_done_hook ∧
    (∀ k, k ≠ i → (tq_worker_func i lo wo uo W).threads k = W.threads k) ∧
    ∃ ev, (tq_worker_func i lo wo uo W).trace = W.trace ++ ev ∧
      ∀ e ∈ ev, Event.of_worker i e = true := by
  have hsame : ∀ V : World, V = W →
      V.cancel = W.cancel ∧ V.queue.workers = W.queue.workers ∧
      V.queue.nb_workers = W.queue.nb_workers ∧
      V.queue.job_started_hook = W.queue.job_started_hook ∧
      V.queue.job_done_hook = W.queue.job_done_hook ∧
      (∀ k, k ≠ i → V.threads k = W.threads k) ∧
      ∃ ev, V.trace = W.trace ++ ev ∧ ∀ e ∈ ev, Event.of_worker i e = true := by
    intro V hV
    subst hV
    exact ⟨rfl, rfl, rfl, rfl, rfl, fun _ _ => rfl, [], by simp, by simp⟩
  have hupd : ∀ (pc : WorkerPc) (ev : List Event), (∀ e ∈ ev, Event.of_worker i e = true) →
      ∀ V : World, V.cancel = W.cancel → V.queue = W.queue →
        V.threads = Function.update W.threads i pc → V.trace = W.trace ++ ev →
      V.cancel = W.cancel ∧ V.queue.workers = W.queue.workers ∧
      V.queue.nb_workers = W.queue.nb_workers ∧
      V.queue.job_started_hook = W.queue.job_started_hook ∧
      V.queue.job_done_hook = W.queue.job_done_hook ∧
      (∀ k, k ≠ i → V.threads k = W.threads k) ∧
      ∃ ev, V.trace = W.trace ++ ev ∧ ∀ e ∈ ev, Event.of_worker i e = true := by
    intro pc ev hev V h1 h2 h3 h4
    refine ⟨h1, by rw [h2], by rw [h2], by rw [h2], by rw [h2], ?_, ev, h4, hev⟩
    intro k hk
    rw [h3, Function.update_noteq hk]
  have hfail : ∀ e ∈ tq_mutex_lock false ++ [Event.trace_msg Msg.cannot_lock_mutex],
      Event.of_worker i e = true := by
    intro e he
    rcases List.mem_append.1 he with h | h
    · exact of_worker_lock i false e h
    · simp at h; subst h; rfl
  cases hpc : W.threads i with
  | absent => exact hsame _ (worker_func_absent hpc)
  | terminated => exact hsame _ (worker_func_terminated hpc)
  | startup =>
    cases hc : W.cancel i with
    | false =>
      cases lo with
      | false =>
        rw [worker_func_lock_failed (Or.inl ⟨hpc, hc⟩)]
        exact hupd _ _ hfail _ rfl rfl rfl (by simp only [List.append_assoc])
      | true =>
        rw [worker_func_startup hpc hc]
        refine hupd _ (tq_mutex_lock true ++ tq_mutex_unlock uo) ?_ _ rfl rfl rfl
          (by simp only [List.append_assoc])
        intro e he
        rcases List.mem_append.1 he with h | h
        · exact of_worker_lock i true e h
        · exact of_worker_unlock i uo e h
    | true =>
      cases lo with
      | false =>
        rw [worker_func_cancelled_lock hpc hc]
        refine hupd _ [Event.mutex_lock false, Event.trace_msg Msg.cannot_lock_mutex] ?_ _
          rfl rfl rfl rfl
        intro e he
        simp at he
        rcases he with h | h <;> subst h <;> rfl
      | true =>
        rw [worker_func_cancelled hpc hc]
        refine hupd _ (tq_mutex_lock true ++
          (if uo then tq_mutex_unlock true
           else [Event.mutex_unlock false, Event.trace_msg Msg.cannot_unlock_mutex])) ?_ _
          rfl rfl rfl (by simp only [List.append_assoc])
        intro e he
        rcases List.mem_append.1 he with h | h
        · exact of_worker_lock i true e h
        · cases uo with
          | true => exact of_worker_unlock i true e h
          | false =>
            simp at h
            rcases h with h | h <;> subst h <;> rfl
  | idle =>
    cases lo with
    | false =>
      rw [worker_func_lock_failed (Or.inr hpc)]
      exact hupd _ _ hfail _ rfl rfl rfl (by simp only [List.append_assoc])
    | true =>
      rw [worker_func_idle hpc]
      obtain ⟨h1, h2, h3, h4, h5, h6, ev, h7, h8⟩ :=
        worker_take_frame i uo { W with trace := W.trace ++ tq_mutex_lock true }
      refine ⟨h1, h2, h3, h4, h5, h6, tq_mutex_lock true ++ ev, ?_, ?_⟩
      · rw [h7]; simp only [List.append_assoc]
      · intro e he
        rcases List.mem_append.1 he with h | h
        · exact of_worker_lock i true e h
        · exact h8 e h
  | waiting =>
    cases wo with
    | false =>
      rw [worker_func_wait_failed hpc]
      refine hupd _ ([Event.trace_msg Msg.cannot_wait_for_condition] ++ tq_mutex_unlock uo)
        ?_ _ rfl rfl rfl (by simp only [List.append_assoc])
      intro e he
      rcases List.mem_append.1 he with h | h
      · simp at h; subst h; rfl
      · exact of_worker_unlock i uo e h
    | true =>
      rw [worker_func_woken hpc]
      exact worker_take_frame i uo W
  | started a =>
    cases hj : W.heap a with
    | none => exact hsame _ (worker_func_dangling (by rw [hpc]; rfl) hj)
    | some j =>
      rw [worker_func_started hpc hj]
      refine hupd _ _ ?_ _ rfl rfl rfl rfl
      intro e he
      cases hh : W.queue.job_started_hook with
      | none => simp [hh] at he
      | some hook => simp [hh] at he; subst he; simp [Event.of_worker]
  | running a =>
    cases hj : W.heap a with
    | none => exact hsame _ (worker_func_dangling (by rw [hpc]; rfl) hj)
    | some j =>
      rw [worker_func_running hpc hj]
      refine hupd _ _ ?_ _ rfl rfl rfl rfl
      intro e he
      simp at he; subst he; simp [Event.of_worker]
  | finishing a =>
    cases hj : W.heap a with
    | none => exact hsame _ (worker_func_dangling (by rw [hpc]; rfl) hj)
    | some j =>
      rw [worker_func_finishing hpc hj]
      refine hupd _ ((match W.queue.job_done_hook with
        | some hook => [Event.job_done_hook i hook j.arg]
        | none => []) ++ [Event.free a]) ?_ _ rfl rfl rfl (by simp only [List.append_assoc])
      intro e he
      rcases List.mem_append.1 he with h | h
      · cases hh : W.queue.job_done_hook with
        | none => simp [hh] at h
        | some hook => simp [hh] at h; subst h; simp [Event.of_worker]
      · simp at h; subst h; rfl

/-- The events of a worker name no other worker and no life cycle call. -/
theorem of_worker_lists {i : Nat} {ev : List Event}
    (h : ∀ e ∈ ev, Event.of_worker i e = true) :
    submitted ev = [] ∧ cancels ev = [] ∧ joins ev = [] ∧ creations ev = [] ∧
    (∀ d ∈ dequeues ev, d.1 = i) ∧ (∀ d ∈ executions ev, d.1 = i) := by
  refine ⟨?_, ?_, ?_, ?_, ?_, ?_⟩
  · unfold submitted
    rw [List.filterMap_eq_nil_iff]
    intro e he
    have := h e he
    cases e <;> first | rfl | simp [Event.of_worker] at this
  · unfold cancels
    rw [List.filterMap_eq_nil_iff]
    intro e he
    have := h e he
    cases e <;> first | rfl | simp [Event.of_worker] at this
  · unfold joins
    rw [List.filterMap_eq_nil_iff]
    intro e he
    have := h e he
    cases e <;> first | rfl | simp [Event.of_worker] at this
  · unfold creations
    rw [List.filterMap_eq_nil_iff]
    intro e he
    have := h e he
    cases e <;> first | rfl | simp [Event.of_worker] at this
  · intro d hd
    unfold dequeues at hd
    obtain ⟨e, he, hed⟩ := List.mem_filterMap.1 hd
    have := h e he
    cases e <;> simp at hed
    subst hed
    simpa [Event.of_worker] using this
  · intro d hd
    unfold executions at hd
    obtain ⟨e, he, hed⟩ := List.mem_filterMap.1 hd
    have := h e he
    cases e <;> simp at hed
    subst hed
    simpa [Event.of_worker] using this

/-! ## The slots of the pool -/

theorem add_job_frame (func arg : Nat) (mem : Option Nat) (lo uo : Bool) (W : World) :
    (tq_queue_add_job func arg mem lo uo W).2.threads = W.threads ∧
    (tq_queue_add_job func arg mem lo uo W).2.cancel = W.cancel ∧
    (tq_queue_add_job func arg mem lo uo W).2.queue.workers = W.queue.workers ∧
    (tq_queue_add_job func arg mem lo uo W).2.queue.nb_workers = W.queue.nb_workers ∧
    (tq_queue_add_job func arg mem lo uo W).2.queue.job_started_hook =
      W.queue.job_started_hook ∧
    (tq_queue_add_job func arg mem lo uo W).2.queue.job_done_hook = W.queue.job_done_hook ∧
    dequeues (tq_queue_add_job func arg mem lo uo W).2.trace = dequeues W.trace ∧
    executions (tq_queue_add_job func arg mem lo uo W).2.trace = executions W.trace := by
  cases mem with
  | none =>
    refine ⟨rfl, rfl, rfl, rfl, rfl, rfl, ?_, ?_⟩
    · exact (@quiet_append W.trace
        [Event.malloc none, Event.set_error Msg.cannot_allocate_job] rfl rfl rfl).2.1
    · exact (@quiet_append W.trace
        [Event.malloc none, Event.set_error Msg.cannot_allocate_job] rfl rfl rfl).2.2
  | some a =>
    cases lo with
    | false =>
      have hq : Quiet W.trace (W.trace ++ [Event.malloc (some a)] ++ tq_mutex_lock false ++
          [Event.free a]) :=
        quiet_trans (quiet_trans
          (@quiet_append _ [Event.malloc (some a)] rfl rfl rfl) (quiet_lock _ false))
          (@quiet_append _ [Event.free a] rfl rfl rfl)
      exact ⟨rfl, rfl, rfl, rfl, rfl, rfl, hq.2.1, hq.2.2⟩
    | true =>
      refine ⟨rfl, rfl, rfl, rfl, rfl, rfl, ?_, ?_⟩
      · rw [add_job_ok_trace]
        simp only [dequeues_append, dequeues_lock, dequeues_unlock]
        split <;> simp [dequeues]
      · rw [add_job_ok_trace]
        simp only [executions_append, executions_lock, executions_unlock]
        split <;> simp [executions]

theorem start_create_threads_above (c : Nat → Bool) :
    ∀ (n i : Nat) (W : World) (k : Nat), i + n ≤ k →
      (start_create c n i W).2.threads k = W.threads k := by
  intro n
  induction n with
  | zero => intro i W k _; rfl
  | succ n ih =>
    intro i W k hk
    unfold start_create
    cases hc : c i
    · simp
    · simp only [if_true]
      rw [ih (i + 1) _ k (by omega)]
      have hki : k ≠ i := by omega
      simp [Function.update_noteq hki]

theorem start_section_threads_above (lo : Bool) (c : Nat → Bool) (uo : Bool) (W : World)
    (k : Nat) (hk : W.queue.nb_workers.toNat ≤ k) :
    (start_section lo c uo W).2.threads k = W.threads k := by
  cases lo with
  | false => rfl
  | true =>
    have h4 := start_create_threads_above c W.queue.nb_workers.toNat 0
      { W with trace := W.trace ++ tq_mutex_lock true } k (by omega)
    unfold start_section
    simp only [Bool.not_true, Bool.false_eq_true, if_false]
    cases hsc : start_create c W.queue.nb_workers.toNat 0
        { W with trace := W.trace ++ tq_mutex_lock true } with
    | mk r V =>
      rw [hsc] at h4
      simp only at h4
      cases r with
      | none => exact h4
      | some s =>
        show (start_cancel s 0 V).threads k = _
        rw [(start_cancel_spec s 0 V).2.2.1]
        exact h4

theorem new_slots (n : Int) : Slots n (World.new n) := by
  refine ⟨rfl, fun _ _ => rfl, ?_, ?_⟩
  · intro d hd
    have : dequeues (World.new n).trace = [] := rfl
    rw [this] at hd
    simp at hd
  · intro d hd
    have : executions (World.new n).trace = [] := rfl
    rw [this] at hd
    simp at hd

theorem step_slots {n : Int} {W : World} (a : Action) (hS : Slots n W) :
    Slots n (step W a) := by
  cases a with
  | add_job func arg mem lo uo =>
    obtain ⟨h1, _, _, h4, _, _, h7, h8⟩ := add_job_frame func arg mem lo uo W
    refine ⟨h4.trans hS.nb, ?_, ?_, ?_⟩
    · intro k hk
      show (tq_queue_add_job func arg mem lo uo W).2.threads k = _
      rw [h1]; exact hS.none_above k hk
    · intro d hd
      have hd2 : d ∈ dequeues (tq_queue_add_job func arg mem lo uo W).2.trace := hd
      rw [h7] at hd2
      exact hS.deq d hd2
    · intro d hd
      have hd2 : d ∈ executions (tq_queue_add_job func arg mem lo uo W).2.trace := hd
      rw [h8] at hd2
      exact hS.exe d hd2
  | worker i lo wo uo =>
    show Slots n (tq_worker_func i lo wo uo W)
    by_cases hi : n.toNat ≤ i
    · rw [worker_func_absent (hS.none_above i hi)]
      exact hS
    · obtain ⟨_, _, h3, _, _, h6, ev, h7, h8⟩ := worker_frame i lo wo uo W
      obtain ⟨_, _, _, _, e5, e6⟩ := of_worker_lists h8
      refine ⟨h3.trans hS.nb, ?_, ?_, ?_⟩
      · intro k hk
        have hki : k ≠ i := by omega
        rw [h6 k hki]
        exact hS.none_above k hk
      · intro d hd
        rw [h7, dequeues_append] at hd
        rcases List.mem_append.1 hd with h | h
        · exact hS.deq d h
        · rw [e5 d h]; omega
      · intro d hd
        rw [h7, executions_append] at hd
        rcases List.mem_append.1 hd with h | h
        · exact hS.exe d h
        · rw [e6 d h]; omega
  | start lo c uo =>
    obtain ⟨_, h2, h3, _⟩ := start_section_frame lo c uo W
    refine ⟨?_, ?_, ?_, ?_⟩
    · show (start_section lo c uo W).2.queue.nb_workers = n
      rw [h2]; exact hS.nb
    · intro k hk
      show (start_section lo c uo W).2.threads k = _
      rw [start_section_threads_above lo c uo W k (by rw [hS.nb]; exact hk)]
      exact hS.none_above k hk
    · intro d hd
      have hd2 : d ∈ dequeues (start_section lo c uo W).2.trace := hd
      rw [h3.2.1] at hd2
      exact hS.deq d hd2
    · intro d hd
      have hd2 : d ∈ executions (start_section lo c uo W).2.trace := hd
      rw [h3.2.2] at hd2
      exact hS.exe d hd2
  | stop lo uo =>
    cases lo with
    | false =>
      have hq := quiet_lock W.trace false
      refine ⟨hS.nb, hS.none_above, ?_, ?_⟩
      · intro d hd
        have hd2 : d ∈ dequeues (W.trace ++ tq_mutex_lock false) := hd
        rw [hq.2.1] at hd2
        exact hS.deq d hd2
      · intro d hd
        have hd2 : d ∈ executions (W.trace ++ tq_mutex_lock false) := hd
        rw [hq.2.2] at hd2
        exact hS.exe d hd2
    | true =>
      have hq : Quiet W.trace (W.trace ++ tq_mutex_lock true ++ tq_mutex_unlock uo ++
          [Event.cond_broadcast]) :=
        quiet_trans (quiet_trans (quiet_lock _ true) (quiet_unlock _ uo))
          (@quiet_append _ [Event.cond_broadcast] rfl rfl rfl)
      refine ⟨hS.nb, hS.none_above, ?_, ?_⟩
      · intro d hd
        have hd2 : d ∈ dequeues (W.trace ++ tq_mutex_lock true ++ tq_mutex_unlock uo ++
          [Event.cond_broadcast]) := hd
        rw [hq.2.1] at hd2
        exact hS.deq d hd2
      · intro d hd
        have hd2 : d ∈ executions (W.trace ++ tq_mutex_lock true ++ tq_mutex_unlock uo ++
          [Event.cond_broadcast]) := hd
        rw [hq.2.2] at hd2
        exact hS.exe d hd2
  | set_job_started_hook hook => exact ⟨hS.nb, hS.none_above, hS.deq, hS.exe⟩
  | set_job_done_hook hook => exact ⟨hS.nb, hS.none_above, hS.deq, hS.exe⟩

theorem reachable_slots {n : Int} {W : World} (h : Reachable n W) : Slots n W := by
  induction h with
  | new => exact new_slots n
  | step a _ _ ih => exact step_slots a ih

/-- When every entry of a list is by worker `i`, the entries of worker `i`
are all of them. -/
theorem filter_all_of_worker {i : Nat} {ds : List (Nat × Nat × Nat)}
    (h : ∀ d ∈ ds, d.1 = i) : (ds.filter (fun d => d.1 = i)).map (fun d => d.2) =
      ds.map (fun d => d.2) := by
  have : ds.filter (fun d => d.1 = i) = ds := by
    rw [List.filter_eq_self]
    intro d hd
    simp [h d hd]
  rw [this]

theorem step_good {n : Int} {W : World} {l : List Nat} (a : Action) (hS : Slots n W)
    (hI : Inv W l) (hH : Hist W l) (hv : a.valid W) :
    ∃ l2, Inv (step W a) l2 ∧ Hist (step W a) l2 := by
  cases a with
  | add_job func arg mem lo uo =>
    cases mem with
    | none =>
      exact ⟨l, @frame W _ l rfl rfl rfl rfl (fun _ => rfl) (fun _ => rfl)
        (@quiet_append _ [Event.malloc none, Event.set_error Msg.cannot_allocate_job]
          rfl rfl rfl) hI hH⟩
    | some job =>
      have hfresh : W.heap job = none := hv
      cases lo with
      | false =>
        refine ⟨l, @frame W _ l ?_ rfl rfl rfl (fun _ => rfl) (fun _ => rfl) ?_ hI hH⟩
        · funext x
          show Function.update (Function.update W.heap job _) job none x = W.heap x
          by_cases hx : x = job
          · subst hx; simp [hfresh]
          · simp [Function.update_noteq hx]
        · show Quiet W.trace (W.trace ++ [Event.malloc (some job)] ++ tq_mutex_lock false ++
            [Event.free job])
          exact quiet_trans (quiet_trans
            (@quiet_append _ [Event.malloc (some job)] rfl rfl rfl) (quiet_lock _ false))
            (@quiet_append _ [Event.free job] rfl rfl rfl)
      | true =>
        exact ⟨job :: l, add_job_ok_inv hI hfresh, add_job_ok_hist hI hH hfresh⟩
  | worker i lo wo uo => exact worker_good hI hH
  | start lo c uo =>
    have habs : ∀ i, W.threads i = WorkerPc.absent := by
      intro i
      by_cases hi : i < W.queue.nb_workers.toNat
      · exact hv i hi
      · exact hS.none_above i (by rw [← hS.nb]; omega)
    obtain ⟨h1, h2, h3, h4⟩ := start_section_frame lo c uo W
    refine ⟨l, @frame W (start_section lo c uo W).2 l h1 (by rw [h2]) (by rw [h2])
      (by rw [h2]) ?_ ?_ h3 hI hH⟩
    · intro i
      show ((start_section lo c uo W).2.threads i).job = _
      rcases h4 i with h | h
      · rw [h]
      · rw [h, habs i]; rfl
    · intro i
      show ((start_section lo c uo W).2.threads i).todo = _
      rcases h4 i with h | h
      · rw [h]
      · rw [h, habs i]; rfl
  | stop lo uo =>
    cases lo with
    | false =>
      exact ⟨l, @frame W _ l rfl rfl rfl rfl (fun _ => rfl) (fun _ => rfl)
        (quiet_lock _ false) hI hH⟩
    | true =>
      refine ⟨l, @frame W _ l rfl rfl rfl rfl (fun _ => rfl) (fun _ => rfl) ?_ hI hH⟩
      show Quiet W.trace (W.trace ++ tq_mutex_lock true ++ tq_mutex_unlock uo ++
        [Event.cond_broadcast])
      exact quiet_trans (quiet_trans (quiet_lock _ true) (quiet_unlock _ uo))
        (@quiet_append _ [Event.cond_broadcast] rfl rfl rfl)
  | set_job_started_hook hook =>
    exact ⟨l, @frame W _ l rfl rfl rfl rfl (fun _ => rfl) (fun _ => rfl) (quiet_refl _) hI hH⟩
  | set_job_done_hook hook =>
    exact ⟨l, @frame W _ l rfl rfl rfl rfl (fun _ => rfl) (fun _ => rfl) (quiet_refl _) hI hH⟩

theorem reachable_good {n : Int} {W : World} (h : Reachable n W) :
    ∃ l, Inv W l ∧ Hist W l := by
  induction h with
  | new => exact ⟨[], new_good n⟩
  | step a hr hv ih =>
    obtain ⟨l, hI, hH⟩ := ih
    exact step_good a (reachable_slots hr) hI hH hv

theorem reachable_run_env {n : Int} :
    ∀ (acts : List Action) {W V : World}, Reachable n W → run_env W acts = some V →
      Reachable n V := by
  intro acts
  induction acts with
  | nil =>
    intro W V hr h
    simp [run_env] at h
    subst h
    exact hr
  | cons a acts ih =>
    intro W V hr h
    unfold run_env at h
    by_cases hv : a.valid W
    · rw [if_pos hv] at h
      exact ih (Reachable.step a hr hv) h
    · rw [if_neg hv] at h
      exact absurd h (by simp)

theorem run_env_eq_run :
    ∀ (acts : List Action) {W V : World}, run_env W acts = some V → V = run W acts := by
  intro acts
  induction acts with
  | nil =>
    intro W V h
    simp [run_env] at h
    subst h
    rfl
  | cons a acts ih =>
    intro W V h
    unfold run_env at h
    by_cases hv : a.valid W
    · rw [if_pos hv] at h
      exact ih h
    · rw [if_neg hv] at h
      exact absurd h (by simp)

/-! ## The claims -/

theorem world_abc_reachable : Reachable 1 world_abc :=
  reachable_run_env scenario_abc Reachable.new rfl

theorem world_queued_reachable : Reachable 1 world_queued :=
  reachable_run_env (scenario_abc.take 3) Reachable.new rfl

/-! ## Worlds in which the invariants hold -/

theorem good_of_reachable {n : Int} {W : World} (h : Reachable n W) : Good n W :=
  ⟨reachable_slots h, reachable_good h⟩

theorem good_step {n : Int} {W : World} (a : Action) (hG : Good n W) (hv : a.valid W) :
    Good n (step W a) := by
  obtain ⟨hS, l, hI, hH⟩ := hG
  exact ⟨step_slots a hS, step_good a hS hI hH hv⟩

theorem good_run_env {n : Int} :
    ∀ (acts : List Action) {W V : World}, Good n W → run_env W acts = some V → Good n V := by
  intro acts
  induction acts with
  | nil =>
    intro W V hG h
    simp [run_env] at h
    subst h
    exact hG
  | cons a acts ih =>
    intro W V hG h
    unfold run_env at h
    by_cases hv : a.valid W
    · rw [if_pos hv] at h
      exact ih (good_step a hG hv) h
    · rw [if_neg hv] at h
      exact absurd h (by simp)

theorem good_worker {n : Int} {W : World} (i : Nat) (lo wo uo : Bool) (hG : Good n W) :
    Good n (tq_worker_func i lo wo uo W) :=
  good_step (Action.worker i lo wo uo) hG trivial

theorem good_run_workers {n : Int} :
    ∀ (sched : List WorkerStep) {W : World}, Good n W → Good n (run_workers sched W) := by
  intro sched
  induction sched with
  | nil => intro W hG; exact hG
  | cons s sched ih =>
    intro W hG
    exact ih (good_worker s.i s.lock_ok s.wait_ok s.unlock_ok hG)

/-- Calls that touch neither the queue nor the threads keep the invariants. -/
theorem good_trace {n : Int} {W : World} (ev : List Event) (hG : Good n W)
    (hq : Quiet W.trace (W.trace ++ ev)) : Good n { W with trace := W.trace ++ ev } := by
  obtain ⟨hS, l, hI, hH⟩ := hG
  refine ⟨⟨hS.nb, hS.none_above, ?_, ?_⟩, l,
    @frame W _ l rfl rfl rfl rfl (fun _ => rfl) (fun _ => rfl) hq hI hH⟩
  · intro d hd
    have hd2 : d ∈ dequeues (W.trace ++ ev) := hd
    rw [hq.2.1] at hd2
    exact hS.deq d hd2
  · intro d hd
    have hd2 : d ∈ executions (W.trace ++ ev) := hd
    rw [hq.2.2] at hd2
    exact hS.exe d hd2

/-- A list of pairs is determined, up to order, by its sublists per worker. -/
theorem perm_of_by_worker {A B : List (Nat × Nat × Nat)}
    (h : ∀ i, (A.filter (fun d => d.1 = i)).map (fun d => d.2) =
      (B.filter (fun d => d.1 = i)).map (fun d => d.2)) : A.Perm B := by
  have key : ∀ (w : Nat) (p : Nat × Nat) (L : List (Nat × Nat × Nat)),
      List.countP (fun d => decide (d = (w, p))) L =
        List.countP (fun q => decide (q = p))
          ((L.filter (fun d => d.1 = w)).map (fun d => d.2)) := by
    intro w p L
    induction L with
    | nil => simp
    | cons d L ih =>
      obtain ⟨dw, dp⟩ := d
      by_cases hw : dw = w
      · subst hw
        by_cases hp : dp = p
        · subst hp
          simp [List.filter_cons, List.countP_cons, ih]
        · simp [List.filter_cons, List.countP_cons, ih, hp]
      · simp [List.filter_cons, List.countP_cons, ih, hw]
  rw [List.perm_iff_count]
  rintro ⟨w, p⟩
  show List.countP (fun d => decide (d = (w, p))) A =
    List.countP (fun d => decide (d = (w, p))) B
  rw [key w p A, key w p B, h w]

theorem good_once {n : Int} {W : World} (hG : Good n W) : ExactlyOnce W := by
  obtain ⟨_, l, hI, hH⟩ := hG
  refine ⟨⟨l, dll_nodes_from hI.chain, hH.fifo⟩, hH.mine, ?_, ?_⟩
  · intro hidle
    apply perm_of_by_worker
    intro i
    have hm := hH.mine i
    have hp : pending_of W i = [] := by
      unfold pending_of
      rw [hidle i]
    rw [hp, List.append_nil] at hm
    exact hm.symm
  · intro hnb hbound
    have hlen : (submitted W.trace).length = (dequeued W.trace).length + l.length := by
      rw [hH.fifo]; simp
    have hl : l = [] := by
      have := hI.count
      rw [hnb] at this
      exact int_wrap_length_eq_zero (by omega) this.symm
    have := hH.fifo
    rw [hl] at this
    simpa using this.symm

/-! ## tq_queue_drain -/

theorem drain_loop_good {n : Int} (lo wo uo : Nat → Bool) :
    ∀ (turns : List (List Action × List Action)) (k : Nat) (W : World) (r : Int) (V : World),
      Good n W → drain_loop lo wo uo turns k W = some (r, V) →
      Good n V ∧ (r = 0 → V.queue.nb_jobs = 0) ∧ (r = 0 ∨ r = -1) := by
  intro turns
  induction turns with
  | nil =>
    intro k W r V hG h
    unfold drain_loop at h
    cases hl : lo k with
    | false =>
      simp [hl] at h
      obtain ⟨rfl, rfl⟩ := h
      exact ⟨good_trace _ hG (quiet_lock _ false), by simp, Or.inr rfl⟩
    | true =>
      by_cases hnb : W.queue.nb_jobs = 0
      · simp [hl, hnb] at h
        obtain ⟨rfl, rfl⟩ := h
        refine ⟨?_, fun _ => hnb, Or.inl rfl⟩
        have h1 := good_trace (tq_mutex_lock true ++ tq_mutex_unlock (uo k)) hG
          (by rw [← List.append_assoc]
              exact quiet_trans (quiet_lock _ true) (quiet_unlock _ _))
        simpa [List.append_assoc] using h1
      · cases hw : wo k with
        | true => simp [hl, hnb, hw] at h
        | false =>
          simp [hl, hnb, hw] at h
          obtain ⟨rfl, rfl⟩ := h
          refine ⟨?_, by simp, Or.inr rfl⟩
          have h1 := good_trace (tq_mutex_lock true ++ ([Event.cond_wait] ++
            ([Event.set_error Msg.cannot_wait_for_condition] ++ tq_mutex_unlock (uo k)))) hG
            (quiet_append
              (by simp only [submitted_append, submitted_lock, submitted_unlock]; rfl)
              (by simp only [dequeues_append, dequeues_lock, dequeues_unlock]; rfl)
              (by simp only [executions_append, executions_lock, executions_unlock]; rfl))
          simpa [List.append_assoc] using h1
  | cons t rest ih =>
    intro k W r V hG h
    obtain ⟨during_wait, after_unlock⟩ := t
    unfold drain_loop at h
    cases hl : lo k with
    | false =>
      simp [hl] at h
      obtain ⟨rfl, rfl⟩ := h
      exact ⟨good_trace _ hG (quiet_lock _ false), by simp, Or.inr rfl⟩
    | true =>
      by_cases hnb : W.queue.nb_jobs = 0
      · simp [hl, hnb] at h
        obtain ⟨rfl, rfl⟩ := h
        refine ⟨?_, fun _ => hnb, Or.inl rfl⟩
        have h1 := good_trace (tq_mutex_lock true ++ tq_mutex_unlock (uo k)) hG
          (by rw [← List.append_assoc]
              exact quiet_trans (quiet_lock _ true) (quiet_unlock _ _))
        simpa [List.append_assoc] using h1
      · simp only [hl, hnb, Bool.not_true, Bool.false_eq_true, if_false] at h
        have hG1 : Good n { W with trace := W.trace ++ tq_mutex_lock true ++
            [Event.cond_wait] } := by
          have h1 := good_trace (tq_mutex_lock true ++ [Event.cond_wait]) hG
            (by rw [← List.append_assoc]
                exact quiet_trans (quiet_lock _ true)
                  (@quiet_append _ [Event.cond_wait] rfl rfl rfl))
          simpa [List.append_assoc] using h1
        cases hr1 : run_env { W with trace := W.trace ++ tq_mutex_lock true ++
            [Event.cond_wait] } during_wait with
        | none => rw [hr1] at h; simp at h
        | some W2 =>
          rw [hr1] at h
          simp only at h
          have hG2 : Good n W2 := good_run_env during_wait hG1 hr1
          cases hw : wo k with
          | false =>
            simp [hw] at h
            obtain ⟨rfl, rfl⟩ := h
            refine ⟨?_, by simp, Or.inr rfl⟩
            have h1 := good_trace ([Event.set_error Msg.cannot_wait_for_condition] ++
              tq_mutex_unlock (uo k)) hG2
              (by rw [← List.append_assoc]
                  exact quiet_trans
                    (@quiet_append _ [Event.set_error Msg.cannot_wait_for_condition]
                      rfl rfl rfl) (quiet_unlock _ _))
            simpa [List.append_assoc] using h1
          | true =>
            by_cases hnb2 : W2.queue.nb_jobs = 0
            · simp [hw, hnb2] at h
              obtain ⟨rfl, rfl⟩ := h
              exact ⟨good_trace _ hG2 (quiet_unlock _ _), fun _ => hnb2, Or.inl rfl⟩
            · simp only [hw, hnb2, Bool.not_true, Bool.false_eq_true, if_false] at h
              have hG3 := good_trace (tq_mutex_unlock (uo k)) hG2 (quiet_unlock _ _)
              cases hr2 : run_env { W2 with trace := W2.trace ++ tq_mutex_unlock (uo k) }
                  after_unlock with
              | none => rw [hr2] at h; simp at h
              | some W3 =>
                rw [hr2] at h
                simp only at h
                exact ih (k + 1) W3 r V (good_run_env after_unlock hG3 hr2) h

/-- A worker that reaches the unlink takes the job at `next_job`. -/
theorem worker_take_unlinks {i a : Nat} {uo : Bool} {W : World} {l : List Nat}
    (hI : Inv W l) (hexit : (W.queue.workers i).exit = false)
    (hnext : W.queue.next_job = some a) :
    (worker_take i uo W).threads i = WorkerPc.started a ∧
    dequeues (worker_take i uo W).trace = dequeues W.trace ++ [(i, payload W.heap a)] ∧
    (worker_take i uo W).queue.nb_jobs = int_wrap (W.queue.nb_jobs - 1) := by
  have hla : l.getLast? = some a := by rw [← hI.last, hnext]
  obtain ⟨l0, rfl⟩ := List.getLast?_eq_some_iff.1 hla
  obtain ⟨j, hj, _, _⟩ := dll_unlink_last hI.nodup hI.chain
  have hpay : payload W.heap a = (j.func, j.arg) := by simp [payload, hj]
  have hd : ∀ (c : Prop) [Decidable c],
      dequeues (W.trace ++ [Event.dequeue i j.func j.arg] ++
        (if c then [Event.cond_broadcast] else []) ++ tq_mutex_unlock uo) =
      dequeues W.trace ++ [(i, j.func, j.arg)] := by
    intro c _
    rw [dequeues_append, dequeues_append, dequeues_append, dequeues_unlock]
    by_cases hc : c
    · rw [if_pos hc]
      show dequeues W.trace ++ [(i, j.func, j.arg)] ++ [] ++ [] = _
      simp
    · rw [if_neg hc]
      show dequeues W.trace ++ [(i, j.func, j.arg)] ++ [] ++ [] = _
      simp
  cases hp : j.prev with
  | none =>
    rw [worker_take_last hexit hnext hj hp, hpay]
    exact ⟨by simp, hd _, rfl⟩
  | some b =>
    rw [worker_take_more hexit hnext hj hp, hpay]
    exact ⟨by simp, hd _, rfl⟩

theorem drain_loop_empty (lo wo uo : Nat → Bool) (turns : List (List Action × List Action))
    (k : Nat) (W : World) (hnb : W.queue.nb_jobs = 0) (hlock : lo k = true) :
    drain_loop lo wo uo turns k W =
      some (0, { W with trace := W.trace ++ tq_mutex_lock true ++ tq_mutex_unlock (uo k) }) := by
  unfold drain_loop
  cases turns <;> simp [hlock, hnb]

theorem cancels_append (s t : List Event) : cancels (s ++ t) = cancels s ++ cancels t := by
  simp [cancels]

theorem joins_append (s t : List Event) : joins (s ++ t) = joins s ++ joins t := by
  simp [joins]

theorem creations_append (s t : List Event) :
    creations (s ++ t) = creations s ++ creations t := by
  simp [creations]

theorem run_workers_cons (s : WorkerStep) (sched : List WorkerStep) (W : World) :
    run_workers (s :: sched) W =
      run_workers sched (tq_worker_func s.i s.lock_ok s.wait_ok s.unlock_ok W) := rfl

theorem worker_joins (i : Nat) (lo wo uo : Bool) (W : World) :
    joins (tq_worker_func i lo wo uo W).trace = joins W.trace := by
  obtain ⟨_, _, _, _, _, _, ev, h7, h8⟩ := worker_frame i lo wo uo W
  rw [h7, joins_append, (of_worker_lists h8).2.2.1, List.append_nil]

theorem run_workers_joins :
    ∀ (sched : List WorkerStep) (W : World),
      joins (run_workers sched W).trace = joins W.trace := by
  intro sched
  induction sched with
  | nil => intro W; rfl
  | cons s sched ih =>
    intro W
    rw [run_workers_cons, ih, worker_joins]

theorem worker_keeps_terminated {i j : Nat} {lo wo uo : Bool} {W : World}
    (h : W.threads j = WorkerPc.terminated) :
    (tq_worker_func i lo wo uo W).threads j = WorkerPc.terminated := by
  by_cases hij : j = i
  · subst hij
    rw [worker_func_terminated h]; exact h
  · rw [(worker_frame i lo wo uo W).2.2.2.2.2.1 j hij]; exact h

theorem run_workers_keeps_terminated {j : Nat} :
    ∀ (sched : List WorkerStep) {W : World}, W.threads j = WorkerPc.terminated →
      (run_workers sched W).threads j = WorkerPc.terminated := by
  intro sched
  induction sched with
  | nil => intro W h; exact h
  | cons s sched ih =>
    intro W h
    rw [run_workers_cons]
    exact ih (worker_keeps_terminated h)

/-- A thread created by a start that failed terminates at its first
transition, and no transition of such a thread touches the queue. -/
theorem aborted_worker {k : Nat} {W0 V : World} (i : Nat) (lo wo uo : Bool)
    (hA : Aborted k W0 V) :
    Aborted k W0 (tq_worker_func i lo wo uo V) ∧
    (i < k → (tq_worker_func i lo wo uo V).threads i = WorkerPc.terminated) := by
  by_cases hik : k ≤ i
  · rw [worker_func_absent (hA.high i hik)]
    exact ⟨hA, fun h => absurd h (by omega)⟩
  · have hi : i < k := by omega
    obtain ⟨hc, hpc⟩ := hA.low i hi
    have hframe : ∀ (ev : List Event) (ab : Bool), submitted ev = [] → dequeues ev = [] →
        executions ev = [] → cancels ev = [] → creations ev = [] →
        Aborted k W0 { V with threads := Function.update V.threads i WorkerPc.terminated,
                              trace := V.trace ++ ev, trace_abandoned := ab } := by
      intro ev ab e1 e2 e3 e4 e5
      refine ⟨hA.heap, hA.queue, ?_, ?_, ?_, ?_, ?_⟩
      · intro j hj
        refine ⟨(hA.low j hj).1, ?_⟩
        by_cases hji : j = i
        · subst hji; right; simp
        · simp only [Function.update_noteq hji]; exact (hA.low j hj).2
      · intro j hj
        have hji : j ≠ i := by omega
        simp only [Function.update_noteq hji]; exact hA.high j hj
      · exact quiet_trans hA.quiet (quiet_append e1 e2 e3)
      · show cancels (V.trace ++ ev) = _
        rw [cancels_append, e4, List.append_nil]; exact hA.cancels
      · show creations (V.trace ++ ev) = _
        rw [creations_append, e5, List.append_nil]; exact hA.creations
    rcases hpc with hpc | hpc
    · cases lo with
      | false =>
        rw [worker_func_cancelled_lock hpc hc]
        exact ⟨hframe [Event.mutex_lock false, Event.trace_msg Msg.cannot_lock_mutex] true
          rfl rfl rfl rfl rfl, fun _ => by simp⟩
      | true =>
        rw [worker_func_cancelled hpc hc]
        refine ⟨?_, fun _ => by simp⟩
        have := hframe (tq_mutex_lock true ++
            (if uo then tq_mutex_unlock true
             else [Event.mutex_unlock false, Event.trace_msg Msg.cannot_unlock_mutex]))
          (V.trace_abandoned || !uo)
          (by cases uo <;> rfl) (by cases uo <;> rfl) (by cases uo <;> rfl)
          (by cases uo <;> rfl) (by cases uo <;> rfl)
        simpa only [List.append_assoc] using this
    · rw [worker_func_terminated hpc]
      exact ⟨hA, fun _ => hpc⟩

theorem aborted_run_workers {k : Nat} {W0 : World} :
    ∀ (sched : List WorkerStep) {V : World}, Aborted k W0 V →
      Aborted k W0 (run_workers sched V) := by
  intro sched
  induction sched with
  | nil => intro V hA; exact hA
  | cons s sched ih =>
    intro V hA
    rw [run_workers_cons]
    exact ih (aborted_worker s.i s.lock_ok s.wait_ok s.unlock_ok hA).1

/-- A cancelled thread that is given a transition has terminated. -/
theorem aborted_terminates {k j : Nat} {W0 : World} (hj : j < k) :
    ∀ (sched : List WorkerStep) {V : World}, Aborted k W0 V → (∃ s ∈ sched, s.i = j) →
      (run_workers sched V).threads j = WorkerPc.terminated := by
  intro sched
  induction sched with
  | nil => intro V _ h; obtain ⟨s, hs, _⟩ := h; simp at hs
  | cons s sched ih =>
    intro V hA h
    rw [run_workers_cons]
    obtain ⟨hA2, hterm⟩ := aborted_worker s.i s.lock_ok s.wait_ok s.unlock_ok hA
    by_cases hsj : s.i = j
    · subst hsj
      exact run_workers_keeps_terminated sched (hterm hj)
    · obtain ⟨s2, hs2, hs2j⟩ := h
      rcases List.mem_cons.1 hs2 with e | hmem
      · subst e; exact absurd hs2j hsj
      · exact ih hA2 ⟨s2, hmem, hs2j⟩

theorem aborted_join_event {k : Nat} {W0 V : World} (j : Nat) (ok : Bool)
    (hA : Aborted k W0 V) :
    Aborted k W0 { V with trace := V.trace ++ [Event.thread_join j ok] } :=
  ⟨hA.heap, hA.queue, hA.low, hA.high,
    quiet_trans hA.quiet (@quiet_append _ [Event.thread_join j ok] rfl rfl rfl),
    by show cancels (V.trace ++ [Event.thread_join j ok]) = _
       rw [cancels_append]
       show cancels V.trace ++ [] = _
       rw [List.append_nil]; exact hA.cancels,
    by show creations (V.trace ++ [Event.thread_join j ok]) = _
       rw [creations_append]
       show creations V.trace ++ [] = _
       rw [List.append_nil]; exact hA.creations⟩

/-- The section of `tq_queue_start` that holds the mutex, when `pthread_create`
fails at slot `k` and succeeds on the slots before it. -/
theorem start_section_fail (c : Nat → Bool) (uo : Bool) (W : World) (k : Nat)
    (hk : k < W.queue.nb_workers.toNat) (hfail : c k = false)
    (hok : ∀ j, j < k → c j = true) :
    (start_section true c uo W).1 = StartOutcome.create_failed k ∧
    (start_section true c uo W).2.heap = W.heap ∧
    (start_section true c uo W).2.queue = W.queue ∧
    (∀ j, (start_section true c uo W).2.threads j =
      if j < k then WorkerPc.startup else W.threads j) ∧
    (∀ j, (start_section true c uo W).2.cancel j = if j < k then true else W.cancel j) ∧
    (start_section true c uo W).2.trace =
      W.trace ++ tq_mutex_lock true ++
        (List.range' 0 k).map (fun j => Event.thread_create j true) ++
        [Event.thread_create k false, Event.set_error Msg.cannot_create_thread] ++
        (List.range' 0 k).map (fun j => Event.thread_cancel j) ++ tq_mutex_unlock uo := by
  obtain ⟨r1, r2, r3⟩ := start_create_fail c W.queue.nb_workers.toNat 0
    { W with trace := W.trace ++ tq_mutex_lock true } k (Nat.zero_le k) (by omega) hfail
    (fun j _ hj => hok j hj)
  have h1 := start_create_heap c W.queue.nb_workers.toNat 0
    { W with trace := W.trace ++ tq_mutex_lock true }
  have h2 := start_create_queue c W.queue.nb_workers.toNat 0
    { W with trace := W.trace ++ tq_mutex_lock true }
  have h3 := start_create_cancel c W.queue.nb_workers.toNat 0
    { W with trace := W.trace ++ tq_mutex_lock true }
  unfold start_section
  simp only [Bool.not_true, Bool.false_eq_true, if_false]
  cases hsc : start_create c W.queue.nb_workers.toNat 0
      { W with trace := W.trace ++ tq_mutex_lock true } with
  | mk r V =>
    rw [hsc] at r1 r2 r3 h1 h2 h3
    simp only at r1 r2 r3 h1 h2 h3
    subst r1
    obtain ⟨c1, c2, c3, c4, c5⟩ := start_cancel_spec k 0 V
    refine ⟨rfl, c1.trans h1, c2.trans h2, ?_, ?_, ?_⟩
    · intro j
      show (start_cancel k 0 V).threads j = _
      rw [c3, r2 j]
      simp
    · intro j
      show (start_cancel k 0 V).cancel j = _
      rw [c4 j, h3]
      simp
    · show (start_cancel k 0 V).trace ++ tq_mutex_unlock uo = _
      rw [c5, r3]
      simp

/-- The section of `tq_queue_start` that holds the mutex, when every
`pthread_create` succeeds. -/
theorem start_section_ok (c : Nat → Bool) (uo : Bool) (W : World)
    (hok : ∀ j, j < W.queue.nb_workers.toNat → c j = true) :
    (start_section true c uo W).1 = StartOutcome.created ∧
    (start_section true c uo W).2.heap = W.heap ∧
    (start_section true c uo W).2.queue = W.queue ∧
    (∀ j, (start_section true c uo W).2.threads j =
      if j < W.queue.nb_workers.toNat then WorkerPc.startup else W.threads j) ∧
    (start_section true c uo W).2.cancel = W.cancel ∧
    (start_section true c uo W).2.trace =
      W.trace ++ tq_mutex_lock true ++
        (List.range' 0 W.queue.nb_workers.toNat).map (fun j => Event.thread_create j true) ++
        tq_mutex_unlock uo := by
  obtain ⟨r1, r2, r3⟩ := start_create_ok c W.queue.nb_workers.toNat 0
    { W with trace := W.trace ++ tq_mutex_lock true } (fun j _ hj => hok j (by omega))
  have h1 := start_create_heap c W.queue.nb_workers.toNat 0
    { W with trace := W.trace ++ tq_mutex_lock true }
  have h2 := start_create_queue c W.queue.nb_workers.toNat 0
    { W with trace := W.trace ++ tq_mutex_lock true }
  have h3 := start_create_cancel c W.queue.nb_workers.toNat 0
    { W with trace := W.trace ++ tq_mutex_lock true }
  unfold start_section
  simp only [Bool.not_true, Bool.false_eq_true, if_false]
  cases hsc : start_create c W.queue.nb_workers.toNat 0
      { W with trace := W.trace ++ tq_mutex_lock true } with
  | mk r V =>
    rw [hsc] at r1 r2 r3 h1 h2 h3
    simp only at r1 r2 r3 h1 h2 h3
    subst r1
    refine ⟨rfl, h1, h2, ?_, h3, ?_⟩
    · intro j
      show V.threads j = _
      rw [r2 j]
      simp
    · show V.trace ++ tq_mutex_unlock uo = _
      rw [r3]

theorem dll_unique {heap : Heap} :
    ∀ (l1 l2 : List Nat) {pv p : Option Nat}, dll heap pv p l1 → dll heap pv p l2 →
      l1 = l2 := by
  intro l1
  induction l1 with
  | nil =>
    intro l2 pv p h1 h2
    have hp : p = none := h1
    cases l2 with
    | nil => rfl
    | cons b t => exact absurd (h2.1.symm.trans hp) (by simp)
  | cons a t ih =>
    intro l2 pv p h1 h2
    obtain ⟨hp, j, hj, _, hrest⟩ := h1
    cases l2 with
    | nil =>
      have hp2 : p = none := h2
      exact absurd (hp.symm.trans hp2) (by simp)
    | cons b t2 =>
      obtain ⟨hp2, j2, hj2, _, hrest2⟩ := h2
      have hab : a = b := by
        have := hp.symm.trans hp2
        simpa using this
      subst hab
      have hjj : j = j2 := by
        have := hj.symm.trans hj2
        simpa using this
      subst hjj
      rw [ih t2 hrest hrest2]

theorem stop_section_spec (uo : Bool) (W : World) :
    (stop_section true uo W).1 = true ∧
    (stop_section true uo W).2.heap = W.heap ∧
    (stop_section true uo W).2.threads = W.threads ∧
    (stop_section true uo W).2.cancel = W.cancel ∧
    (stop_section true uo W).2.queue.jobs = W.queue.jobs ∧
    (stop_section true uo W).2.queue.next_job = W.queue.next_job ∧
    (stop_section true uo W).2.queue.nb_jobs = W.queue.nb_jobs ∧
    (stop_section true uo W).2.queue.nb_workers = W.queue.nb_workers ∧
    (stop_section true uo W).2.queue.job_started_hook = W.queue.job_started_hook ∧
    (stop_section true uo W).2.queue.job_done_hook = W.queue.job_done_hook ∧
    (∀ i, (stop_section true uo W).2.queue.workers i =
      if i < W.queue.nb_workers.toNat then { W.queue.workers i with exit := true }
      else W.queue.workers i) ∧
    (stop_section true uo W).2.trace =
      W.trace ++ tq_mutex_lock true ++ tq_mutex_unlock uo ++ [Event.cond_broadcast] := by
  refine ⟨rfl, rfl, rfl, rfl, rfl, rfl, rfl, rfl, rfl, rfl, ?_, rfl⟩
  intro i
  show stop_flags W.queue.nb_workers.toNat 0 W.queue.workers i = _
  rw [stop_flags_spec]
  simp

theorem run_workers_workers :
    ∀ (sched : List WorkerStep) (W : World),
      (run_workers sched W).queue.workers = W.queue.workers ∧
      (run_workers sched W).queue.nb_workers = W.queue.nb_workers := by
  intro sched
  induction sched with
  | nil => intro W; exact ⟨rfl, rfl⟩
  | cons s sched ih =>
    intro W
    rw [run_workers_cons]
    obtain ⟨h1, h2⟩ := ih (tq_worker_func s.i s.lock_ok s.wait_ok s.unlock_ok W)
    obtain ⟨_, f2, f3, _⟩ := worker_frame s.i s.lock_ok s.wait_ok s.unlock_ok W
    exact ⟨h1.trans f2, h2.trans f3⟩

/-- The join loop of `tq_queue_stop`: every slot is joined, in order, and the
result is -1 exactly when it was already or when one of the joins failed. -/
theorem stop_join_result (join_ok : Nat → Bool) (sched : Nat → List WorkerStep) :
    ∀ (n i : Nat) (ret : Int) (V : World) (r : Int) (V2 : World),
      stop_join join_ok sched n i ret V = some (r, V2) →
      V2.queue.workers = V.queue.workers ∧
      joins V2.trace = joins V.trace ++ (List.range' i n).map (fun j => (j, join_ok j)) ∧
      (r = -1 ↔ ret = -1 ∨ ∃ j, i ≤ j ∧ j < i + n ∧ join_ok j = false) ∧
      (r = ret ∨ r = -1) := by
  intro n
  induction n with
  | zero =>
    intro i ret V r V2 h
    simp [stop_join] at h
    obtain ⟨rfl, rfl⟩ := h
    refine ⟨rfl, by simp, ?_, Or.inl rfl⟩
    constructor
    · intro h; exact Or.inl h
    · rintro (h | ⟨j, h1, h2, _⟩)
      · exact h
      · omega
  | succ n ih =>
    intro i ret V r V2 h
    unfold stop_join at h
    have hw := run_workers_workers (sched i) V
    have hj := run_workers_joins (sched i) V
    cases hok : join_ok i with
    | false =>
      have hpj : pthread_join i false (sched i) V =
          some { run_workers (sched i) V with
                   trace := (run_workers (sched i) V).trace ++ [Event.thread_join i false] } := by
        unfold pthread_join; simp
      rw [hok, hpj] at h
      simp only [Bool.false_eq_true, if_false] at h
      obtain ⟨r1, r2, r3, r4⟩ := ih (i + 1) (-1) _ r V2 h
      refine ⟨r1.trans hw.1, ?_, ?_, ?_⟩
      · rw [r2, List.range'_succ]
        show joins ((run_workers (sched i) V).trace ++ [Event.thread_join i false] ++
          [Event.set_error Msg.cannot_join_thread]) ++ _ = _
        rw [joins_append, joins_append, hj]
        simp [joins, hok]
      · have hr : r = -1 := r3.2 (Or.inl rfl)
        constructor
        · intro _; exact Or.inr ⟨i, le_refl i, by omega, hok⟩
        · intro _; exact hr
      · exact Or.inr (r3.2 (Or.inl rfl))
    | true =>
      rw [hok] at h
      by_cases ht : (run_workers (sched i) V).threads i = WorkerPc.terminated
      · have hpj : pthread_join i true (sched i) V =
            some { run_workers (sched i) V with
                     trace := (run_workers (sched i) V).trace ++ [Event.thread_join i true] } := by
          unfold pthread_join; simp [ht]
        rw [hpj] at h
        simp only [if_true] at h
        obtain ⟨r1, r2, r3, r4⟩ := ih (i + 1) ret _ r V2 h
        refine ⟨r1.trans hw.1, ?_, ?_, r4⟩
        · rw [r2, List.range'_succ]
          show joins ((run_workers (sched i) V).trace ++ [Event.thread_join i true]) ++ _ = _
          rw [joins_append, hj]
          simp [joins, hok]
        · rw [r3]
          constructor
          · rintro (h | ⟨j, h1, h2, h3⟩)
            · exact Or.inl h
            · exact Or.inr ⟨j, by omega, by omega, h3⟩
          · rintro (h | ⟨j, h1, h2, h3⟩)
            · exact Or.inl h
            · right
              refine ⟨j, ?_, by omega, h3⟩
              by_contra hlt
              have : j = i := by omega
              subst this
              rw [hok] at h3
              exact absurd h3 (by simp)
      · have hpj : pthread_join i true (sched i) V = none := by
          unfold pthread_join; simp [ht]
        rw [hpj] at h
        simp at h

/-- A transition of a worker whose exit flag is set: it unlinks nothing, frees
at most the job it holds, terminates at once when it is at the top of its
loop or wakes from the wait, and gets nearer to its termination otherwise. -/
theorem worker_exit_step {i : Nat} {lo wo uo : Bool} {W : World}
    (hexit : (W.queue.workers i).exit = true) :
    (tq_worker_func i lo wo uo W).queue = W.queue ∧
    (∀ x, (W.threads i).job ≠ some x → (tq_worker_func i lo wo uo W).heap x = W.heap x) ∧
    submitted (tq_worker_func i lo wo uo W).trace = submitted W.trace ∧
    dequeues (tq_worker_func i lo wo uo W).trace = dequeues W.trace ∧
    ((W.threads i = WorkerPc.idle ∨ W.threads i = WorkerPc.waiting) →
      (tq_worker_func i lo wo uo W).threads i = WorkerPc.terminated ∧
      (tq_worker_func i lo wo uo W).heap = W.heap) ∧
    ((∀ a, (W.threads i).job = some a → W.heap a ≠ none) →
      W.threads i ≠ WorkerPc.absent →
      ((tq_worker_func i lo wo uo W).threads i).rank + 1 ≤ (W.threads i).rank ∨
      (tq_worker_func i lo wo uo W).threads i = WorkerPc.terminated) := by
  have hsame : ∀ V : World, V = W → (W.threads i = WorkerPc.terminated ∨
        W.threads i = WorkerPc.absent ∨ ∃ a, (W.threads i).job = some a ∧ W.heap a = none) →
      V.queue = W.queue ∧ (∀ x, (W.threads i).job ≠ some x → V.heap x = W.heap x) ∧
      submitted V.trace = submitted W.trace ∧ dequeues V.trace = dequeues W.trace ∧
      ((W.threads i = WorkerPc.idle ∨ W.threads i = WorkerPc.waiting) →
        V.threads i = WorkerPc.terminated ∧ V.heap = W.heap) ∧
      ((∀ a, (W.threads i).job = some a → W.heap a ≠ none) →
        W.threads i ≠ WorkerPc.absent →
        (V.threads i).rank + 1 ≤ (W.threads i).rank ∨ V.threads i = WorkerPc.terminated) := by
    intro V hV hcase
    subst hV
    refine ⟨rfl, fun _ _ => rfl, rfl, rfl, ?_, ?_⟩
    · rintro (h | h) <;> rcases hcase with hc | hc | ⟨a, hc, _⟩ <;> rw [h] at hc <;>
        simp [WorkerPc.job] at hc
    · intro hlive hna
      rcases hcase with hc | hc | ⟨a, hc, hnone⟩
      · exact Or.inr hc
      · exact absurd hc hna
      · exact absurd hnone (hlive a hc)
  have hto : ∀ (pc : WorkerPc) (heap2 : Heap) (ev : List Event),
      (∀ x, (W.threads i).job ≠ some x → heap2 x = W.heap x) →
      submitted ev = [] → dequeues ev = [] →
      ((W.threads i = WorkerPc.idle ∨ W.threads i = WorkerPc.waiting) →
        pc = WorkerPc.terminated ∧ heap2 = W.heap) →
      (pc.rank + 1 ≤ (W.threads i).rank ∨ pc = WorkerPc.terminated) →
      ∀ V : World, V.queue = W.queue → V.heap = heap2 →
        V.threads = Function.update W.threads i pc → V.trace = W.trace ++ ev →
      V.queue = W.queue ∧ (∀ x, (W.threads i).job ≠ some x → V.heap x = W.heap x) ∧
      submitted V.trace = submitted W.trace ∧ dequeues V.trace = dequeues W.trace ∧
      ((W.threads i = WorkerPc.idle ∨ W.threads i = WorkerPc.waiting) →
        V.threads i = WorkerPc.terminated ∧ V.heap = W.heap) ∧
      ((∀ a, (W.threads i).job = some a → W.heap a ≠ none) →
        W.threads i ≠ WorkerPc.absent →
        (V.threads i).rank + 1 ≤ (W.threads i).rank ∨ V.threads i = WorkerPc.terminated) := by
    intro pc heap2 ev hheap hs hd hidle hrank V hq hh ht htr
    have hVi : V.threads i = pc := by rw [ht, Function.update_same]
    refine ⟨hq, ?_, ?_, ?_, ?_, ?_⟩
    · intro x hx; rw [hh]; exact hheap x hx
    · rw [htr, submitted_append, hs, List.append_nil]
    · rw [htr, dequeues_append, hd, List.append_nil]
    · intro h
      rw [hVi, hh]
      exact hidle h
    · intro _ _
      rw [hVi]
      exact hrank
  have key : ∀ pc, W.threads i = pc →
      (tq_worker_func i lo wo uo W).queue = W.queue ∧
      (∀ x, (W.threads i).job ≠ some x → (tq_worker_func i lo wo uo W).heap x = W.heap x) ∧
      submitted (tq_worker_func i lo wo uo W).trace = submitted W.trace ∧
      dequeues (tq_worker_func i lo wo uo W).trace = dequeues W.trace ∧
      ((W.threads i = WorkerPc.idle ∨ W.threads i = WorkerPc.waiting) →
        (tq_worker_func i lo wo uo W).threads i = WorkerPc.terminated ∧
        (tq_worker_func i lo wo uo W).heap = W.heap) ∧
      ((∀ a, (W.threads i).job = some a → W.heap a ≠ none) →
        W.threads i ≠ WorkerPc.absent →
        ((tq_worker_func i lo wo uo W).threads i).rank + 1 ≤ (W.threads i).rank ∨
        (tq_worker_func i lo wo uo W).threads i = WorkerPc.terminated) := by
    intro pc hpc
    cases pc with
    | absent =>
      exact hsame _ (@worker_func_absent i lo wo uo W hpc) (Or.inr (Or.inl hpc))
    | terminated =>
      exact hsame _ (@worker_func_terminated i lo wo uo W hpc) (Or.inl hpc)
    | startup =>
      cases hc : W.cancel i with
      | false =>
        cases lo with
        | false =>
          rw [worker_func_lock_failed (Or.inl ⟨hpc, hc⟩)]
          exact hto WorkerPc.terminated W.heap
            (tq_mutex_lock false ++ [Event.trace_msg Msg.cannot_lock_mutex])
            (fun _ _ => rfl) rfl rfl (fun _ => ⟨rfl, rfl⟩) (Or.inr rfl) _ rfl rfl rfl
            (by simp only [List.append_assoc])
        | true =>
          rw [worker_func_startup hpc hc]
          exact hto WorkerPc.idle W.heap
            (tq_mutex_lock true ++ tq_mutex_unlock uo)
            (fun _ _ => rfl) (by simp [submitted_append]) (by simp [dequeues_append])
            (fun h => by rw [hpc] at h; simp at h)
            (by rw [hpc]; simp [WorkerPc.rank]) _ rfl rfl rfl
            (by simp only [List.append_assoc])
      | true =>
        cases lo with
        | false =>
          rw [worker_func_cancelled_lock hpc hc]
          exact hto WorkerPc.terminated W.heap
            [Event.mutex_lock false, Event.trace_msg Msg.cannot_lock_mutex]
            (fun _ _ => rfl) rfl rfl (fun _ => ⟨rfl, rfl⟩) (Or.inr rfl) _ rfl rfl rfl rfl
        | true =>
          rw [worker_func_cancelled hpc hc]
          exact hto WorkerPc.terminated W.heap
            (tq_mutex_lock true ++
              (if uo then tq_mutex_unlock true
               else [Event.mutex_unlock false, Event.trace_msg Msg.cannot_unlock_mutex]))
            (fun _ _ => rfl) (by cases uo <;> rfl) (by cases uo <;> rfl)
            (fun _ => ⟨rfl, rfl⟩) (Or.inr rfl) _ rfl rfl rfl
            (by simp only [List.append_assoc])
    | idle =>
      cases lo with
      | false =>
        rw [worker_func_lock_failed (Or.inr hpc)]
        exact hto WorkerPc.terminated W.heap
          (tq_mutex_lock false ++ [Event.trace_msg Msg.cannot_lock_mutex])
          (fun _ _ => rfl) rfl rfl (fun _ => ⟨rfl, rfl⟩) (Or.inr rfl) _ rfl rfl rfl
          (by simp only [List.append_assoc])
      | true =>
        rw [worker_func_idle hpc,
          @worker_take_exit i uo { W with trace := W.trace ++ tq_mutex_lock true } hexit]
        exact hto WorkerPc.terminated W.heap
          (tq_mutex_lock true ++ (tq_mutex_unlock uo ++ [Event.thread_exit i]))
          (fun _ _ => rfl)
          (by simp only [submitted_append, submitted_lock, submitted_unlock]; rfl)
          (by simp only [dequeues_append, dequeues_lock, dequeues_unlock]; rfl)
          (fun _ => ⟨rfl, rfl⟩) (Or.inr rfl) _ rfl rfl rfl
          (by simp only [List.append_assoc])
    | waiting =>
      cases wo with
      | false =>
        rw [worker_func_wait_failed hpc]
        exact hto WorkerPc.terminated W.heap
          ([Event.trace_msg Msg.cannot_wait_for_condition] ++ tq_mutex_unlock uo)
          (fun _ _ => rfl)
          (by simp only [submitted_append, submitted_unlock]; rfl)
          (by simp only [dequeues_append, dequeues_unlock]; rfl)
          (fun _ => ⟨rfl, rfl⟩) (Or.inr rfl) _ rfl rfl rfl
          (by simp only [List.append_assoc])
      | true =>
        rw [worker_func_woken hpc, worker_take_exit hexit]
        exact hto WorkerPc.terminated W.heap
          (tq_mutex_unlock uo ++ [Event.thread_exit i])
          (fun _ _ => rfl)
          (by simp only [submitted_append, submitted_unlock]; rfl)
          (by simp only [dequeues_append, dequeues_unlock]; rfl)
          (fun _ => ⟨rfl, rfl⟩) (Or.inr rfl) _ rfl rfl rfl
          (by simp only [List.append_assoc])
    | started a =>
      cases hj : W.heap a with
      | none =>
        exact hsame _ (@worker_func_dangling i a lo wo uo W (by rw [hpc]; rfl) hj)
          (Or.inr (Or.inr ⟨a, by rw [hpc]; rfl, hj⟩))
      | some j =>
        rw [worker_func_started hpc hj]
        exact hto (WorkerPc.running a) W.heap
          (match W.queue.job_started_hook with
            | some hook => [Event.job_started_hook i hook j.arg]
            | none => [])
          (fun _ _ => rfl)
          (by cases W.queue.job_started_hook <;> rfl)
          (by cases W.queue.job_started_hook <;> rfl)
          (fun h => by rw [hpc] at h; simp at h)
          (by rw [hpc]; simp [WorkerPc.rank]) _ rfl rfl rfl rfl
    | running a =>
      cases hj : W.heap a with
      | none =>
        exact hsame _ (@worker_func_dangling i a lo wo uo W (by rw [hpc]; rfl) hj)
          (Or.inr (Or.inr ⟨a, by rw [hpc]; rfl, hj⟩))
      | some j =>
        rw [worker_func_running hpc hj]
        exact hto (WorkerPc.finishing a) W.heap [Event.job_func i j.func j.arg]
          (fun _ _ => rfl) rfl rfl
          (fun h => by rw [hpc] at h; simp at h)
          (by rw [hpc]; simp [WorkerPc.rank]) _ rfl rfl rfl rfl
    | finishing a =>
      cases hj : W.heap a with
      | none =>
        exact hsame _ (@worker_func_dangling i a lo wo uo W (by rw [hpc]; rfl) hj)
          (Or.inr (Or.inr ⟨a, by rw [hpc]; rfl, hj⟩))
      | some j =>
        rw [worker_func_finishing hpc hj]
        exact hto WorkerPc.idle (Function.update W.heap a none)
          ((match W.queue.job_done_hook with
            | some hook => [Event.job_done_hook i hook j.arg]
            | none => []) ++ [Event.free a])
          (fun x hx => by
            have hxa : x ≠ a := by
              intro e
              apply hx
              rw [hpc, e]
              rfl
            exact Function.update_noteq hxa _ _)
          (by cases W.queue.job_done_hook <;> rfl)
          (by cases W.queue.job_done_hook <;> rfl)
          (fun h => by rw [hpc] at h; simp at h)
          (by rw [hpc]; simp [WorkerPc.rank]) _ rfl rfl rfl
          (by simp only [List.append_assoc])

  exact key _ rfl

theorem rank_eq_zero {pc : WorkerPc} (h : pc.rank = 0) : pc = WorkerPc.terminated := by
  cases pc <;> first | rfl | simp [WorkerPc.rank] at h

theorem rank_le (pc : WorkerPc) : pc.rank ≤ 5 := by
  cases pc <;> simp [WorkerPc.rank]

theorem rank_absent {pc : WorkerPc} (h : pc.rank < 5) : pc ≠ WorkerPc.absent := by
  intro e
  subst e
  simp [WorkerPc.rank] at h

theorem stopping_refl {n : Int} {l : List Nat} {W : World} (hG : Good n W) (hI : Inv W l)
    (hflags : ∀ i, i < n.toNat → (W.queue.workers i).exit = true) : Stopping n l W W :=
  ⟨hG, hI, hflags, rfl, fun _ _ => rfl, rfl, rfl, fun _ h => h⟩

/-- Once the exit flags are set no worker transition changes the queue or the
linked nodes. -/
theorem stopping_worker {n : Int} {l : List Nat} {W0 W : World} (i : Nat) (lo wo uo : Bool)
    (hS : Stopping n l W0 W) : Stopping n l W0 (tq_worker_func i lo wo uo W) := by
  by_cases hi : n.toNat ≤ i
  · rw [worker_func_absent (hS.good.1.none_above i hi)]
    exact hS
  · have hexit := hS.flags i (by omega)
    obtain ⟨e1, e2, e3, e4, _, e6⟩ := @worker_exit_step i lo wo uo W hexit
    have hG2 := good_worker i lo wo uo hS.good
    obtain ⟨_, l2, hI2, _⟩ := hG2
    have hnodes : ∀ x ∈ l, (tq_worker_func i lo wo uo W).heap x = W.heap x := by
      intro x hx
      apply e2
      intro hjob
      exact (hS.inv.held i x hjob).1 hx
    have hchain : dll (tq_worker_func i lo wo uo W).heap none
        (tq_worker_func i lo wo uo W).queue.jobs l := by
      rw [e1]
      exact dll_congr hnodes hS.inv.chain
    have hl : l2 = l := dll_unique l2 l hI2.chain hchain
    subst hl
    refine ⟨good_worker i lo wo uo hS.good, hI2, ?_, e1.trans hS.queue, ?_,
      e3.trans hS.sub, e4.trans hS.deq, ?_⟩
    · intro k hk
      rw [e1]
      exact hS.flags k hk
    · intro x hx
      rw [hnodes x hx]
      exact hS.nodes x hx
    · intro k hk
      have hWk := hS.present k hk
      by_cases hki : k = i
      · subst hki
        rcases e6 (fun a ha => (hS.inv.held k a ha).2.1) hWk with h | h
        · exact rank_absent (by have := rank_le (W.threads k); omega)
        · rw [h]; simp
      · rw [(worker_frame i lo wo uo W).2.2.2.2.2.1 k hki]
        exact hWk

theorem stopping_run_workers {n : Int} {l : List Nat} {W0 : World} :
    ∀ (sched : List WorkerStep) {W : World}, Stopping n l W0 W →
      Stopping n l W0 (run_workers sched W) := by
  intro sched
  induction sched with
  | nil => intro W hS; exact hS
  | cons s sched ih =>
    intro W hS
    rw [run_workers_cons]
    exact ih (stopping_worker s.i s.lock_ok s.wait_ok s.unlock_ok hS)

theorem stopping_trace {n : Int} {l : List Nat} {W0 W : World} (ev : List Event)
    (hq : Quiet W.trace (W.trace ++ ev)) (hS : Stopping n l W0 W) :
    Stopping n l W0 { W with trace := W.trace ++ ev } :=
  ⟨good_trace ev hS.good hq,
   (@frame W { W with trace := W.trace ++ ev } l rfl rfl rfl rfl (fun _ => rfl)
      (fun _ => rfl) hq hS.inv
      (by obtain ⟨_, l2, hI2, hH2⟩ := hS.good
          have : l2 = l := dll_unique l2 l hI2.chain hS.inv.chain
          subst this
          exact hH2)).1,
   hS.flags, hS.queue, hS.nodes, hq.1.trans hS.sub, hq.2.1.trans hS.deq, hS.present⟩

/-- A thread whose exit flag is set terminates within four transitions. -/
theorem exit_terminates {n : Int} {l : List Nat} {W0 : World} {i : Nat}
    (hi : i < n.toNat) :
    ∀ (sched : List WorkerStep) {W : World}, Stopping n l W0 W →
      W.threads i ≠ WorkerPc.absent → (W.threads i).rank ≤ steps_of i sched →
      (run_workers sched W).threads i = WorkerPc.terminated := by
  intro sched
  induction sched with
  | nil =>
    intro W _ _ hr
    exact rank_eq_zero (by simpa [steps_of] using hr)
  | cons s sched ih =>
    intro W hS hpres hr
    rw [run_workers_cons]
    have hS2 := stopping_worker s.i s.lock_ok s.wait_ok s.unlock_ok hS
    by_cases hsi : s.i = i
    · have hcount : steps_of i (s :: sched) = steps_of i sched + 1 := by
        simp [steps_of, List.filter_cons, hsi]
      rw [hcount] at hr
      have hexit := hS.flags i hi
      obtain ⟨_, _, _, _, _, e6⟩ := @worker_exit_step i s.lock_ok s.wait_ok s.unlock_ok W hexit
      rw [hsi] at hS2 ⊢
      rcases e6 (fun a ha => (hS.inv.held i a ha).2.1) hpres with h | h
      · exact ih hS2 (rank_absent (by have := rank_le (W.threads i); omega)) (by omega)
      · exact run_workers_keeps_terminated sched h
    · have hcount : steps_of i (s :: sched) = steps_of i sched := by
        simp [steps_of, List.filter_cons, hsi]
      rw [hcount] at hr
      have hsame : (tq_worker_func s.i s.lock_ok s.wait_ok s.unlock_ok W).threads i =
          W.threads i :=
        (worker_frame s.i s.lock_ok s.wait_ok s.unlock_ok W).2.2.2.2.2.1 i
          (fun e => hsi e.symm)
      exact ih hS2 (by rw [hsame]; exact hpres) (by rw [hsame]; exact hr)

/-- The join loop of `tq_queue_stop` leaves the queue and the linked nodes as
they were when the flags were set, and it ends when every thread joined with
success is given four transitions. -/
theorem stop_join_keeps {n : Int} {l : List Nat} {W0 : World} (join_ok : Nat → Bool)
    (sched : Nat → List WorkerStep) :
    ∀ (m i : Nat) (ret : Int) (V : World), Stopping n l W0 V →
      (∀ r V2, stop_join join_ok sched m i ret V = some (r, V2) → Stopping n l W0 V2) ∧
      ((∀ j, i ≤ j → j < i + m → join_ok j = true →
          j < n.toNat ∧ W0.threads j ≠ WorkerPc.absent ∧ 4 ≤ steps_of j (sched j)) →
        ∃ r V2, stop_join join_ok sched m i ret V = some (r, V2)) := by
  intro m
  induction m with
  | zero =>
    intro i ret V hS
    refine ⟨?_, fun _ => ⟨ret, V, rfl⟩⟩
    intro r V2 h
    simp [stop_join] at h
    obtain ⟨rfl, rfl⟩ := h
    exact hS
  | succ m ih =>
    intro i ret V hS
    have hS1 := stopping_run_workers (sched i) hS
    cases hok : join_ok i with
    | false =>
      have hpj : pthread_join i false (sched i) V =
          some { run_workers (sched i) V with
                   trace := (run_workers (sched i) V).trace ++ [Event.thread_join i false] } := by
        unfold pthread_join; simp
      have hS2 := stopping_trace [Event.thread_join i false]
        (@quiet_append _ [Event.thread_join i false] rfl rfl rfl) hS1
      have hS3 := stopping_trace [Event.set_error Msg.cannot_join_thread]
        (@quiet_append _ [Event.set_error Msg.cannot_join_thread] rfl rfl rfl) hS2
      obtain ⟨k1, k2⟩ := ih (i + 1) (-1) _ hS3
      constructor
      · intro r V2 h
        unfold stop_join at h
        rw [hok, hpj] at h
        simp only [Bool.false_eq_true, if_false] at h
        exact k1 r V2 h
      · intro hs
        obtain ⟨r, V2, h⟩ := k2 (fun j h1 h2 h3 => hs j (by omega) (by omega) h3)
        refine ⟨r, V2, ?_⟩
        unfold stop_join
        rw [hok, hpj]
        simp only [Bool.false_eq_true, if_false]
        exact h
    | true =>
      constructor
      · intro r V2 h
        unfold stop_join at h
        rw [hok] at h
        by_cases ht : (run_workers (sched i) V).threads i = WorkerPc.terminated
        · have hpj : pthread_join i true (sched i) V =
              some { run_workers (sched i) V with
                trace := (run_workers (sched i) V).trace ++ [Event.thread_join i true] } := by
            unfold pthread_join; simp [ht]
          rw [hpj] at h
          simp only [if_true] at h
          have hS2 := stopping_trace [Event.thread_join i true]
            (@quiet_append _ [Event.thread_join i true] rfl rfl rfl) hS1
          exact (ih (i + 1) ret _ hS2).1 r V2 h
        · have hpj : pthread_join i true (sched i) V = none := by
            unfold pthread_join; simp [ht]
          rw [hpj] at h
          simp at h
      · intro hs
        obtain ⟨h1, h2, h3⟩ := hs i (le_refl i) (by omega) hok
        have ht : (run_workers (sched i) V).threads i = WorkerPc.terminated := by
          apply exit_terminates h1 (sched i) hS (hS.present i h2)
          have := rank_le (V.threads i)
          have hne := hS.present i h2
          have : (V.threads i).rank ≤ 4 := by
            cases hpc : V.threads i <;> first | exact absurd hpc hne | simp [WorkerPc.rank]
          omega
        have hpj : pthread_join i true (sched i) V =
            some { run_workers (sched i) V with
              trace := (run_workers (sched i) V).trace ++ [Event.thread_join i true] } := by
          unfold pthread_join; simp [ht]
        have hS2 := stopping_trace [Event.thread_join i true]
          (@quiet_append _ [Event.thread_join i true] rfl rfl rfl) hS1
        obtain ⟨r, V2, h⟩ := (ih (i + 1) ret _ hS2).2
          (fun j h1 h2 h3 => hs j (by omega) (by omega) h3)
        refine ⟨r, V2, ?_⟩
        unfold stop_join
        rw [hok, hpj]
        simp only [if_true]
        exact h

theorem world_stopped_reachable : Reachable 1 world_stopped :=
  reachable_run_env
    (scenario_abc.take 4 ++ [Action.worker 0 true true true, Action.stop true true])
    Reachable.new rfl

theorem world_started_reachable : Reachable 2 world_started :=
  reachable_run_env [Action.start true (fun _ => true) true] Reachable.new rfl

theorem tq_queue_stop_eq (uo : Bool) (join_ok : Nat → Bool) (sched : Nat → List WorkerStep)
    (W : World) :
    tq_queue_stop true uo join_ok sched W =
      stop_join join_ok sched W.queue.nb_workers.toNat 0 0 (stop_section true uo W).2 := rfl

/-- C8 (the exit flag is observed before every dequeue).  A worker whose exit
flag is set when it is at the top of its loop, or when it wakes from the wait,
terminates in that transition without unlinking a job, whatever the queue
holds.  Hence, in a reachable world where the flags of all the slots are set,
no schedule of worker transitions changes the queue or the linked nodes or
unlinks a job; and when `tq_queue_stop` returns the list, `nb_jobs` and the
linked nodes are those of the world in which it was called. -/
theorem exit_flag_before_dequeue :
    (∀ (W : World) (i : Nat) (lock_ok wait_ok unlock_ok : Bool),
      (W.queue.workers i).exit = true →
      (W.threads i = WorkerPc.idle ∨ W.threads i = WorkerPc.waiting) →
      (tq_worker_func i lock_ok wait_ok unlock_ok W).threads i = WorkerPc.terminated ∧
      (tq_worker_func i lock_ok wait_ok unlock_ok W).queue = W.queue ∧
      (tq_worker_func i lock_ok wait_ok unlock_ok W).heap = W.heap ∧
      dequeues (tq_worker_func i lock_ok wait_ok unlock_ok W).trace = dequeues W.trace) ∧
    (∀ (n : Int) (W : World) (l : List Nat) (sched : List WorkerStep),
      Reachable n W → Inv W l → (∀ i, i < n.toNat → (W.queue.workers i).exit = true) →
      (run_workers sched W).queue = W.queue ∧ Inv (run_workers sched W) l ∧
      (∀ x ∈ l, (run_workers sched W).heap x = W.heap x) ∧
      dequeues (run_workers sched W).trace = dequeues W.trace) ∧
    (∀ (n : Int) (W : World) (l : List Nat) (unlock_ok : Bool) (join_ok : Nat → Bool)
      (sched : Nat → List WorkerStep) (r : Int) (V : World),
      Reachable n W → Inv W l →
      tq_queue_stop true unlock_ok join_ok sched W = some (r, V) →
      V.queue.jobs = W.queue.jobs ∧ V.queue.next_job = W.queue.next_job ∧
      V.queue.nb_jobs = W.queue.nb_jobs ∧ Inv V l ∧
      (∀ fuel, l.length ≤ fuel → nodes_from V.heap fuel V.queue.jobs = some l) ∧
      (∀ x ∈ l, V.heap x = W.heap x) ∧
      dequeues V.trace = dequeues W.trace) := by
  refine ⟨?_, ?_, ?_⟩
  · intro W i lo wo uo hexit hpc
    obtain ⟨e1, _, _, e4, e5, _⟩ := @worker_exit_step i lo wo uo W hexit
    exact ⟨(e5 hpc).1, e1, (e5 hpc).2, e4⟩
  · intro n W l sched hr hI hflags
    have hS := stopping_run_workers sched (stopping_refl (good_of_reachable hr) hI hflags)
    exact ⟨hS.queue, hS.inv, hS.nodes, hS.deq⟩
  · intro n W l uo join_ok sched r V hr hI h
    obtain ⟨_, s2, s3, _, s5, s6, s7, _, _, _, s11, s12⟩ := stop_section_spec uo W
    have hG := good_of_reachable hr
    have hnb : W.queue.nb_workers = n := hG.1.nb
    have hG1 : Good n (stop_section true uo W).2 := good_step (Action.stop true uo) hG trivial
    have hI1 : Inv (stop_section true uo W).2 l := by
      obtain ⟨l2, hI2, _⟩ := hG1.2
      have hchain : dll (stop_section true uo W).2.heap none
          (stop_section true uo W).2.queue.jobs l := by
        rw [s2, s5]; exact hI.chain
      have : l2 = l := dll_unique l2 l hI2.chain hchain
      subst this
      exact hI2
    have hS0 := stopping_refl hG1 hI1 (by
      intro i hi
      rw [s11 i, hnb]
      simp [hi])
    rw [tq_queue_stop_eq] at h
    have hS := (stop_join_keeps join_ok sched _ 0 0 _ hS0).1 r V h
    have hq : Quiet W.trace (stop_section true uo W).2.trace := by
      rw [s12]
      exact quiet_trans (quiet_trans (quiet_lock _ true) (quiet_unlock _ uo))
        (@quiet_append _ [Event.cond_broadcast] rfl rfl rfl)
    refine ⟨?_, ?_, ?_, hS.inv, dll_nodes_from hS.inv.chain, ?_, ?_⟩
    · rw [hS.queue, s5]
    · rw [hS.queue, s6]
    · rw [hS.queue, s7]
    · intro x hx
      rw [hS.nodes x hx, s2]
    · rw [hS.deq, hq.2.1]

theorem world_idle_reachable : Reachable 1 world_idle :=
  reachable_run_env (scenario_abc.take 4 ++ [Action.worker 0 true true true])
    Reachable.new rfl

theorem exit_flag_before_dequeue_witness :
    (world_stopped.queue.workers 0).exit = true ∧
    world_stopped.threads 0 = WorkerPc.idle ∧
    world_stopped.queue.nb_jobs = 3 ∧
    (tq_worker_func 0 true true true world_stopped).threads 0 = WorkerPc.terminated ∧
    (tq_worker_func 0 true true true world_stopped).queue = world_stopped.queue ∧
    ∃ r V, tq_queue_stop true true (fun _ => true) four_steps world_idle = some (r, V) ∧
      V.queue.nb_jobs = 3 := by
  refine ⟨rfl, rfl, rfl,
    (exit_flag_before_dequeue.1 world_stopped 0 true true true rfl (Or.inl rfl)).1,
    (exit_flag_before_dequeue.1 world_stopped 0 true true true rfl (Or.inl rfl)).2.1, ?_⟩
  have hsome : (tq_queue_stop true true (fun _ => true) four_steps world_idle).isSome = true :=
    rfl
  obtain ⟨⟨r, V⟩, h⟩ := Option.isSome_iff_exists.1 hsome
  obtain ⟨l, hI, _⟩ := reachable_good world_idle_reachable
  exact ⟨r, V, h,
    (exit_flag_before_dequeue.2.2 1 world_idle l true (fun _ => true) four_steps r V
      world_idle_reachable hI h).2.2.1⟩

/-! ## tq_queue_delete -/

theorem delete_jobs_spec :
    ∀ (l : List Nat) (fuel : Nat) (heap : Heap) (pv p : Option Nat),
      dll heap pv p l → l.Nodup → l.length ≤ fuel →
      ∃ heap2, delete_jobs fuel p heap = some (heap2, l.map Event.free) ∧
        ∀ x, heap2 x = if x ∈ l then none else heap x := by
  intro l
  induction l with
  | nil =>
    intro fuel heap pv p h _ _
    have hp : p = none := h
    subst hp
    refine ⟨heap, ?_, by simp⟩
    cases fuel <;> rfl
  | cons a t ih =>
    intro fuel heap pv p h hnd hfuel
    obtain ⟨hp, j, hj, _, hrest⟩ := h
    subst hp
    have hat : a ∉ t := (List.nodup_cons.1 hnd).1
    cases fuel with
    | zero => simp at hfuel
    | succ fuel =>
      have hrest2 : dll (Function.update heap a none) (some a) j.next t := by
        refine dll_congr ?_ hrest
        intro x hx
        have hxa : x ≠ a := by
          intro e
          subst e
          exact hat hx
        exact Function.update_noteq hxa _ _
      obtain ⟨heap2, hd, hh⟩ := ih fuel (Function.update heap a none) (some a) j.next hrest2
        (List.nodup_cons.1 hnd).2 (by simpa using hfuel)
      refine ⟨heap2, ?_, ?_⟩
      · simp [delete_jobs, hj, hd]
      · intro x
        rw [hh x]
        by_cases hxa : x = a
        · subst hxa
          simp [hat]
        · simp [hxa, Function.update_noteq hxa]

/-- C9 (`tq_queue_delete` reclaims every remaining job once).  On a queue
that satisfies the list invariant, with linked nodes `l`, the call ends and
the calls it makes are: `tq_free` on each node of `l` in list order, then the
release of the worker array, of the mutex, of the condition variable and of
the queue.  So each linked job is freed exactly once, no other job record is
freed or changed, and no job function or hook is called.  On `NULL` the call
makes no call and changes nothing. -/
theorem delete_reclaims (W : World) (l : List Nat) (fuel : Nat) (destroy_ok : Bool)
    (hI : Inv W l) (hfuel : l.length ≤ fuel) :
    (∃ heap2,
      tq_queue_delete fuel destroy_ok (some W.queue) W.heap =
        some (heap2, l.map Event.free ++ [Event.free_workers] ++ tq_mutex_free destroy_ok ++
          [Event.cond_destroy, Event.free_queue]) ∧
      (∀ x, heap2 x = if x ∈ l then none else W.heap x) ∧
      (∀ a, List.count (Event.free a) (l.map Event.free ++ [Event.free_workers] ++
          tq_mutex_free destroy_ok ++ [Event.cond_destroy, Event.free_queue]) =
        if a ∈ l then 1 else 0) ∧
      (∀ e ∈ l.map Event.free ++ [Event.free_workers] ++ tq_mutex_free destroy_ok ++
          [Event.cond_destroy, Event.free_queue],
        (∀ w f x, e ≠ Event.job_func w f x) ∧ (∀ w h x, e ≠ Event.job_started_hook w h x) ∧
        (∀ w h x, e ≠ Event.job_done_hook w h x))) ∧
    tq_queue_delete fuel destroy_ok none W.heap = some (W.heap, []) := by
  refine ⟨?_, rfl⟩
  obtain ⟨heap2, hd, hh⟩ := delete_jobs_spec l fuel W.heap none W.queue.jobs hI.chain
    hI.nodup hfuel
  refine ⟨heap2, ?_, hh, ?_, ?_⟩
  · simp [tq_queue_delete, hd]
  · intro a
    have hinj : Function.Injective Event.free := by
      intro x y h
      cases h
      rfl
    have hc : List.count (Event.free a) (l.map Event.free) = List.count a l :=
      List.count_map_of_injective l Event.free hinj a
    have hrest : List.count (Event.free a) ([Event.free_workers] ++ tq_mutex_free destroy_ok ++
        [Event.cond_destroy, Event.free_queue]) = 0 := by
      cases destroy_ok <;> simp [tq_mutex_free, List.count_cons]
    rw [List.append_assoc, List.append_assoc, List.count_append, hc,
      ← List.append_assoc, hrest, List.count_eq_of_nodup hI.nodup]
    simp
  · intro e he
    simp only [List.mem_append, List.mem_map] at he
    rcases he with ((⟨a, _, rfl⟩ | he) | he) | he
    · simp
    · simp at he; subst he; simp
    · cases destroy_ok <;> simp [tq_mutex_free] at he <;> rcases he with rfl | rfl <;> simp
    · simp at he
      rcases he with rfl | rfl <;> simp

theorem world_queued_inv : Inv world_queued [300, 200, 100] :=
  add_job_ok_inv (add_job_ok_inv (add_job_ok_inv (new_good 1).1 rfl) rfl) rfl

theorem delete_reclaims_witness :
    Inv world_queued [300, 200, 100] ∧
    ∃ heap2, tq_queue_delete 3 true (some world_queued.queue) world_queued.heap =
      some (heap2, [Event.free 300, Event.free 200, Event.free 100, Event.free_workers,
        Event.mutex_destroy true, Event.cond_destroy, Event.free_queue]) :=
  ⟨world_queued_inv,
   (delete_reclaims world_queued [300, 200, 100] 3 true world_queued_inv (le_refl 3)).1.elim
     (fun heap2 h => ⟨heap2, h.1⟩)⟩

/-! ## tq_queue_drain on an empty queue -/

/-- C10 (`tq_queue_drain` on an empty queue does not block).  When `nb_jobs`
is 0 in the world in which the call takes the lock, the call returns 0 after
the lock and the unlock alone, whatever the other threads would do and
whatever the unlock returns: it never calls `pthread_cond_wait`, and the
queue, the job heap and the threads are unchanged. -/
theorem drain_empty (W : World) (lock_ok wait_ok unlock_ok : Nat → Bool)
    (turns : List (List Action × List Action)) (hnb : W.queue.nb_jobs = 0)
    (hlock : lock_ok 0 = true) :
    ∃ V, tq_queue_drain lock_ok wait_ok unlock_ok turns W = some (0, V) ∧
      V.queue = W.queue ∧ V.heap = W.heap ∧ V.threads = W.threads ∧ V.cancel = W.cancel ∧
      V.trace = W.trace ++ (tq_mutex_lock true ++ tq_mutex_unlock (unlock_ok 0)) ∧
      Event.cond_wait ∉ tq_mutex_lock true ++ tq_mutex_unlock (unlock_ok 0) := by
  refine ⟨{ W with trace := W.trace ++ tq_mutex_lock true ++ tq_mutex_unlock (unlock_ok 0) },
    ?_, rfl, rfl, rfl, rfl, ?_, ?_⟩
  · exact drain_loop_empty lock_ok wait_ok unlock_ok turns 0 W hnb hlock
  · simp only [List.append_assoc]
  · cases unlock_ok 0 <;> simp [tq_mutex_lock, tq_mutex_unlock]

theorem drain_empty_witness :
    world_abc.queue.nb_jobs = 0 ∧
    ∃ V, tq_queue_drain (fun _ => true) (fun _ => true) (fun _ => true) [] world_abc =
      some (0, V) ∧ V.queue = world_abc.queue :=
  ⟨rfl,
   (drain_empty world_abc (fun _ => true) (fun _ => true) (fun _ => true) [] rfl rfl).elim
     (fun V h => ⟨V, h.1, h.2.1⟩)⟩

/-! ## Cancellation requests -/

theorem start_create_threads_below (c : Nat → Bool) :
    ∀ (n i : Nat) (W : World) (k : Nat), k < i →
      (start_create c n i W).2.threads k = W.threads k := by
  intro n
  induction n with
  | zero => intro i W k _; rfl
  | succ n ih =>
    intro i W k hk
    unfold start_create
    cases hc : c i
    · simp
    · simp only [if_true]
      rw [ih (i + 1) _ k (by omega)]
      have hki : k ≠ i := by omega
      simp [Function.update_noteq hki]

theorem start_create_some (c : Nat → Bool) :
    ∀ (n i : Nat) (W : World) (s : Nat), (start_create c n i W).1 = some s →
      ∀ j, i ≤ j → j < s → (start_create c n i W).2.threads j = WorkerPc.startup := by
  intro n
  induction n with
  | zero => intro i W s h; simp [start_create] at h
  | succ n ih =>
    intro i W s h j hij hjs
    unfold start_create at h ⊢
    cases hc : c i with
    | false =>
      simp [hc] at h
      omega
    | true =>
      simp only [hc, if_true] at h ⊢
      by_cases hji : j = i
      · subst hji
        rw [start_create_threads_below c n (j + 1) _ j (by omega)]
        simp
      · exact ih (i + 1) _ s h j (by omega) hjs

/-- A cancellation request is pending only on a thread that has not passed
`pthread_testcancel`, or that has terminated. -/
theorem cancel_pending_early {n : Int} {W : World} (h : Reachable n W) :
    ∀ i, W.cancel i = true →
      W.threads i = WorkerPc.startup ∨ W.threads i = WorkerPc.terminated := by
  induction h with
  | new => intro i hi; simp [World.new] at hi
  | @step W a hr hv ih =>
    intro i hi
    cases a with
    | add_job func arg mem lo uo =>
      obtain ⟨h1, h2, _⟩ := add_job_frame func arg mem lo uo W
      have hi2 : (tq_queue_add_job func arg mem lo uo W).2.cancel i = true := hi
      rw [h2] at hi2
      show (tq_queue_add_job func arg mem lo uo W).2.threads i = _ ∨
        (tq_queue_add_job func arg mem lo uo W).2.threads i = _
      rw [h1]
      exact ih i hi2
    | worker k lo wo uo =>
      have hi2 : (tq_worker_func k lo wo uo W).cancel i = true := hi
      obtain ⟨f1, _, _, _, _, f6, _⟩ := worker_frame k lo wo uo W
      rw [f1] at hi2
      show (tq_worker_func k lo wo uo W).threads i = _ ∨
        (tq_worker_func k lo wo uo W).threads i = _
      by_cases hik : i = k
      · subst hik
        rcases ih i hi2 with hpc | hpc
        · right
          cases lo with
          | false => rw [worker_func_cancelled_lock hpc hi2]; simp
          | true => rw [worker_func_cancelled hpc hi2]; simp
        · right
          rw [worker_func_terminated hpc]; exact hpc
      · rw [f6 i hik]
        exact ih i hi2
    | start lo c uo =>
      have hS := reachable_slots hr
      have habs : ∀ j, W.threads j = WorkerPc.absent := by
        intro j
        by_cases hj : j < W.queue.nb_workers.toNat
        · exact hv j hj
        · exact hS.none_above j (by rw [← hS.nb]; omega)
      have hnocancel : ∀ j, W.cancel j = false := by
        intro j
        cases hcj : W.cancel j with
        | false => rfl
        | true =>
          rcases ih j hcj with h | h <;> rw [habs j] at h <;> simp at h
      have hi2 : (start_section lo c uo W).2.cancel i = true := hi
      show (start_section lo c uo W).2.threads i = _ ∨ (start_section lo c uo W).2.threads i = _
      cases lo with
      | false =>
        have : (start_section false c uo W).2.cancel i = W.cancel i := rfl
        rw [this, hnocancel i] at hi2
        simp at hi2
      | true =>
        have h3 := start_create_cancel c W.queue.nb_workers.toNat 0
          { W with trace := W.trace ++ tq_mutex_lock true }
        have h5 := start_create_some c W.queue.nb_workers.toNat 0
          { W with trace := W.trace ++ tq_mutex_lock true }
        unfold start_section at hi2 ⊢
        simp only [Bool.not_true, Bool.false_eq_true, if_false] at hi2 ⊢
        cases hsc : start_create c W.queue.nb_workers.toNat 0
            { W with trace := W.trace ++ tq_mutex_lock true } with
        | mk r V =>
          rw [hsc] at hi2 h3 h5
          simp only at hi2 h3 h5 ⊢
          cases r with
          | none =>
            have hi3 : V.cancel i = true := hi2
            rw [h3] at hi3
            have := hnocancel i
            simp [this] at hi3
          | some s =>
            obtain ⟨_, _, c3, c4, _⟩ := start_cancel_spec s 0 V
            have hi3 : (start_cancel s 0 V).cancel i = true := hi2
            rw [c4 i, h3] at hi3
            have his : i < s := by
              by_contra hne
              have hno : ¬ (0 ≤ i ∧ i < 0 + s) := by omega
              rw [if_neg hno] at hi3
              have := hnocancel i
              simp [this] at hi3
            left
            show (start_cancel s 0 V).threads i = _
            rw [c3]
            exact h5 s rfl i (Nat.zero_le i) his
    | stop lo uo =>
      cases lo with
      | false => exact ih i hi
      | true => exact ih i hi
    | set_job_started_hook hook => exact ih i hi
    | set_job_done_hook hook => exact ih i hi

/-! ## Failures and their messages -/

theorem run_workers_trace :
    ∀ (sched : List WorkerStep) (W : World),
      ∃ ev, (run_workers sched W).trace = W.trace ++ ev := by
  intro sched
  induction sched with
  | nil => intro W; exact ⟨[], by simp [run_workers]⟩
  | cons s sched ih =>
    intro W
    rw [run_workers_cons]
    obtain ⟨ev2, h2⟩ := ih (tq_worker_func s.i s.lock_ok s.wait_ok s.unlock_ok W)
    obtain ⟨_, _, _, _, _, _, ev1, h1, _⟩ :=
      worker_frame s.i s.lock_ok s.wait_ok s.unlock_ok W
    exact ⟨ev1 ++ ev2, by rw [h2, h1, List.append_assoc]⟩

theorem pthread_join_trace {j : Nat} {ok : Bool} {sched : List WorkerStep} {W V : World}
    (h : pthread_join j ok sched W = some V) :
    ∃ ev, V.trace = W.trace ++ ev ++ [Event.thread_join j ok] := by
  obtain ⟨ev, hev⟩ := run_workers_trace sched W
  unfold pthread_join at h
  cases ok with
  | false =>
    simp at h
    subst h
    exact ⟨ev, by simp [hev]⟩
  | true =>
    by_cases ht : (run_workers sched W).threads j = WorkerPc.terminated
    · simp [ht] at h
      subst h
      exact ⟨ev, by simp [hev]⟩
    · simp [ht] at h

theorem start_join_trace (join_ok : Nat → Bool) (sched : Nat → List WorkerStep) :
    ∀ (n j : Nat) (V V2 : World), start_join join_ok sched n j V = some V2 →
      ∃ t, V2.trace = V.trace ++ t := by
  intro n
  induction n with
  | zero =>
    intro j V V2 h
    simp [start_join] at h
    subst h
    exact ⟨[], by simp⟩
  | succ n ih =>
    intro j V V2 h
    unfold start_join at h
    cases hp : pthread_join j (join_ok j) (sched j) V with
    | none => simp [hp] at h
    | some V1 =>
      simp only [hp] at h
      obtain ⟨ev, hev⟩ := pthread_join_trace hp
      obtain ⟨t, ht⟩ := ih (j + 1) V1 V2 h
      exact ⟨ev ++ [Event.thread_join j (join_ok j)] ++ t, by
        rw [ht, hev]; simp [List.append_assoc]⟩

theorem stop_join_trace (join_ok : Nat → Bool) (sched : Nat → List WorkerStep) :
    ∀ (n i : Nat) (ret : Int) (V : World) (r : Int) (V2 : World),
      stop_join join_ok sched n i ret V = some (r, V2) →
      ∃ t, V2.trace = V.trace ++ t := by
  intro n
  induction n with
  | zero =>
    intro i ret V r V2 h
    simp [stop_join] at h
    obtain ⟨_, rfl⟩ := h
    exact ⟨[], by simp⟩
  | succ n ih =>
    intro i ret V r V2 h
    unfold stop_join at h
    cases hp : pthread_join i (join_ok i) (sched i) V with
    | none => simp [hp] at h
    | some V1 =>
      simp only [hp] at h
      obtain ⟨ev, hev⟩ := pthread_join_trace hp
      cases hj : join_ok i with
      | true =>
        simp only [hj, if_true] at h
        obtain ⟨t, ht⟩ := ih (i + 1) ret V1 r V2 h
        exact ⟨ev ++ [Event.thread_join i (join_ok i)] ++ t, by
          rw [ht, hev]; simp [List.append_assoc]⟩
      | false =>
        simp only [hj] at h
        obtain ⟨t, ht⟩ := ih (i + 1) (-1) _ r V2 h
        exact ⟨ev ++ [Event.thread_join i (join_ok i)] ++
            [Event.set_error Msg.cannot_join_thread] ++ t, by
          rw [ht]
          show (V1.trace ++ [Event.set_error Msg.cannot_join_thread]) ++ t = _
          rw [hev]; simp [List.append_assoc]⟩

/-- A join of `tq_queue_stop` that fails is followed at once by the call of
`tq_set_error`. -/
theorem stop_join_message (join_ok : Nat → Bool) (sched : Nat → List WorkerStep) :
    ∀ (n i : Nat) (ret : Int) (V : World) (r : Int) (V2 : World),
      stop_join join_ok sched n i ret V = some (r, V2) →
      ∀ j, i ≤ j → j < i + n → join_ok j = false →
        ∃ t1 t2, V2.trace = V.trace ++ t1 ++
          [Event.thread_join j false, Event.set_error Msg.cannot_join_thread] ++ t2 := by
  intro n
  induction n with
  | zero => intro i ret V r V2 _ j h1 h2; omega
  | succ n ih =>
    intro i ret V r V2 h j h1 h2 hjf
    unfold stop_join at h
    cases hp : pthread_join i (join_ok i) (sched i) V with
    | none => simp [hp] at h
    | some V1 =>
      simp only [hp] at h
      obtain ⟨ev, hev⟩ := pthread_join_trace hp
      by_cases hij : j = i
      · subst hij
        simp only [hjf] at h
        obtain ⟨t, ht⟩ := stop_join_trace join_ok sched n (j + 1) (-1) _ r V2 h
        refine ⟨ev, t, ?_⟩
        rw [ht]
        show (V1.trace ++ [Event.set_error Msg.cannot_join_thread]) ++ t = _
        rw [hev, hjf]; simp [List.append_assoc]
      · cases hj : join_ok i with
        | true =>
          simp only [hj, if_true] at h
          obtain ⟨t1, t2, ht⟩ := ih (i + 1) ret V1 r V2 h j (by omega) (by omega) hjf
          exact ⟨ev ++ [Event.thread_join i (join_ok i)] ++ t1, t2, by
            rw [ht, hev]; simp [List.append_assoc]⟩
        | false =>
          simp only [hj] at h
          obtain ⟨t1, t2, ht⟩ := ih (i + 1) (-1) _ r V2 h j (by omega) (by omega) hjf
          exact ⟨ev ++ [Event.thread_join i (join_ok i)] ++
              [Event.set_error Msg.cannot_join_thread] ++ t1, t2, by
            rw [ht]
            show (V1.trace ++ [Event.set_error Msg.cannot_join_thread]) ++ t1 ++ _ ++ t2 = _
            rw [hev]; simp [List.append_assoc]⟩

theorem start_create_trace (c : Nat → Bool) :
    ∀ (n i : Nat) (W : World), ∃ ev, (start_create c n i W).2.trace = W.trace ++ ev := by
  intro n
  induction n with
  | zero => intro i W; exact ⟨[], by simp [start_create]⟩
  | succ n ih =>
    intro i W
    unfold start_create
    cases hc : c i with
    | true =>
      simp only [if_true]
      obtain ⟨ev, hev⟩ := ih (i + 1)
        { W with threads := Function.update W.threads i WorkerPc.startup,
                 trace := W.trace ++ [Event.thread_create i true] }
      exact ⟨[Event.thread_create i true] ++ ev, by rw [hev, List.append_assoc]⟩
    | false =>
      exact ⟨[Event.thread_create i false, Event.set_error Msg.cannot_create_thread], rfl⟩

theorem start_section_trace (lo : Bool) (c : Nat → Bool) (uo : Bool) (W : World) :
    ∃ ev, (start_section lo c uo W).2.trace = W.trace ++ ev := by
  cases lo with
  | false => exact ⟨tq_mutex_lock false, rfl⟩
  | true =>
    obtain ⟨ev, hev⟩ := start_create_trace c W.queue.nb_workers.toNat 0
      { W with trace := W.trace ++ tq_mutex_lock true }
    unfold start_section
    simp only [Bool.not_true, Bool.false_eq_true, if_false]
    cases hsc : start_create c W.queue.nb_workers.toNat 0
        { W with trace := W.trace ++ tq_mutex_lock true } with
    | mk o W1 =>
      rw [hsc] at hev
      simp only at hev
      cases o with
      | none =>
        exact ⟨tq_mutex_lock true ++ ev ++ tq_mutex_unlock uo, by
          show W1.trace ++ _ = _
          rw [hev]; simp [List.append_assoc]⟩
      | some k =>
        obtain ⟨_, _, _, _, h5⟩ := start_cancel_spec k 0 W1
        exact ⟨tq_mutex_lock true ++ ev ++
            (List.range' 0 k).map (fun j => Event.thread_cancel j) ++ tq_mutex_unlock uo, by
          show (start_cancel k 0 W1).trace ++ _ = _
          rw [h5, hev]; simp [List.append_assoc]⟩

/-- Every action appends its calls to the trace. -/
theorem step_trace (W : World) (a : Action) : ∃ ev, (step W a).trace = W.trace ++ ev := by
  cases a with
  | add_job func arg mem lo uo =>
    cases mem with
    | none => exact ⟨_, rfl⟩
    | some job =>
      cases lo with
      | false => exact ⟨[Event.malloc (some job)] ++ tq_mutex_lock false ++ [Event.free job],
          by simp [step, tq_queue_add_job, List.append_assoc]⟩
      | true =>
        exact ⟨[Event.malloc (some job)] ++ tq_mutex_lock true ++ [Event.enqueue func arg] ++
            (if int_wrap (W.queue.nb_jobs + 1) = 1 then [Event.cond_broadcast] else []) ++
            tq_mutex_unlock uo, by
          simp only [step, tq_queue_add_job, Bool.not_true, Bool.false_eq_true, if_false,
            List.append_assoc]⟩
  | worker i lo wo uo =>
    obtain ⟨_, _, _, _, _, _, ev, h, _⟩ := worker_frame i lo wo uo W
    exact ⟨ev, h⟩
  | start lo c uo => exact start_section_trace lo c uo W
  | stop lo uo =>
    cases lo with
    | false => exact ⟨tq_mutex_lock false, rfl⟩
    | true => exact ⟨tq_mutex_lock true ++ tq_mutex_unlock uo ++ [Event.cond_broadcast], by
        simp [step, stop_section, List.append_assoc]⟩
  | set_job_started_hook hook => exact ⟨[], by simp [step, tq_queue_set_job_started_hook]⟩
  | set_job_done_hook hook => exact ⟨[], by simp [step, tq_queue_set_job_done_hook]⟩

theorem run_env_trace :
    ∀ (acts : List Action) (W V : World), run_env W acts = some V →
      ∃ ev, V.trace = W.trace ++ ev := by
  intro acts
  induction acts with
  | nil =>
    intro W V h
    simp [run_env] at h
    subst h
    exact ⟨[], by simp⟩
  | cons a acts ih =>
    intro W V h
    unfold run_env at h
    by_cases hv : a.valid W
    · rw [if_pos hv] at h
      obtain ⟨ev2, h2⟩ := ih _ V h
      obtain ⟨ev1, h1⟩ := step_trace W a
      exact ⟨ev1 ++ ev2, by rw [h2, h1, List.append_assoc]⟩
    · rw [if_neg hv] at h
      simp at h

/-- An iteration of `tq_queue_drain` whose lock fails ends the call. -/
theorem drain_loop_lock_fail (lo wo uo : Nat → Bool)
    (turns : List (List Action × List Action)) (k : Nat) (W : World)
    (hlock : lo k = false) :
    drain_loop lo wo uo turns k W =
      some (-1, { W with trace := W.trace ++ tq_mutex_lock false }) := by
  unfold drain_loop
  simp [hlock]

/-- An iteration of `tq_queue_drain` whose wait fails ends the call. -/
theorem drain_loop_wait_fail (lo wo uo : Nat → Bool) (during_wait after_unlock : List Action)
    (rest : List (List Action × List Action)) (k : Nat) (W W2 : World)
    (hlock : lo k = true) (hnb : W.queue.nb_jobs ≠ 0)
    (henv : run_env { W with trace := W.trace ++ tq_mutex_lock true ++ [Event.cond_wait] }
      during_wait = some W2)
    (hwait : wo k = false) :
    drain_loop lo wo uo ((during_wait, after_unlock) :: rest) k W =
      some (-1, { W2 with trace := W2.trace ++
                    [Event.set_error Msg.cannot_wait_for_condition] ++
                    tq_mutex_unlock (uo k) }) := by
  unfold drain_loop
  simp only [hlock, Bool.not_true, Bool.false_eq_true, if_false, hnb, henv, hwait,
    Bool.not_false, if_true]

/-- The result of `tq_queue_drain` from any iteration on: 0 or -1, and -1 only
when the last calls of the caller are a failed lock, or a failed wait, each
with its `tq_set_error`. -/
theorem drain_loop_result (lo wo uo : Nat → Bool) :
    ∀ (turns : List (List Action × List Action)) (k : Nat) (W : World) (r : Int) (V : World),
      drain_loop lo wo uo turns k W = some (r, V) →
      (r = 0 ∨ r = -1) ∧ (r = 0 → V.queue.nb_jobs = 0) ∧
      (r = -1 →
        (∃ t, V.trace = W.trace ++ t ++ tq_mutex_lock false) ∨
        (∃ t u, V.trace = W.trace ++ t ++
          [Event.set_error Msg.cannot_wait_for_condition] ++ tq_mutex_unlock u)) := by
  intro turns
  induction turns with
  | nil =>
    intro k W r V h
    unfold drain_loop at h
    cases hl : lo k with
    | false =>
      simp [hl] at h
      obtain ⟨rfl, rfl⟩ := h
      exact ⟨Or.inr rfl, fun e => absurd e (by decide), fun _ => Or.inl ⟨[], by simp⟩⟩
    | true =>
      by_cases hnb : W.queue.nb_jobs = 0
      · simp [hl, hnb] at h
        obtain ⟨rfl, rfl⟩ := h
        exact ⟨Or.inl rfl, fun _ => hnb, fun e => absurd e (by decide)⟩
      · cases hw : wo k with
        | true => simp [hl, hnb, hw] at h
        | false =>
          simp [hl, hnb, hw] at h
          obtain ⟨rfl, rfl⟩ := h
          exact ⟨Or.inr rfl, fun e => absurd e (by decide), fun _ =>
            Or.inr ⟨tq_mutex_lock true ++ [Event.cond_wait], uo k, by
              simp [List.append_assoc]⟩⟩
  | cons t rest ih =>
    intro k W r V h
    obtain ⟨during_wait, after_unlock⟩ := t
    unfold drain_loop at h
    cases hl : lo k with
    | false =>
      simp [hl] at h
      obtain ⟨rfl, rfl⟩ := h
      exact ⟨Or.inr rfl, fun e => absurd e (by decide), fun _ => Or.inl ⟨[], by simp⟩⟩
    | true =>
      by_cases hnb : W.queue.nb_jobs = 0
      · simp [hl, hnb] at h
        obtain ⟨rfl, rfl⟩ := h
        exact ⟨Or.inl rfl, fun _ => hnb, fun e => absurd e (by decide)⟩
      · simp only [hl, Bool.not_true, Bool.false_eq_true, if_false, hnb] at h
        cases henv : run_env
            { W with trace := W.trace ++ tq_mutex_lock true ++ [Event.cond_wait] }
            during_wait with
        | none => rw [henv] at h; simp at h
        | some W2 =>
          rw [henv] at h
          simp only at h
          obtain ⟨ev, hev⟩ := run_env_trace _ _ _ henv
          have hev2 : W2.trace = W.trace ++ (tq_mutex_lock true ++ [Event.cond_wait] ++ ev) := by
            rw [hev]; simp [List.append_assoc]
          cases hw : wo k with
          | false =>
            simp [hw] at h
            obtain ⟨rfl, rfl⟩ := h
            exact ⟨Or.inr rfl, fun e => absurd e (by decide), fun _ =>
              Or.inr ⟨tq_mutex_lock true ++ [Event.cond_wait] ++ ev, uo k, by
                show W2.trace ++ (Event.set_error Msg.cannot_wait_for_condition ::
                  tq_mutex_unlock (uo k)) = _
                rw [hev2]; simp [List.append_assoc]⟩⟩
          | true =>
            simp only [hw, Bool.not_true, Bool.false_eq_true, if_false] at h
            by_cases hnb2 : W2.queue.nb_jobs = 0
            · simp [hnb2] at h
              obtain ⟨rfl, rfl⟩ := h
              exact ⟨Or.inl rfl, fun _ => hnb2, fun e => absurd e (by decide)⟩
            · simp only [hnb2, if_false] at h
              cases henv3 : run_env
                  { W2 with trace := W2.trace ++ tq_mutex_unlock (uo k) } after_unlock with
              | none => rw [henv3] at h; simp at h
              | some W3 =>
                rw [henv3] at h
                simp only at h
                obtain ⟨ev3, hev3⟩ := run_env_trace _ _ _ henv3
                have hev4 : W3.trace = W.trace ++ (tq_mutex_lock true ++ [Event.cond_wait] ++
                    ev ++ tq_mutex_unlock (uo k) ++ ev3) := by
                  rw [hev3]
                  show W2.trace ++ _ ++ _ = _
                  rw [hev2]; simp [List.append_assoc]
                obtain ⟨r1, r2, r3⟩ := ih (k + 1) W3 r V h
                refine ⟨r1, r2, fun hr => ?_⟩
                rcases r3 hr with ⟨t, ht⟩ | ⟨t, u, ht⟩
                · exact Or.inl ⟨tq_mutex_lock true ++ [Event.cond_wait] ++ ev ++
                    tq_mutex_unlock (uo k) ++ ev3 ++ t, by
                    rw [ht, hev4]; simp only [List.append_assoc]⟩
                · exact Or.inr ⟨tq_mutex_lock true ++ [Event.cond_wait] ++ ev ++
                    tq_mutex_unlock (uo k) ++ ev3 ++ t, u, by
                    rw [ht, hev4]; simp only [List.append_assoc]⟩

theorem tq_queue_start_fail_eq (c : Nat → Bool) (uo : Bool) (join_ok : Nat → Bool)
    (sched : Nat → List WorkerStep) (W : World) (k : Nat)
    (hk : k < W.queue.nb_workers.toNat) (hfail : c k = false)
    (hok : ∀ j, j < k → c j = true) :
    tq_queue_start true c uo join_ok sched W =
      (start_join join_ok sched k 0 (start_section true c uo W).2).map
        (fun W2 => ((-1 : Int), W2)) := by
  have s1 := (start_section_fail c uo W k hk hfail hok).1
  unfold tq_queue_start
  cases hsec : start_section true c uo W with
  | mk o V0 =>
    rw [hsec] at s1
    simp only at s1
    subst s1
    rfl

/-- The join loop of the failure path of `tq_queue_start` ends as soon as
every thread whose join does not fail is given a transition. -/
theorem start_join_returns {k : Nat} {W0 : World} (join_ok : Nat → Bool)
    (sched : Nat → List WorkerStep) :
    ∀ (n j : Nat) (V : World), j + n ≤ k → Aborted k W0 V →
      (∀ i, j ≤ i → i < j + n → join_ok i = true → ∃ s ∈ sched i, s.i = i) →
      ∃ V2, start_join join_ok sched n j V = some V2 := by
  intro n
  induction n with
  | zero => intro j V _ _ _; exact ⟨V, rfl⟩
  | succ n ih =>
    intro j V hjn hA hs
    have hjk : j < k := by omega
    have hA1 := aborted_run_workers (sched j) hA
    unfold start_join
    cases hj : join_ok j with
    | false =>
      have hp : pthread_join j false (sched j) V =
          some { run_workers (sched j) V with
                   trace := (run_workers (sched j) V).trace ++ [Event.thread_join j false] } := by
        simp [pthread_join]
      rw [hp]
      simp only
      exact ih (j + 1) _ (by omega) (aborted_join_event j false hA1)
        (fun i hi1 hi2 => hs i (by omega) (by omega))
    | true =>
      have ht : (run_workers (sched j) V).threads j = WorkerPc.terminated :=
        aborted_terminates hjk (sched j) hA (hs j (le_refl j) (by omega) hj)
      have hp : pthread_join j true (sched j) V =
          some { run_workers (sched j) V with
                   trace := (run_workers (sched j) V).trace ++ [Event.thread_join j true] } := by
        simp [pthread_join, ht]
      rw [hp]
      simp only
      exact ih (j + 1) _ (by omega) (aborted_join_event j true hA1)
        (fun i hi1 hi2 => hs i (by omega) (by omega))

/-- `tq_queue_start` when `pthread_create` fails at slot `k`: the call returns
-1 whatever the joins return, after the call of `tq_set_error`, and it does
return once every thread whose join succeeds is given a transition. -/
theorem start_create_failure (c : Nat → Bool) (uo : Bool) (join_ok : Nat → Bool)
    (sched : Nat → List WorkerStep) (W : World) (k : Nat)
    (hk : k < W.queue.nb_workers.toNat) (hfail : c k = false)
    (hok : ∀ j, j < k → c j = true) :
    (∀ r V, tq_queue_start true c uo join_ok sched W = some (r, V) →
      r = -1 ∧ ∃ t1 t2, V.trace = W.trace ++ t1 ++
        [Event.thread_create k false, Event.set_error Msg.cannot_create_thread] ++ t2) ∧
    ((∀ i, W.threads i = WorkerPc.absent) →
      (∀ j, j < k → join_ok j = true → ∃ s ∈ sched j, s.i = j) →
      ∃ V, tq_queue_start true c uo join_ok sched W = some (-1, V)) := by
  obtain ⟨_, _, _, s4, s5, s6⟩ := start_section_fail c uo W k hk hfail hok
  have hstart := tq_queue_start_fail_eq c uo join_ok sched W k hk hfail hok
  constructor
  · intro r V h
    rw [hstart] at h
    cases hsj : start_join join_ok sched k 0 (start_section true c uo W).2 with
    | none => rw [hsj] at h; simp at h
    | some V2 =>
      rw [hsj] at h
      simp at h
      obtain ⟨rfl, rfl⟩ := h
      obtain ⟨t, ht⟩ := start_join_trace join_ok sched k 0 _ V2 hsj
      refine ⟨rfl, tq_mutex_lock true ++
          (List.range' 0 k).map (fun j => Event.thread_create j true),
        (List.range' 0 k).map (fun j => Event.thread_cancel j) ++ tq_mutex_unlock uo ++ t, ?_⟩
      rw [ht, s6]
      simp only [List.append_assoc]
  · intro habs hs
    have hA : Aborted k (start_section true c uo W).2 (start_section true c uo W).2 := by
      refine ⟨rfl, rfl, ?_, ?_, quiet_refl _, rfl, rfl⟩
      · intro j hj
        rw [s5 j, s4 j]
        simp [hj]
      · intro j hj
        rw [s4 j]
        have : ¬ j < k := by omega
        simp [this, habs j]
    obtain ⟨V2, hV2⟩ := start_join_returns join_ok sched k 0 _ (by omega) hA
      (fun i _ hi hj => hs i (by omega) hj)
    exact ⟨V2, by rw [hstart, hV2]; rfl⟩

/-- `tq_queue_start` when every thread is created: the call returns 0
whatever its unlock returns. -/
theorem start_ignores_unlock (c : Nat → Bool) (uo : Bool) (join_ok : Nat → Bool)
    (sched : Nat → List WorkerStep) (W : World)
    (hok : ∀ j, j < W.queue.nb_workers.toNat → c j = true) :
    tq_queue_start true c uo join_ok sched W = some (0, (start_section true c uo W).2) ∧
    ∃ ev, (start_section true c uo W).2.trace = W.trace ++ ev ++ tq_mutex_unlock uo := by
  obtain ⟨s1, _, _, _, _, s6⟩ := start_section_ok c uo W hok
  refine ⟨?_, tq_mutex_lock true ++
    (List.range' 0 W.queue.nb_workers.toNat).map (fun j => Event.thread_create j true), by
    rw [s6]; simp only [List.append_assoc]⟩
  unfold tq_queue_start
  cases hsec : start_section true c uo W with
  | mk o V0 =>
    rw [hsec] at s1
    simp only at s1
    subst s1
    rfl

/-- `tq_queue_stop` returns on a reachable world once every thread whose join
succeeds exists and is given four transitions. -/
theorem tq_queue_stop_returns (uo : Bool) (join_ok : Nat → Bool)
    (sched : Nat → List WorkerStep) (W : World) (n : Int) (hr : Reachable n W)
    (hs : ∀ j, j < n.toNat → join_ok j = true →
      W.threads j ≠ WorkerPc.absent ∧ 4 ≤ steps_of j (sched j)) :
    ∃ r V, tq_queue_stop true uo join_ok sched W = some (r, V) := by
  obtain ⟨_, _, s3, _, _, _, _, _, _, _, s11, _⟩ := stop_section_spec uo W
  have hG := good_of_reachable hr
  have hG1 : Good n (stop_section true uo W).2 :=
    good_step (Action.stop true uo) hG trivial
  obtain ⟨l, hI1, _⟩ := hG1.2
  have hnb : W.queue.nb_workers = n := hG.1.nb
  have hS : Stopping n l (stop_section true uo W).2 (stop_section true uo W).2 :=
    stopping_refl hG1 hI1 (by
      intro j hj
      rw [s11 j, hnb]
      simp [hj])
  rw [tq_queue_stop_eq]
  apply (stop_join_keeps join_ok sched _ 0 0 _ hS).2
  intro j _ hj hjo
  rw [hnb] at hj
  obtain ⟨h1, h2⟩ := hs j (by omega) hjo
  exact ⟨by omega, by rw [s3]; exact h1, h2⟩

/-- `tq_queue_stop` when the join of slot `i` fails: the call returns -1,
after the call of `tq_set_error` that follows the join. -/
theorem stop_join_failure (uo : Bool) (join_ok : Nat → Bool)
    (sched : Nat → List WorkerStep) (W : World) (i : Nat)
    (hi : i < W.queue.nb_workers.toNat) (hfail : join_ok i = false) :
    (∀ r V, tq_queue_stop true uo join_ok sched W = some (r, V) →
      r = -1 ∧ ∃ t1 t2, V.trace = W.trace ++ t1 ++
        [Event.thread_join i false, Event.set_error Msg.cannot_join_thread] ++ t2) ∧
    (∀ n, Reachable n W →
      (∀ j, j < n.toNat → join_ok j = true →
        W.threads j ≠ WorkerPc.absent ∧ 4 ≤ steps_of j (sched j)) →
      ∃ V, tq_queue_stop true uo join_ok sched W = some (-1, V)) := by
  have s12 := (stop_section_spec uo W).2.2.2.2.2.2.2.2.2.2.2
  have hres : ∀ r V, tq_queue_stop true uo join_ok sched W = some (r, V) → r = -1 := by
    intro r V h
    rw [tq_queue_stop_eq] at h
    obtain ⟨_, _, r3, _⟩ := stop_join_result join_ok sched _ 0 0 _ r V h
    exact r3.2 (Or.inr ⟨i, Nat.zero_le i, by omega, hfail⟩)
  constructor
  · intro r V h
    refine ⟨hres r V h, ?_⟩
    rw [tq_queue_stop_eq] at h
    obtain ⟨t1, t2, ht⟩ := stop_join_message join_ok sched _ 0 0 _ r V h i (Nat.zero_le i)
      (by omega) hfail
    exact ⟨tq_mutex_lock true ++ tq_mutex_unlock uo ++ [Event.cond_broadcast] ++ t1, t2, by
      rw [ht, s12]; simp only [List.append_assoc]⟩
  · intro n hr hs
    obtain ⟨r, V, h⟩ := tq_queue_stop_returns uo join_ok sched W n hr hs
    have := hres r V h
    subst this
    exact ⟨V, h⟩

/-- The result of `tq_queue_stop` follows the joins only: the result of the
unlock has no part in it. -/
theorem stop_ignores_unlock (uo : Bool) (join_ok : Nat → Bool)
    (sched : Nat → List WorkerStep) (W : World) (r : Int) (V : World)
    (h : tq_queue_stop true uo join_ok sched W = some (r, V)) :
    (r = -1 ↔ ∃ i, i < W.queue.nb_workers.toNat ∧ join_ok i = false) ∧ (r = 0 ∨ r = -1) := by
  obtain ⟨_, _, _, _, _, _, _, s8, _⟩ := stop_section_spec uo W
  rw [tq_queue_stop_eq] at h
  obtain ⟨_, _, r3, r4⟩ := stop_join_result join_ok sched _ 0 0 _ r V h
  refine ⟨?_, r4⟩
  rw [r3]
  constructor
  · rintro (h | ⟨j, _, h2, h3⟩)
    · exact absurd h (by decide)
    · exact ⟨j, by omega, h3⟩
  · rintro ⟨j, h2, h3⟩
    exact Or.inr ⟨j, Nat.zero_le j, by omega, h3⟩

/-- What `tq_queue_stop` appends to the trace starts with the calls of its
section. -/
theorem tq_queue_stop_trace (uo : Bool) (join_ok : Nat → Bool)
    (sched : Nat → List WorkerStep) (W : World) (r : Int) (V : World)
    (h : tq_queue_stop true uo join_ok sched W = some (r, V)) :
    ∃ t, V.trace = W.trace ++ tq_mutex_lock true ++ tq_mutex_unlock uo ++
      [Event.cond_broadcast] ++ t := by
  have s12 := (stop_section_spec uo W).2.2.2.2.2.2.2.2.2.2.2
  rw [tq_queue_stop_eq] at h
  obtain ⟨t, ht⟩ := stop_join_trace join_ok sched _ 0 0 _ r V h
  exact ⟨t, by rw [ht, s12]⟩

/-- The failures of `tq_queue_new`: the result is `NULL`, and the failure of an
allocation or of the creation of the mutex comes with a call of
`tq_set_error`. -/
theorem new_failure (n : Int) (queue_ok workers_ok mutex_ok cond_ok destroy_ok : Bool)
    (hfail : queue_ok = false ∨ workers_ok = false ∨ mutex_ok = false ∨ cond_ok = false) :
    (tq_queue_new n queue_ok workers_ok mutex_ok cond_ok destroy_ok).1 = none ∧
    (queue_ok = false → Event.set_error Msg.cannot_allocate_task_queue ∈
      (tq_queue_new n queue_ok workers_ok mutex_ok cond_ok destroy_ok).2) ∧
    (queue_ok = true → workers_ok = false → Event.set_error Msg.cannot_allocate_workers ∈
      (tq_queue_new n queue_ok workers_ok mutex_ok cond_ok destroy_ok).2) ∧
    (queue_ok = true → workers_ok = true → mutex_ok = false →
      Event.set_error Msg.cannot_create_mutex ∈
        (tq_queue_new n queue_ok workers_ok mutex_ok cond_ok destroy_ok).2) := by
  cases queue_ok <;> cases workers_ok <;> cases mutex_ok <;> cases cond_ok <;>
    simp [tq_queue_new, tq_mutex_init] at hfail ⊢

/-- When `pthread_cond_init` fails, `tq_queue_new` returns `NULL` and, the
mutex being destroyed with success, makes no call of `tq_set_error`. -/
theorem new_cond_failure_silent (n : Int) :
    (tq_queue_new n true true true false true).1 = none ∧
    Event.cond_init false ∈ (tq_queue_new n true true true false true).2 ∧
    ∀ m, Event.set_error m ∉ (tq_queue_new n true true true false true).2 := by
  refine ⟨rfl, by simp [tq_queue_new], ?_⟩
  intro m
  simp [tq_queue_new, tq_mutex_init, tq_mutex_free]

/-- The failures of `tq_queue_add_job`: -1 and a call of `tq_set_error`. -/
theorem add_job_failure_message (func arg : Nat) (mem : Option Nat) (lock_ok unlock_ok : Bool)
    (W : World) (hfail : mem = none ∨ lock_ok = false) :
    (tq_queue_add_job func arg mem lock_ok unlock_ok W).1 = -1 ∧
    ∃ ev, (tq_queue_add_job func arg mem lock_ok unlock_ok W).2.trace = W.trace ++ ev ∧
      (mem = none → Event.set_error Msg.cannot_allocate_job ∈ ev) ∧
      (mem ≠ none → Event.set_error Msg.cannot_lock_mutex ∈ ev) := by
  cases mem with
  | none =>
    exact ⟨rfl, [Event.malloc none, Event.set_error Msg.cannot_allocate_job], rfl,
      fun _ => by simp, fun h => absurd rfl h⟩
  | some job =>
    rcases hfail with h | h
    · exact absurd h (by simp)
    · subst h
      refine ⟨rfl, [Event.malloc (some job)] ++ tq_mutex_lock false ++ [Event.free job], ?_,
        fun h => absurd h (by simp), fun _ => by simp [tq_mutex_lock]⟩
      simp [tq_queue_add_job, List.append_assoc]

/-- A call of `tq_queue_add_job` that links its job returns 0 whatever its
unlock returns; a failed unlock leaves its call of `tq_set_error`. -/
theorem add_job_ignores_unlock (func arg job : Nat) (unlock_ok : Bool) (W : World) :
    (tq_queue_add_job func arg (some job) true unlock_ok W).1 = 0 ∧
    ∃ ev, (tq_queue_add_job func arg (some job) true unlock_ok W).2.trace =
        W.trace ++ ev ++ tq_mutex_unlock unlock_ok ∧
      Event.set_error Msg.cannot_unlock_mutex ∈ tq_mutex_unlock false := by
  refine ⟨rfl, [Event.malloc (some job)] ++ tq_mutex_lock true ++ [Event.enqueue func arg] ++
    (if int_wrap (W.queue.nb_jobs + 1) = 1 then [Event.cond_broadcast] else []), ?_, by
    simp [tq_mutex_unlock]⟩
  simp only [tq_queue_add_job, Bool.not_true, Bool.false_eq_true, if_false, List.append_assoc]

/-- C11, counterexample (a failing unlock is not surfaced by the result).
With `tq_mutex_unlock` failing and every other call succeeding,
`tq_queue_add_job` on a new queue, `tq_queue_start` on a new pool of two
workers, `tq_queue_stop` on that pool once started, and `tq_queue_drain` on
an empty queue all perform the failing unlock and return 0, not -1. -/
theorem unlock_failure_not_surfaced :
    ((tq_queue_add_job 1 10 (some 100) true false (World.new 1)).1 = 0 ∧
      Event.mutex_unlock false ∈
        (tq_queue_add_job 1 10 (some 100) true false (World.new 1)).2.trace) ∧
    (∃ V, tq_queue_start true (fun _ => true) false (fun _ => true) (fun _ => [])
        (World.new 2) = some (0, V) ∧ Event.mutex_unlock false ∈ V.trace) ∧
    (∃ V, tq_queue_stop true false (fun _ => true) four_steps world_started = some (0, V) ∧
      Event.mutex_unlock false ∈ V.trace) ∧
    (∃ V, tq_queue_drain (fun _ => true) (fun _ => true) (fun _ => false) [] (World.new 1) =
        some (0, V) ∧ Event.mutex_unlock false ∈ V.trace) := by
  refine ⟨⟨rfl, ?_⟩, ?_, ?_, ?_⟩
  · obtain ⟨_, ev, h, _⟩ := add_job_ignores_unlock 1 10 100 false (World.new 1)
    rw [h]
    simp [tq_mutex_unlock]
  · obtain ⟨h1, ev, h2⟩ := start_ignores_unlock (fun _ => true) false (fun _ => true)
      (fun _ => []) (World.new 2) (fun _ _ => rfl)
    exact ⟨_, h1, by rw [h2]; simp [tq_mutex_unlock]⟩
  · obtain ⟨r, V, h⟩ := tq_queue_stop_returns false (fun _ => true) four_steps world_started 2
      world_started_reachable (fun j hj _ => by
        have hj2 : j < 2 := hj
        interval_cases j
        · exact ⟨by decide, by decide⟩
        · exact ⟨by decide, by decide⟩)
    obtain ⟨h1, h2⟩ := stop_ignores_unlock false (fun _ => true) four_steps world_started r V h
    have hr : r = 0 := by
      rcases h2 with h2 | h2
      · exact h2
      · obtain ⟨i, _, hi⟩ := h1.1 h2
        simp at hi
    subst hr
    obtain ⟨t, ht⟩ := tq_queue_stop_trace false (fun _ => true) four_steps world_started 0 V h
    exact ⟨V, h, by rw [ht]; simp [tq_mutex_unlock]⟩
  · refine ⟨_, drain_loop_empty _ _ _ [] 0 (World.new 1) rfl rfl, ?_⟩
    simp [tq_mutex_unlock]

/-- When `tq_trace_mutex` can be taken, `tq_mutex_lock` and `tq_mutex_unlock`
return, with -1 exactly on failure, and make the calls listed by
`tq_mutex_lock ok` and `tq_mutex_unlock ok`. -/
theorem mutex_calls_return (ok : Bool) (W : World)
    (h : ok = true ∨ W.trace_abandoned = false) :
    tq_mutex_lock_call ok W =
      some (if ok then 0 else -1, { W with trace := W.trace ++ tq_mutex_lock ok }) ∧
    tq_mutex_unlock_call ok W =
      some (if ok then 0 else -1, { W with trace := W.trace ++ tq_mutex_unlock ok }) := by
  cases ok with
  | true => exact ⟨rfl, rfl⟩
  | false =>
    have hab : W.trace_abandoned = false := by
      rcases h with h | h
      · exact absurd h (by decide)
      · exact h
    constructor
    · simp [tq_mutex_lock_call, tq_trace, hab, tq_mutex_lock]
    · simp [tq_mutex_unlock_call, tq_trace, hab, tq_mutex_unlock]

/-- The hazard of the build that prints traces: after a start that failed at
the second `pthread_create`, the first thread, its first lock failing, is
cancelled inside `tq_trace`; `tq_trace_mutex` stays locked and a later call of
`tq_trace` does not return. -/
theorem trace_mutex_abandoned :
    Reachable 2 world_abandoned ∧ world_abandoned.trace_abandoned = true ∧
    tq_trace Msg.cannot_lock_mutex world_abandoned = none ∧
    tq_mutex_lock_call false world_abandoned = none ∧
    tq_mutex_unlock_call false world_abandoned = none ∧
    tq_trace Msg.cannot_lock_mutex (World.new 2) ≠ none :=
  ⟨reachable_run_env
      [Action.start true (fun i => decide (i = 0)) true, Action.worker 0 false true true]
      Reachable.new rfl,
   by decide,
   by
    have h : world_abandoned.trace_abandoned = true := by decide
    simp [tq_trace, h],
   by
    have h : world_abandoned.trace_abandoned = true := by decide
    simp [tq_mutex_lock_call, tq_trace, h],
   by
    have h : world_abandoned.trace_abandoned = true := by decide
    simp [tq_mutex_unlock_call, tq_trace, h],
   by simp [tq_trace, World.new]⟩

/-- C11 (failures are surfaced), as the code has it.  The statement is about
calls whose calls of `tq_trace` return: a failing lock or unlock calls
`tq_trace` before `tq_set_error`, so that the world of the call has
`trace_abandoned` false, and the worker threads that run while the caller is
in a join have every platform call succeed (they do not call `tq_trace`).
In such a world `tq_mutex_lock` and `tq_mutex_unlock` return, with -1 and
after `tq_set_error` when they fail.
For `tq_queue_new`, `tq_queue_add_job`, `tq_queue_start`, `tq_queue_stop` and
`tq_queue_drain`: when an allocation, the creation of the mutex, a lock, a
condition wait, a thread creation or a join of `tq_queue_stop` fails, the call
returns its failure result (`NULL` for new, -1 otherwise) and has called
`tq_set_error` with the message of that failure during the call;
`tq_queue_new` returns `NULL` when the creation of the condition variable
fails; the failure path of `tq_queue_start` returns -1 whatever its joins
return.  The result of an unlock is not looked at: a failing unlock calls
`tq_set_error`, but a call of `tq_queue_add_job` that links its job and a call
of `tq_queue_start` that creates every thread return 0, the result of
`tq_queue_stop` is -1 exactly when a join failed, and `tq_queue_drain` returns
-1 only after a failed lock or a failed wait. -/
theorem failure_surfaced :
    (∀ (ok : Bool) (W : World), (ok = true ∨ W.trace_abandoned = false) →
      tq_mutex_lock_call ok W =
        some (if ok then 0 else -1, { W with trace := W.trace ++ tq_mutex_lock ok }) ∧
      tq_mutex_unlock_call ok W =
        some (if ok then 0 else -1, { W with trace := W.trace ++ tq_mutex_unlock ok }) ∧
      Event.set_error Msg.cannot_lock_mutex ∈ tq_mutex_lock false ∧
      Event.set_error Msg.cannot_unlock_mutex ∈ tq_mutex_unlock false) ∧
    (∀ (n : Int) (queue_ok workers_ok mutex_ok cond_ok destroy_ok : Bool),
      (queue_ok = false ∨ workers_ok = false ∨ mutex_ok = false ∨ cond_ok = false) →
      (tq_queue_new n queue_ok workers_ok mutex_ok cond_ok destroy_ok).1 = none ∧
      (queue_ok = false → Event.set_error Msg.cannot_allocate_task_queue ∈
        (tq_queue_new n queue_ok workers_ok mutex_ok cond_ok destroy_ok).2) ∧
      (queue_ok = true → workers_ok = false → Event.set_error Msg.cannot_allocate_workers ∈
        (tq_queue_new n queue_ok workers_ok mutex_ok cond_ok destroy_ok).2) ∧
      (queue_ok = true → workers_ok = true → mutex_ok = false →
        Event.set_error Msg.cannot_create_mutex ∈
          (tq_queue_new n queue_ok workers_ok mutex_ok cond_ok destroy_ok).2)) ∧
    (∀ (func arg : Nat) (mem : Option Nat) (lock_ok unlock_ok : Bool) (W : World),
      (mem = none ∨ lock_ok = false) →
      (mem = none ∨ W.trace_abandoned = false) →
      (tq_queue_add_job func arg mem lock_ok unlock_ok W).1 = -1 ∧
      ∃ ev, (tq_queue_add_job func arg mem lock_ok unlock_ok W).2.trace = W.trace ++ ev ∧
        (mem = none → Event.set_error Msg.cannot_allocate_job ∈ ev) ∧
        (mem ≠ none → Event.set_error Msg.cannot_lock_mutex ∈ ev)) ∧
    (∀ (func arg job : Nat) (unlock_ok : Bool) (W : World),
      (unlock_ok = true ∨ W.trace_abandoned = false) →
      (tq_queue_add_job func arg (some job) true unlock_ok W).1 = 0 ∧
      ∃ ev, (tq_queue_add_job func arg (some job) true unlock_ok W).2.trace =
          W.trace ++ ev ++ tq_mutex_unlock unlock_ok ∧
        Event.set_error Msg.cannot_unlock_mutex ∈ tq_mutex_unlock false) ∧
    (∀ (c : Nat → Bool) (unlock_ok : Bool) (join_ok : Nat → Bool)
        (sched : Nat → List WorkerStep) (W : World),
      W.trace_abandoned = false →
      tq_queue_start false c unlock_ok join_ok sched W =
        some (-1, { W with trace := W.trace ++ tq_mutex_lock false }) ∧
      tq_queue_stop false unlock_ok join_ok sched W =
        some (-1, { W with trace := W.trace ++ tq_mutex_lock false }) ∧
      Event.set_error Msg.cannot_lock_mutex ∈ tq_mutex_lock false) ∧
    (∀ (c : Nat → Bool) (unlock_ok : Bool) (join_ok : Nat → Bool)
        (sched : Nat → List WorkerStep) (W : World) (k : Nat),
      k < W.queue.nb_workers.toNat → c k = false → (∀ j, j < k → c j = true) →
      (∀ r V, tq_queue_start true c unlock_ok join_ok sched W = some (r, V) →
        r = -1 ∧ ∃ t1 t2, V.trace = W.trace ++ t1 ++
          [Event.thread_create k false, Event.set_error Msg.cannot_create_thread] ++ t2) ∧
      (W.trace_abandoned = false → (∀ j, ∀ s ∈ sched j, s.all_ok = true) →
        (∀ i, W.threads i = WorkerPc.absent) →
        (∀ j, j < k → join_ok j = true → ∃ s ∈ sched j, s.i = j) →
        ∃ V, tq_queue_start true c unlock_ok join_ok sched W = some (-1, V))) ∧
    (∀ (c : Nat → Bool) (unlock_ok : Bool) (join_ok : Nat → Bool)
        (sched : Nat → List WorkerStep) (W : World),
      (unlock_ok = true ∨ W.trace_abandoned = false) →
      (∀ j, j < W.queue.nb_workers.toNat → c j = true) →
      ∃ V, tq_queue_start true c unlock_ok join_ok sched W = some (0, V)) ∧
    (∀ (unlock_ok : Bool) (join_ok : Nat → Bool) (sched : Nat → List WorkerStep)
        (W : World) (i : Nat),
      i < W.queue.nb_workers.toNat → join_ok i = false →
      (∀ r V, tq_queue_stop true unlock_ok join_ok sched W = some (r, V) →
        r = -1 ∧ ∃ t1 t2, V.trace = W.trace ++ t1 ++
          [Event.thread_join i false, Event.set_error Msg.cannot_join_thread] ++ t2) ∧
      (W.trace_abandoned = false → (∀ j, ∀ s ∈ sched j, s.all_ok = true) →
        ∀ n, Reachable n W →
        (∀ j, j < n.toNat → join_ok j = true →
          W.threads j ≠ WorkerPc.absent ∧ 4 ≤ steps_of j (sched j)) →
        ∃ V, tq_queue_stop true unlock_ok join_ok sched W = some (-1, V))) ∧
    (∀ (unlock_ok : Bool) (join_ok : Nat → Bool) (sched : Nat → List WorkerStep)
        (W : World) (r : Int) (V : World),
      tq_queue_stop true unlock_ok join_ok sched W = some (r, V) →
      (r = -1 ↔ ∃ i, i < W.queue.nb_workers.toNat ∧ join_ok i = false) ∧ (r = 0 ∨ r = -1)) ∧
    (∀ (lock_ok wait_ok unlock_ok : Nat → Bool) (turns : List (List Action × List Action))
        (k : Nat) (W : World),
      W.trace_abandoned = false →
      lock_ok k = false →
      drain_loop lock_ok wait_ok unlock_ok turns k W =
        some (-1, { W with trace := W.trace ++ tq_mutex_lock false })) ∧
    (∀ (lock_ok wait_ok unlock_ok : Nat → Bool) (k : Nat) (W : World),
      (unlock_ok k = true ∨ W.trace_abandoned = false) →
      lock_ok k = true → W.queue.nb_jobs ≠ 0 → wait_ok k = false →
      drain_loop lock_ok wait_ok unlock_ok [] k W =
        some (-1, { W with trace := W.trace ++ tq_mutex_lock true ++ [Event.cond_wait] ++
                      [Event.set_error Msg.cannot_wait_for_condition] ++
                      tq_mutex_unlock (unlock_ok k) })) ∧
    (∀ (lock_ok wait_ok unlock_ok : Nat → Bool) (during_wait after_unlock : List Action)
        (rest : List (List Action × List Action)) (k : Nat) (W W2 : World),
      lock_ok k = true → W.queue.nb_jobs ≠ 0 →
      run_env { W with trace := W.trace ++ tq_mutex_lock true ++ [Event.cond_wait] }
        during_wait = some W2 →
      (unlock_ok k = true ∨ W2.trace_abandoned = false) →
      wait_ok k = false →
      drain_loop lock_ok wait_ok unlock_ok ((during_wait, after_unlock) :: rest) k W =
        some (-1, { W2 with trace := W2.trace ++
                      [Event.set_error Msg.cannot_wait_for_condition] ++
                      tq_mutex_unlock (unlock_ok k) })) ∧
    (∀ (lock_ok wait_ok unlock_ok : Nat → Bool) (turns : List (List Action × List Action))
        (W : World) (r : Int) (V : World),
      tq_queue_drain lock_ok wait_ok unlock_ok turns W = some (r, V) →
      (r = 0 ∨ r = -1) ∧
      (r = -1 →
        (∃ t, V.trace = W.trace ++ t ++ tq_mutex_lock false) ∨
        (∃ t u, V.trace = W.trace ++ t ++
          [Event.set_error Msg.cannot_wait_for_condition] ++ tq_mutex_unlock u))) := by
  refine ⟨?_, new_failure, ?_, ?_, ?_, ?_, ?_, ?_, stop_ignores_unlock, ?_, ?_, ?_, ?_⟩
  · intro ok W h
    exact ⟨(mutex_calls_return ok W h).1, (mutex_calls_return ok W h).2,
      by simp [tq_mutex_lock], by simp [tq_mutex_unlock]⟩
  · intro func arg mem lock_ok unlock_ok W hfail _
    exact add_job_failure_message func arg mem lock_ok unlock_ok W hfail
  · intro func arg job unlock_ok W _
    exact add_job_ignores_unlock func arg job unlock_ok W
  · intro c unlock_ok join_ok sched W _
    exact ⟨rfl, rfl, by simp [tq_mutex_lock]⟩
  · intro c unlock_ok join_ok sched W k hk hfail hok
    obtain ⟨h1, h2⟩ := start_create_failure c unlock_ok join_ok sched W k hk hfail hok
    exact ⟨h1, fun _ _ => h2⟩
  · intro c unlock_ok join_ok sched W _ hok
    exact ⟨_, (start_ignores_unlock c unlock_ok join_ok sched W hok).1⟩
  · intro unlock_ok join_ok sched W i hi hfail
    obtain ⟨h1, h2⟩ := stop_join_failure unlock_ok join_ok sched W i hi hfail
    exact ⟨h1, fun _ _ => h2⟩
  · intro lock_ok wait_ok unlock_ok turns k W _ hl
    exact drain_loop_lock_fail lock_ok wait_ok unlock_ok turns k W hl
  · intro lock_ok wait_ok unlock_ok k W _ hl hnb hw
    unfold drain_loop
    simp [hl, hnb, hw]
  · intro lock_ok wait_ok unlock_ok during_wait after_unlock rest k W W2 hl hnb hrun _ hw
    exact drain_loop_wait_fail lock_ok wait_ok unlock_ok during_wait after_unlock rest k W W2
      hl hnb hrun hw
  · intro lock_ok wait_ok unlock_ok turns W r V h
    obtain ⟨r1, _, r3⟩ := drain_loop_result lock_ok wait_ok unlock_ok turns 0 W r V h
    exact ⟨r1, r3⟩

theorem failure_surfaced_witness :
    ((tq_queue_new 2 true false true true true).1 = none ∧
      Event.set_error Msg.cannot_allocate_workers ∈
        (tq_queue_new 2 true false true true true).2) ∧
    (tq_queue_add_job 1 10 (some 100) false true (World.new 1)).1 = -1 ∧
    (∃ V, tq_queue_start true (fun i => decide (i = 0)) true (fun _ => false)
      (fun _ => []) (World.new 2) = some (-1, V)) ∧
    (∃ V, tq_queue_stop true true (fun i => decide (i = 0)) four_steps world_started =
      some (-1, V)) ∧
    (tq_queue_drain (fun _ => false) (fun _ => true) (fun _ => true) [] world_queued).map
      Prod.fst = some (-1) ∧
    (tq_queue_drain (fun _ => true) (fun _ => false) (fun _ => true) [] world_queued).map
      Prod.fst = some (-1) := by
  obtain ⟨_, h1, h2, _, _, h5, _, h7, _, h9, h10, _⟩ := failure_surfaced
  refine ⟨?_, ?_, ?_, ?_, ?_, ?_⟩
  · obtain ⟨a, _, b, _⟩ := h1 2 true false true true true (Or.inr (Or.inl rfl))
    exact ⟨a, b rfl rfl⟩
  · exact (h2 1 10 (some 100) false true (World.new 1) (Or.inr rfl) (Or.inr rfl)).1
  · exact (h5 (fun i => decide (i = 0)) true (fun _ => false) (fun _ => []) (World.new 2) 1
      (by decide) (by decide) (fun j hj => by
        have : j = 0 := by omega
        subst this
        decide)).2 rfl (fun _ _ hs => by simp at hs) (fun _ => rfl)
        (fun j _ hj => by simp at hj)
  · exact (h7 true (fun i => decide (i = 0)) four_steps world_started 1 (by decide)
      (by decide)).2 (by decide) (fun j s hs => by
        simp [four_steps] at hs
        rw [hs]
        rfl) 2 world_started_reachable (fun i hi hjo => by
        have hi0 : i = 0 := by simpa using hjo
        subst hi0
        exact ⟨by decide, by decide⟩)
  · have := h9 (fun _ => false) (fun _ => true) (fun _ => true) [] 0 world_queued
      (by decide) rfl
    show (drain_loop _ _ _ [] 0 world_queued).map Prod.fst = _
    rw [this]
    rfl
  · have := h10 (fun _ => true) (fun _ => false) (fun _ => true) 0 world_queued
      (Or.inl rfl) rfl (by decide) rfl
    show (drain_loop _ _ _ [] 0 world_queued).map Prod.fst = _
    rw [this]
    rfl

/-! ## The lock discipline -/

theorem calls_of_append (a b : List Op) : calls_of (a ++ b) = calls_of a ++ calls_of b := by
  simp [calls_of, List.filterMap_append]

theorem calls_of_calls (evs : List Event) : calls_of (evs.map Op.call) = evs := by
  induction evs with
  | nil => rfl
  | cons e evs ih =>
    show e :: calls_of (evs.map Op.call) = e :: evs
    rw [ih]

theorem calls_of_cons_call (e : Event) (ops : List Op) :
    calls_of (Op.call e :: ops) = e :: calls_of ops := rfl

theorem calls_of_cons_read (f : Field) (ops : List Op) :
    calls_of (Op.read f :: ops) = calls_of ops := rfl

theorem calls_of_cons_write (f : Field) (ops : List Op) :
    calls_of (Op.write f :: ops) = calls_of ops := rfl

theorem calls_of_nil : calls_of [] = [] := rfl

theorem guarded_append (p : Field → Bool) :
    ∀ (a b : List Op) (held : Bool),
      guarded p held (a ++ b) = (guarded p held a && guarded p (held_after held a) b) := by
  intro a
  induction a with
  | nil => intro b held; simp [guarded, held_after]
  | cons o a ih =>
    intro b held
    cases o with
    | call e => simp [guarded, held_after, ih]
    | read f => simp [guarded, held_after, ih, Bool.and_assoc]
    | write f => simp [guarded, held_after, ih, Bool.and_assoc]

theorem held_after_append :
    ∀ (a b : List Op) (held : Bool),
      held_after held (a ++ b) = held_after (held_after held a) b := by
  intro a
  induction a with
  | nil => intro b held; rfl
  | cons o a ih =>
    intro b held
    cases o with
    | call e => simp [held_after, ih]
    | read f => simp [held_after, ih]
    | write f => simp [held_after, ih]

/-- A thread that makes calls only reads and writes no field. -/
theorem guarded_calls (p : Field → Bool) :
    ∀ (evs : List Event) (held : Bool), guarded p held (evs.map Op.call) = true := by
  intro evs
  induction evs with
  | nil => intro held; rfl
  | cons e evs ih => intro held; simp [guarded, ih]

theorem held_after_lock (held : Bool) :
    held_after held ((tq_mutex_lock true).map Op.call) = true := rfl

theorem held_after_lock_failed (held : Bool) :
    held_after held ((tq_mutex_lock false).map Op.call) = held := rfl

theorem held_after_unlock (held u : Bool) :
    held_after held ((tq_mutex_unlock u).map Op.call) = false := by
  cases u <;> rfl

/-- Writes made with the mutex held are guarded. -/
theorem guarded_writes (p : Field → Bool) (fs : List Field) :
    guarded p true (fs.map Op.write) = true ∧ held_after true (fs.map Op.write) = true := by
  induction fs with
  | nil => exact ⟨rfl, rfl⟩
  | cons f fs ih => simp [guarded, held_after, ih.1, ih.2]

/-- The steps of `tq_queue_add_job` are guarded, leave the mutex released, and
their calls are the calls of `tq_queue_add_job`. -/
theorem add_job_ops_spec (func arg : Nat) (mem : Option Nat) (lock_ok unlock_ok : Bool)
    (W : World) :
    guarded Field.any false (tq_queue_add_job_ops func arg mem lock_ok unlock_ok W) = true ∧
    held_after false (tq_queue_add_job_ops func arg mem lock_ok unlock_ok W) = false ∧
    (tq_queue_add_job func arg mem lock_ok unlock_ok W).2.trace =
      W.trace ++ calls_of (tq_queue_add_job_ops func arg mem lock_ok unlock_ok W) := by
  cases mem with
  | none => exact ⟨rfl, rfl, rfl⟩
  | some job =>
    cases lock_ok with
    | false =>
      refine ⟨rfl, rfl, ?_⟩
      simp [tq_queue_add_job, tq_queue_add_job_ops, calls_of_append, calls_of_calls,
        calls_of_cons_call, calls_of_nil, List.append_assoc]
    | true =>
      refine ⟨?_, ?_, ?_⟩
      · cases hj : W.queue.jobs <;> by_cases hnb : int_wrap (W.queue.nb_jobs + 1) = 1 <;>
          cases unlock_ok <;>
          simp [tq_queue_add_job_ops, hj, hnb, tq_mutex_lock, tq_mutex_unlock, guarded,
            held_after_call, Field.any]
      · cases hj : W.queue.jobs <;> by_cases hnb : int_wrap (W.queue.nb_jobs + 1) = 1 <;>
          cases unlock_ok <;>
          simp [tq_queue_add_job_ops, hj, hnb, tq_mutex_lock, tq_mutex_unlock, held_after,
            held_after_call]
      · cases hj : W.queue.jobs <;> by_cases hnb : int_wrap (W.queue.nb_jobs + 1) = 1 <;>
          simp [tq_queue_add_job, tq_queue_add_job_ops, hj, hnb, calls_of_append,
            calls_of_calls, calls_of_cons_call, calls_of_cons_read, calls_of_cons_write,
            calls_of_nil, List.append_assoc]

/-- The steps of the section of `tq_queue_stop` are guarded, leave the mutex
released, and their calls are the calls of the section. -/
theorem stop_section_ops_spec (lock_ok unlock_ok : Bool) (W : World) :
    guarded Field.any false (stop_section_ops lock_ok unlock_ok W) = true ∧
    held_after false (stop_section_ops lock_ok unlock_ok W) = false ∧
    (stop_section lock_ok unlock_ok W).2.trace =
      W.trace ++ calls_of (stop_section_ops lock_ok unlock_ok W) := by
  cases lock_ok with
  | false => exact ⟨rfl, rfl, rfl⟩
  | true =>
    have hw := guarded_writes Field.any
      ((List.range W.queue.nb_workers.toNat).map (fun i => Field.exit i))
    rw [List.map_map] at hw
    have hc : calls_of ((List.range W.queue.nb_workers.toNat).map
        (fun i => Op.write (Field.exit i))) = [] := by
      induction (List.range W.queue.nb_workers.toNat) with
      | nil => rfl
      | cons a l ih => exact ih
    refine ⟨?_, ?_, ?_⟩
    · simp only [stop_section_ops, Bool.not_true, Bool.false_eq_true, if_false,
        guarded_append, held_after_append, guarded_calls, held_after_lock, Bool.true_and,
        Bool.and_eq_true]
      exact ⟨⟨hw.1, trivial⟩, rfl⟩
    · simp only [stop_section_ops, Bool.not_true, Bool.false_eq_true, if_false,
        held_after_append, held_after_unlock]
      rfl
    · simp only [stop_section_ops, stop_section, Bool.not_true, Bool.false_eq_true, if_false,
        calls_of_append, calls_of_calls, hc, List.append_nil, List.nil_append,
        calls_of_cons_call, calls_of_nil, List.append_assoc]

/-- The steps of the section of `tq_queue_start` touch no field, and their
calls are the calls of the section. -/
theorem start_section_ops_spec (lock_ok : Bool) (create_ok : Nat → Bool) (unlock_ok : Bool)
    (W : World) :
    guarded Field.any false (start_section_ops lock_ok create_ok unlock_ok W) = true ∧
    (start_section lock_ok create_ok unlock_ok W).2.trace =
      W.trace ++ calls_of (start_section_ops lock_ok create_ok unlock_ok W) := by
  refine ⟨guarded_calls _ _ _, ?_⟩
  obtain ⟨ev, hev⟩ := start_section_trace lock_ok create_ok unlock_ok W
  unfold start_section_ops
  rw [calls_of_calls, hev, List.drop_left]

/-- The steps of an iteration of `tq_queue_drain` are guarded and leave the
mutex released. -/
theorem drain_turn_ops_spec (lock_ok wait_ok unlock_ok empty : Bool) :
    guarded Field.any false (drain_turn_ops lock_ok wait_ok unlock_ok empty) = true ∧
    held_after false (drain_turn_ops lock_ok wait_ok unlock_ok empty) = false := by
  cases lock_ok <;> cases wait_ok <;> cases unlock_ok <;> cases empty <;> exact ⟨rfl, rfl⟩

/-- The calls of an iteration of `tq_queue_drain` that ends the call with no
other thread acting (a failed lock, an empty queue, or a failed wait) are
those of its steps. -/
theorem drain_turn_ops_calls (lo wo uo : Nat → Bool) (turns : List (List Action × List Action))
    (k : Nat) (W : World) :
    (lo k = false ∨ W.queue.nb_jobs = 0 →
      ∃ r V, drain_loop lo wo uo turns k W = some (r, V) ∧
        V.trace = W.trace ++ calls_of
          (drain_turn_ops (lo k) (wo k) (uo k) (decide (W.queue.nb_jobs = 0)))) ∧
    (lo k = true → W.queue.nb_jobs ≠ 0 → wo k = false → ∀ after_unlock,
      ∃ r V, drain_loop lo wo uo (([], after_unlock) :: turns) k W = some (r, V) ∧
        V.trace = W.trace ++ calls_of
          (drain_turn_ops (lo k) (wo k) (uo k) (decide (W.queue.nb_jobs = 0)))) := by
  constructor
  · intro h
    cases hl : lo k with
    | false =>
      exact ⟨-1, _, drain_loop_lock_fail lo wo uo turns k W hl, rfl⟩
    | true =>
      have hnb : W.queue.nb_jobs = 0 := by
        rcases h with h | h
        · rw [hl] at h; exact absurd h (by decide)
        · exact h
      refine ⟨0, _, drain_loop_empty lo wo uo turns k W hnb hl, ?_⟩
      simp [drain_turn_ops, hnb, calls_of_append, calls_of_calls, calls_of_cons_read,
        calls_of_nil, List.append_assoc]
  · intro hl hnb hw after_unlock
    refine ⟨-1, _, drain_loop_wait_fail lo wo uo [] after_unlock turns k W _ hl hnb rfl hw, ?_⟩
    simp [drain_turn_ops, hl, hw, hnb, calls_of_append, calls_of_calls, calls_of_cons_call,
      calls_of_cons_read, calls_of_nil, List.append_assoc]

/-- The calls of the steps of `tq_queue_new` are the calls of `tq_queue_new`,
and the steps that follow the allocation of the queue write its fields with
no mutex held. -/
theorem new_ops_spec (n : Int) (queue_ok workers_ok mutex_ok cond_ok destroy_ok : Bool) :
    calls_of (tq_queue_new_ops queue_ok workers_ok mutex_ok cond_ok destroy_ok) =
      (tq_queue_new n queue_ok workers_ok mutex_ok cond_ok destroy_ok).2 ∧
    (queue_ok = true →
      guarded Field.any false
        (tq_queue_new_ops queue_ok workers_ok mutex_ok cond_ok destroy_ok) = false) := by
  cases queue_ok <;> cases workers_ok <;> cases mutex_ok <;> cases cond_ok <;>
    cases destroy_ok <;> exact ⟨rfl, by decide⟩

/-- The steps of `tq_queue_delete` read `jobs` with no mutex held. -/
theorem delete_ops_spec (fuel : Nat) (destroy_ok : Bool) (queue : tq_queue) (heap : Heap)
    (ops : List Op) (h : tq_queue_delete_ops fuel destroy_ok queue heap = some ops) :
    guarded Field.any false ops = false ∧
    ∃ heap1, tq_queue_delete fuel destroy_ok (some queue) heap = some (heap1, calls_of ops) := by
  unfold tq_queue_delete_ops at h
  cases hd : tq_queue_delete fuel destroy_ok (some queue) heap with
  | none => rw [hd] at h; simp at h
  | some r =>
    rw [hd] at h
    simp at h
    subst h
    exact ⟨rfl, r.1, by rw [calls_of_cons_read, calls_of_calls]⟩

/-- In a world that satisfies the list invariant the job that `next_job`
points to is allocated. -/
theorem inv_next_live {W : World} {l : List Nat} (hI : Inv W l) :
    ∀ a, W.queue.next_job = some a → W.heap a ≠ none := by
  intro a ha
  rw [hI.last] at ha
  exact dll_live hI.chain a (List.mem_of_getLast?_eq_some ha)

/-- The steps of the dequeue section of a worker, run with the mutex held, are
guarded, and their calls are the calls of `worker_take`; when `next_job` is
an allocated job the worker holds the mutex afterwards exactly if it is left
suspended in the wait. -/
theorem worker_take_ops_spec (i : Nat) (unlock_ok : Bool) (W : World) :
    guarded Field.any true (worker_take_ops i unlock_ok W) = true ∧
    (worker_take i unlock_ok W).trace = W.trace ++ calls_of (worker_take_ops i unlock_ok W) ∧
    ((∀ a, W.queue.next_job = some a → W.heap a ≠ none) →
      (W.threads i).holds = false →
      held_after true (worker_take_ops i unlock_ok W) =
        ((worker_take i unlock_ok W).threads i).holds) ∧
    ((W.threads i).holds = true →
      held_after true (worker_take_ops i unlock_ok W) =
        ((worker_take i unlock_ok W).threads i).holds) := by
  unfold worker_take_ops worker_take
  cases he : (W.queue.workers i).exit with
  | true =>
    cases unlock_ok <;>
      simp [guarded, held_after, held_after_call, tq_mutex_unlock, Field.any, WorkerPc.holds,
        calls_of_cons_read, calls_of_cons_call, calls_of_nil]
  | false =>
    cases hn : W.queue.next_job with
    | none =>
      simp [guarded, held_after, held_after_call, Field.any, WorkerPc.holds,
        calls_of_cons_read, calls_of_cons_call, calls_of_nil]
    | some job =>
      cases hh : W.heap job with
      | none =>
        refine ⟨by simp [hh, guarded, Field.any], by
          simp [hh, calls_of_cons_read, calls_of_nil], ?_, ?_⟩
        · intro hlive _
          exact absurd hh (hlive job rfl)
        · intro hw
          simp [hh, held_after, hw]
      | some j =>
        cases hp : j.prev <;> by_cases hnb : int_wrap (W.queue.nb_jobs - 1) = 0 <;> cases unlock_ok <;>
          simp [hh, hp, guarded, held_after, held_after_call, tq_mutex_unlock, Field.any,
            WorkerPc.holds, hnb, calls_of_cons_read, calls_of_cons_write, calls_of_cons_call,
            calls_of_nil, calls_of_append]

/-- The calls of the steps of a transition of a worker are the calls of the
transition. -/
theorem worker_ops_calls (i : Nat) (lock_ok wait_ok unlock_ok : Bool) (W : World) :
    (tq_worker_func i lock_ok wait_ok unlock_ok W).trace =
      W.trace ++ calls_of (tq_worker_func_ops i lock_ok wait_ok unlock_ok W) := by
  unfold tq_worker_func tq_worker_func_ops
  cases ht : W.threads i with
  | absent => simp [calls_of_nil]
  | terminated => simp [calls_of_nil]
  | startup =>
    cases hc : W.cancel i <;> cases lock_ok <;> cases unlock_ok <;>
      simp [calls_of_append, calls_of_calls, calls_of_cons_call, calls_of_nil,
        List.append_assoc]
  | idle =>
    cases lock_ok
    · simp [calls_of_append, calls_of_calls, calls_of_cons_call, calls_of_nil,
        List.append_assoc]
    · have h := (worker_take_ops_spec i unlock_ok
        { W with trace := W.trace ++ tq_mutex_lock true }).2.1
      simp only [Bool.not_true, Bool.false_eq_true, if_false]
      rw [h, calls_of_append, calls_of_calls, List.append_assoc]
      rfl
  | waiting =>
    cases wait_ok
    · simp [calls_of_append, calls_of_calls, calls_of_cons_call, calls_of_nil,
        List.append_assoc]
    · simp only [Bool.not_true, Bool.false_eq_true, if_false]
      exact (worker_take_ops_spec i unlock_ok W).2.1
  | started job =>
    cases hh : W.heap job with
    | none => simp [hh, calls_of_nil]
    | some j =>
      cases hk : W.queue.job_started_hook <;>
        simp [hh, hk, calls_of_cons_read, calls_of_cons_call, calls_of_nil]
  | running job =>
    cases hh : W.heap job with
    | none => simp [hh, calls_of_nil]
    | some j => simp [hh, calls_of_cons_call, calls_of_nil]
  | finishing job =>
    cases hh : W.heap job with
    | none => simp [hh, calls_of_nil]
    | some j =>
      cases hk : W.queue.job_done_hook <;>
        simp [hh, hk, calls_of_cons_read, calls_of_cons_call, calls_of_nil, calls_of_append]

/-- The steps of a transition of a worker read and write the job list, the
job count and the exit flags with the mutex held. -/
theorem worker_ops_guarded (i : Nat) (lock_ok wait_ok unlock_ok : Bool) (W : World) :
    guarded Field.of_list (W.threads i).holds
      (tq_worker_func_ops i lock_ok wait_ok unlock_ok W) = true := by
  have hany : ∀ (held : Bool) (ops : List Op), guarded Field.any held ops = true →
      guarded Field.of_list held ops = true := by
    intro held ops
    induction ops generalizing held with
    | nil => intro _; rfl
    | cons o ops ih =>
      cases o with
      | call e => exact ih _
      | read f =>
        intro h
        simp only [guarded, Field.any, Bool.not_true, Bool.or_false, Bool.and_eq_true] at h
        obtain ⟨h1, h2⟩ := h
        subst h1
        simp [guarded, ih true h2]
      | write f =>
        intro h
        simp only [guarded, Field.any, Bool.not_true, Bool.or_false, Bool.and_eq_true] at h
        obtain ⟨h1, h2⟩ := h
        subst h1
        simp [guarded, ih true h2]
  have htake := hany true _ (worker_take_ops_spec i unlock_ok W).1
  unfold tq_worker_func_ops
  cases ht : W.threads i with
  | absent => rfl
  | terminated => rfl
  | startup => cases hc : W.cancel i <;> cases lock_ok <;> cases unlock_ok <;> rfl
  | idle =>
    cases lock_ok
    · rfl
    · simp only [Bool.not_true, Bool.false_eq_true, if_false, guarded_append, guarded_calls,
        held_after_lock, Bool.true_and]
      exact htake
  | waiting =>
    cases wait_ok
    · cases unlock_ok <;> rfl
    · exact htake
  | started job =>
    cases hh : W.heap job with
    | none => simp only [hh]; rfl
    | some j => cases hk : W.queue.job_started_hook <;> simp only [hh, hk] <;> rfl
  | running job =>
    cases hh : W.heap job with
    | none => simp only [hh]; rfl
    | some j => simp only [hh]; rfl
  | finishing job =>
    cases hh : W.heap job with
    | none => simp only [hh]; rfl
    | some j => cases hk : W.queue.job_done_hook <;> simp only [hh, hk] <;> rfl

/-- A transition of a worker starts with the mutex in the state in which the
transition before it left it: when `next_job` is an allocated job, the worker
holds the mutex after the steps of a transition exactly if it stands in the
wait. -/
theorem worker_ops_held (i : Nat) (lock_ok wait_ok unlock_ok : Bool) (W : World)
    (hlive : ∀ a, W.queue.next_job = some a → W.heap a ≠ none) :
    held_after (W.threads i).holds (tq_worker_func_ops i lock_ok wait_ok unlock_ok W) =
      ((tq_worker_func i lock_ok wait_ok unlock_ok W).threads i).holds := by
  unfold tq_worker_func tq_worker_func_ops
  cases ht : W.threads i with
  | absent => simp [held_after, ht]
  | terminated => simp [held_after, ht]
  | startup =>
    cases hc : W.cancel i <;> cases lock_ok <;> cases unlock_ok <;>
      simp [held_after_append, held_after_lock_failed, held_after_lock, held_after_unlock,
        held_after, held_after_call, WorkerPc.holds, tq_mutex_lock, tq_mutex_unlock]
  | idle =>
    cases lock_ok
    · simp [held_after_append, held_after_lock_failed, held_after, held_after_call,
        WorkerPc.holds]
    · have h := (worker_take_ops_spec i unlock_ok
        { W with trace := W.trace ++ tq_mutex_lock true }).2.2.1 hlive
        (by show (W.threads i).holds = false; rw [ht]; rfl)
      simp only [Bool.not_true, Bool.false_eq_true, if_false, held_after_append,
        held_after_lock]
      exact h
  | waiting =>
    cases wait_ok
    · simp [held_after_append, held_after_unlock, held_after, held_after_call, WorkerPc.holds]
    · simp only [Bool.not_true, Bool.false_eq_true, if_false]
      exact (worker_take_ops_spec i unlock_ok W).2.2.2 (by rw [ht]; rfl)
  | started job =>
    cases hh : W.heap job with
    | none => simp [hh, held_after, ht]
    | some j =>
      cases hk : W.queue.job_started_hook <;>
        simp [hh, hk, held_after, held_after_call, WorkerPc.holds]
  | running job =>
    cases hh : W.heap job with
    | none => simp [hh, held_after, ht]
    | some j => simp [hh, held_after, held_after_call, WorkerPc.holds]
  | finishing job =>
    cases hh : W.heap job with
    | none => simp [hh, held_after, ht]
    | some j =>
      cases hk : W.queue.job_done_hook <;>
        simp [hh, hk, held_after, held_after_call, WorkerPc.holds]

/-- The worker reads the hook fields with no mutex held. -/
theorem worker_ops_hooks (i job : Nat) (j : tq_job) (lock_ok wait_ok unlock_ok : Bool)
    (W : World) (hh : W.heap job = some j)
    (ht : W.threads i = WorkerPc.started job ∨ W.threads i = WorkerPc.finishing job) :
    guarded Field.any (W.threads i).holds
      (tq_worker_func_ops i lock_ok wait_ok unlock_ok W) = false := by
  unfold tq_worker_func_ops
  rcases ht with ht | ht
  · rw [ht]
    simp only [hh]
    rfl
  · rw [ht]
    simp only [hh]
    rfl

theorem world_taken_started :
    world_taken.threads 0 = WorkerPc.started 100 ∧
    world_taken.heap 100 = some { func := 1, arg := 10, prev := some 200, next := none } := by
  constructor
  · rfl
  · rfl

/-- C12, counterexample (fields accessed without the mutex).
`tq_queue_get_nb_jobs` reads `nb_jobs`, and the two setters write the hook
fields, with no lock taken; the worker of the scenario, which has unlinked
the first job and released the mutex, reads `job_started_hook` in its next
transition; `tq_queue_new` writes the fields of the new queue and
`tq_queue_delete` reads `jobs` with no lock taken. -/
theorem unlocked_accesses :
    guarded Field.any false tq_queue_get_nb_jobs_ops = false ∧
    guarded Field.any false tq_queue_set_job_started_hook_ops = false ∧
    guarded Field.any false tq_queue_set_job_done_hook_ops = false ∧
    (world_taken.threads 0 = WorkerPc.started 100 ∧
      guarded Field.any (world_taken.threads 0).holds
        (tq_worker_func_ops 0 true true true world_taken) = false) ∧
    guarded Field.any false (tq_queue_new_ops true true true true true) = false ∧
    (tq_queue_delete_ops 4 true world_queued.queue world_queued.heap).map
      (guarded Field.any false) = some false := by
  refine ⟨rfl, rfl, rfl, ⟨world_taken_started.1, ?_⟩, rfl, ?_⟩
  · exact worker_ops_hooks 0 100 _ true true true world_taken world_taken_started.2
      (Or.inl world_taken_started.1)
  · cases h : tq_queue_delete_ops 4 true world_queued.queue world_queued.heap with
    | none =>
      exfalso
      have : (tq_queue_delete_ops 4 true world_queued.queue world_queued.heap).isSome = true := by
        rfl
      rw [h] at this
      exact absurd this (by decide)
    | some ops =>
      show some (guarded Field.any false ops) = some false
      rw [(delete_ops_spec 4 true _ _ ops h).1]

/-- C12 (lock discipline), as the code has it.  In `tq_queue_add_job`, in
`tq_queue_start` and `tq_queue_stop` up to their unlock (the join loops that
follow make calls only), in every iteration of `tq_queue_drain` and in every
transition of the worker loop, each read and each write of `jobs`,
`next_job`, `nb_jobs` and of the exit flags is made while the thread holds the
queue mutex, between a lock that succeeded and the next unlock, a condition
wait returning with the mutex held; the steps checked are those of the
embedded functions (same calls; for `tq_queue_drain`, on the iterations that
end the call with no other thread acting), each public call leaves the mutex
released,
and each transition of a worker of a reachable world leaves the mutex in the
state in which the next one starts.  The hook fields are outside the
discipline: the worker reads them after its unlock and the two setters write
them with no lock taken.  `tq_queue_get_nb_jobs` reads `nb_jobs` with no lock
taken, and `tq_queue_new` and `tq_queue_delete` write and read the fields
with no lock taken. -/
theorem lock_discipline :
    (∀ (func arg : Nat) (mem : Option Nat) (lock_ok unlock_ok : Bool) (W : World),
      guarded Field.any false (tq_queue_add_job_ops func arg mem lock_ok unlock_ok W) = true ∧
      held_after false (tq_queue_add_job_ops func arg mem lock_ok unlock_ok W) = false ∧
      (tq_queue_add_job func arg mem lock_ok unlock_ok W).2.trace =
        W.trace ++ calls_of (tq_queue_add_job_ops func arg mem lock_ok unlock_ok W)) ∧
    (∀ (lock_ok : Bool) (create_ok : Nat → Bool) (unlock_ok : Bool) (W : World),
      guarded Field.any false (start_section_ops lock_ok create_ok unlock_ok W) = true ∧
      (start_section lock_ok create_ok unlock_ok W).2.trace =
        W.trace ++ calls_of (start_section_ops lock_ok create_ok unlock_ok W)) ∧
    (∀ (lock_ok unlock_ok : Bool) (W : World),
      guarded Field.any false (stop_section_ops lock_ok unlock_ok W) = true ∧
      held_after false (stop_section_ops lock_ok unlock_ok W) = false ∧
      (stop_section lock_ok unlock_ok W).2.trace =
        W.trace ++ calls_of (stop_section_ops lock_ok unlock_ok W)) ∧
    (∀ (lock_ok wait_ok unlock_ok empty : Bool),
      guarded Field.any false (drain_turn_ops lock_ok wait_ok unlock_ok empty) = true ∧
      held_after false (drain_turn_ops lock_ok wait_ok unlock_ok empty) = false) ∧
    (∀ (i : Nat) (lock_ok wait_ok unlock_ok : Bool) (W : World),
      guarded Field.of_list (W.threads i).holds
        (tq_worker_func_ops i lock_ok wait_ok unlock_ok W) = true ∧
      (tq_worker_func i lock_ok wait_ok unlock_ok W).trace =
        W.trace ++ calls_of (tq_worker_func_ops i lock_ok wait_ok unlock_ok W)) ∧
    (∀ (n : Int) (W : World), Reachable n W →
      ∀ (i : Nat) (lock_ok wait_ok unlock_ok : Bool),
        held_after (W.threads i).holds (tq_worker_func_ops i lock_ok wait_ok unlock_ok W) =
          ((tq_worker_func i lock_ok wait_ok unlock_ok W).threads i).holds) ∧
    (∀ (i job : Nat) (j : tq_job) (lock_ok wait_ok unlock_ok : Bool) (W : World),
      W.heap job = some j →
      (W.threads i = WorkerPc.started job ∨ W.threads i = WorkerPc.finishing job) →
      guarded Field.any (W.threads i).holds
        (tq_worker_func_ops i lock_ok wait_ok unlock_ok W) = false) ∧
    guarded Field.any false tq_queue_set_job_started_hook_ops = false ∧
    guarded Field.any false tq_queue_set_job_done_hook_ops = false ∧
    guarded Field.any false tq_queue_get_nb_jobs_ops = false ∧
    (∀ (n : Int) (queue_ok workers_ok mutex_ok cond_ok destroy_ok : Bool),
      calls_of (tq_queue_new_ops queue_ok workers_ok mutex_ok cond_ok destroy_ok) =
        (tq_queue_new n queue_ok workers_ok mutex_ok cond_ok destroy_ok).2 ∧
      (queue_ok = true →
        guarded Field.any false
          (tq_queue_new_ops queue_ok workers_ok mutex_ok cond_ok destroy_ok) = false)) ∧
    (∀ (fuel : Nat) (destroy_ok : Bool) (queue : tq_queue) (heap : Heap) (ops : List Op),
      tq_queue_delete_ops fuel destroy_ok queue heap = some ops →
      guarded Field.any false ops = false ∧
      ∃ heap1, tq_queue_delete fuel destroy_ok (some queue) heap =
        some (heap1, calls_of ops)) ∧
    (∀ (lock_ok wait_ok unlock_ok : Nat → Bool) (turns : List (List Action × List Action))
        (k : Nat) (W : World),
      (lock_ok k = false ∨ W.queue.nb_jobs = 0 →
        ∃ r V, drain_loop lock_ok wait_ok unlock_ok turns k W = some (r, V) ∧
          V.trace = W.trace ++ calls_of
            (drain_turn_ops (lock_ok k) (wait_ok k) (unlock_ok k)
              (decide (W.queue.nb_jobs = 0)))) ∧
      (lock_ok k = true → W.queue.nb_jobs ≠ 0 → wait_ok k = false → ∀ after_unlock,
        ∃ r V, drain_loop lock_ok wait_ok unlock_ok (([], after_unlock) :: turns) k W =
            some (r, V) ∧
          V.trace = W.trace ++ calls_of
            (drain_turn_ops (lock_ok k) (wait_ok k) (unlock_ok k)
              (decide (W.queue.nb_jobs = 0))))) := by
  refine ⟨add_job_ops_spec, start_section_ops_spec, stop_section_ops_spec,
    drain_turn_ops_spec, ?_, ?_, worker_ops_hooks, rfl, rfl, rfl, new_ops_spec,
    delete_ops_spec, drain_turn_ops_calls⟩
  · intro i lock_ok wait_ok unlock_ok W
    exact ⟨worker_ops_guarded i lock_ok wait_ok unlock_ok W,
      worker_ops_calls i lock_ok wait_ok unlock_ok W⟩
  · intro n W hr i lock_ok wait_ok unlock_ok
    obtain ⟨l, hI, _⟩ := (good_of_reachable hr).2
    exact worker_ops_held i lock_ok wait_ok unlock_ok W (inv_next_live hI)

theorem lock_discipline_witness :
    (held_after (world_idle.threads 0).holds (tq_worker_func_ops 0 true true true world_idle) =
      ((tq_worker_func 0 true true true world_idle).threads 0).holds) ∧
    (world_taken.heap 100 = some { func := 1, arg := 10, prev := some 200, next := none } ∧
      world_taken.threads 0 = WorkerPc.started 100 ∧
      guarded Field.any (world_taken.threads 0).holds
        (tq_worker_func_ops 0 false false false world_taken) = false) ∧
    guarded Field.of_list (world_idle.threads 0).holds
      (tq_worker_func_ops 0 true true true world_idle) = true :=
  ⟨lock_discipline.2.2.2.2.2.1 1 world_idle world_idle_reachable 0 true true true,
    ⟨world_taken_started.2, world_taken_started.1,
      lock_discipline.2.2.2.2.2.2.1 0 100 _ false false false world_taken
        world_taken_started.2 (Or.inl world_taken_started.1)⟩,
    (lock_discipline.2.2.2.2.1 0 true true true world_idle).1⟩

/-! ## Progress of the workers -/

theorem run_workers_append (s1 s2 : List WorkerStep) (W : World) :
    run_workers (s1 ++ s2) W = run_workers s2 (run_workers s1 W) := by
  simp [run_workers, List.foldl_append]

theorem reachable_run_workers {n : Int} :
    ∀ (sched : List WorkerStep) {W : World}, Reachable n W →
      Reachable n (run_workers sched W) := by
  intro sched
  induction sched with
  | nil => intro W h; exact h
  | cons s sched ih =>
    intro W h
    rw [run_workers_cons]
    exact ih (Reachable.step (Action.worker s.i s.lock_ok s.wait_ok s.unlock_ok) h trivial)

theorem worker_submitted (i : Nat) (lo wo uo : Bool) (W : World) :
    submitted (tq_worker_func i lo wo uo W).trace = submitted W.trace := by
  obtain ⟨_, _, _, _, _, _, ev, h7, h8⟩ := worker_frame i lo wo uo W
  rw [h7, submitted_append, (of_worker_lists h8).1, List.append_nil]

theorem run_workers_submitted :
    ∀ (sched : List WorkerStep) (W : World),
      submitted (run_workers sched W).trace = submitted W.trace := by
  intro sched
  induction sched with
  | nil => intro W; rfl
  | cons s sched ih =>
    intro W
    rw [run_workers_cons, ih, worker_submitted]

/-- The job a worker holds is an allocated record. -/
theorem held_job {W : World} {l : List Nat} (hI : Inv W l) {i a : Nat}
    (h : (W.threads i).job = some a) : ∃ j, W.heap a = some j := by
  have := (hI.held i a h).2.1
  cases hj : W.heap a with
  | none => exact absurd hj this
  | some j => exact ⟨j, rfl⟩

theorem ok_step_startup {i : Nat} {W : World} {l : List Nat} (hI : Inv W l) (hH : Hist W l)
    (hpc : W.threads i = WorkerPc.startup) (hc : W.cancel i = false) :
    (Inv (tq_worker_func i true true true W) l ∧
      Hist (tq_worker_func i true true true W) l) ∧
    (tq_worker_func i true true true W).threads i = WorkerPc.idle := by
  rw [worker_func_startup hpc hc]
  exact ⟨@frame W _ l rfl rfl rfl rfl (job_update (by rw [hpc]; rfl))
    (todo_update (by rw [hpc]; rfl))
    (quiet_trans (quiet_lock _ true) (quiet_unlock _ true)) hI hH, by simp⟩

theorem ok_step_started {i a : Nat} {W : World} {l : List Nat} (hI : Inv W l) (hH : Hist W l)
    (hpc : W.threads i = WorkerPc.started a) :
    (Inv (tq_worker_func i true true true W) l ∧
      Hist (tq_worker_func i true true true W) l) ∧
    (tq_worker_func i true true true W).threads i = WorkerPc.running a := by
  obtain ⟨j, hj⟩ := held_job hI (by rw [hpc]; rfl : (W.threads i).job = some a)
  rw [worker_func_started hpc hj]
  have hq : Quiet W.trace (W.trace ++
      (match W.queue.job_started_hook with
       | some hook => [Event.job_started_hook i hook j.arg]
       | none => [])) := by
    cases W.queue.job_started_hook with
    | none => exact @quiet_append _ [] rfl rfl rfl
    | some hook => exact @quiet_append _ [Event.job_started_hook i hook j.arg] rfl rfl rfl
  exact ⟨@frame W _ l rfl rfl rfl rfl (job_update (by rw [hpc]; rfl))
    (todo_update (by rw [hpc]; rfl)) hq hI hH, by simp⟩

theorem ok_step_running {i a : Nat} {W : World} {l : List Nat} (hI : Inv W l) (hH : Hist W l)
    (hpc : W.threads i = WorkerPc.running a) :
    (Inv (tq_worker_func i true true true W) l ∧
      Hist (tq_worker_func i true true true W) l) ∧
    (tq_worker_func i true true true W).threads i = WorkerPc.finishing a := by
  obtain ⟨j, hj⟩ := held_job hI (by rw [hpc]; rfl : (W.threads i).job = some a)
  rw [worker_func_running hpc hj]
  exact ⟨worker_running_good hI hH hpc hj, by simp⟩

theorem ok_step_finishing {i a : Nat} {W : World} {l : List Nat} (hI : Inv W l)
    (hH : Hist W l) (hpc : W.threads i = WorkerPc.finishing a) :
    (Inv (tq_worker_func i true true true W) l ∧
      Hist (tq_worker_func i true true true W) l) ∧
    (tq_worker_func i true true true W).threads i = WorkerPc.idle := by
  obtain ⟨j, hj⟩ := held_job hI (by rw [hpc]; rfl : (W.threads i).job = some a)
  rw [worker_func_finishing hpc hj, List.append_assoc]
  have hq : Quiet W.trace (W.trace ++
      ((match W.queue.job_done_hook with
        | some hook => [Event.job_done_hook i hook j.arg]
        | none => []) ++ [Event.free a])) := by
    cases W.queue.job_done_hook with
    | none => exact @quiet_append _ ([] ++ [Event.free a]) rfl rfl rfl
    | some hook =>
      exact @quiet_append _ ([Event.job_done_hook i hook j.arg] ++ [Event.free a])
        rfl rfl rfl
  exact ⟨worker_finishing_good hI hH hpc hq, by simp⟩

theorem hist_length {W : World} {l : List Nat} (hH : Hist W l) :
    (submitted W.trace).length = (dequeues W.trace).length + l.length := by
  rw [hH.fifo]
  simp [dequeued]

/-- A worker at the top of its loop, or woken from the wait, with its exit
flag unset and a job linked, unlinks a job: one node less is linked. -/
theorem ok_step_take {i : Nat} {W : World} {l : List Nat} (hI : Inv W l) (hH : Hist W l)
    (hpc : W.threads i = WorkerPc.idle ∨ W.threads i = WorkerPc.waiting)
    (hexit : (W.queue.workers i).exit = false) (hl : l ≠ []) :
    ∃ a l2, (Inv (tq_worker_func i true true true W) l2 ∧
      Hist (tq_worker_func i true true true W) l2) ∧
      (tq_worker_func i true true true W).threads i = WorkerPc.started a ∧
      l2.length + 1 = l.length := by
  have hnext : ∃ a, W.queue.next_job = some a := by
    rw [hI.last]
    cases h : l.getLast? with
    | none => exact absurd (List.getLast?_eq_none_iff.1 h) hl
    | some a => exact ⟨a, rfl⟩
  obtain ⟨a, hnext⟩ := hnext
  have key : ∀ (W1 : World), Inv W1 l → Hist W1 l → (W1.threads i).job = none →
      (W1.queue.workers i).exit = false → W1.queue.next_job = some a →
      ∃ l2, (Inv (worker_take i true W1) l2 ∧ Hist (worker_take i true W1) l2) ∧
        (worker_take i true W1).threads i = WorkerPc.started a ∧
        l2.length + 1 = l.length := by
    intro W1 hI1 hH1 hjob hexit1 hnext1
    obtain ⟨l2, hI2, hH2⟩ := @worker_take_good i true W1 l hI1 hH1 hjob
    obtain ⟨r1, r2, _⟩ := @worker_take_unlinks i a true W1 l hI1 hexit1 hnext1
    refine ⟨l2, ⟨hI2, hH2⟩, r1, ?_⟩
    have e1 := hist_length hH1
    have e2 := hist_length hH2
    have e3 : submitted (worker_take i true W1).trace = submitted W1.trace := by
      obtain ⟨_, _, _, _, _, _, ev, h7, h8⟩ := worker_take_frame i true W1
      rw [h7, submitted_append, (of_worker_lists h8).1, List.append_nil]
    rw [e3, r2] at e2
    simp at e2
    omega
  rcases hpc with hpc | hpc
  · rw [worker_func_idle hpc]
    obtain ⟨h1, h2⟩ := @frame W { W with trace := W.trace ++ tq_mutex_lock true } l
      rfl rfl rfl rfl (fun _ => rfl) (fun _ => rfl) (quiet_lock _ true) hI hH
    obtain ⟨l2, h⟩ := key _ h1 h2 (by show (W.threads i).job = none; rw [hpc]; rfl)
      hexit hnext
    exact ⟨a, l2, h⟩
  · rw [worker_func_woken hpc]
    obtain ⟨l2, h⟩ := key W hI hH (by rw [hpc]; rfl) hexit hnext
    exact ⟨a, l2, h⟩

/-- A worker at the top of its loop, or woken from the wait, with its exit
flag unset and no job linked, waits. -/
theorem ok_step_wait {i : Nat} {W : World} (hI : Inv W []) (hH : Hist W [])
    (hpc : W.threads i = WorkerPc.idle ∨ W.threads i = WorkerPc.waiting)
    (hexit : (W.queue.workers i).exit = false) :
    (Inv (tq_worker_func i true true true W) [] ∧
      Hist (tq_worker_func i true true true W) []) ∧
    (tq_worker_func i true true true W).threads i = WorkerPc.waiting := by
  have hnext : W.queue.next_job = none := by rw [hI.last]; rfl
  rcases hpc with hpc | hpc
  · rw [worker_func_idle hpc,
      @worker_take_wait i true { W with trace := W.trace ++ tq_mutex_lock true } hexit hnext]
    exact ⟨@frame W _ [] rfl rfl rfl rfl (job_update (by simp [hpc, WorkerPc.job]))
      (todo_update (by simp [hpc, WorkerPc.todo]))
      (quiet_trans (quiet_lock _ true) (@quiet_append _ [Event.cond_wait] rfl rfl rfl))
      hI hH, by simp⟩
  · rw [worker_func_woken hpc, worker_take_wait hexit hnext]
    exact ⟨@frame W _ [] rfl rfl rfl rfl (job_update (by simp [hpc, WorkerPc.job]))
      (todo_update (by simp [hpc, WorkerPc.todo])) (@quiet_append _ [Event.cond_wait] rfl rfl rfl)
      hI hH, by simp⟩

/-- The list of linked nodes of a world is unique. -/
theorem inv_unique {W : World} {l1 l2 : List Nat} (h1 : Inv W l1) (h2 : Inv W l2) :
    l1 = l2 :=
  dll_unique l1 l2 h1.chain h2.chain

/-- A transition in which every platform call succeeds keeps a serving worker
serving. -/
theorem ok_step_serving {n : Int} {W : World} (hG : Good n W) {i : Nat} (k : Nat)
    (hS : Serving i W) : Serving i (tq_worker_func k true true true W) := by
  obtain ⟨f1, f2, _, _, _, f6, _⟩ := worker_frame k true true true W
  obtain ⟨s1, s2, s3, s4⟩ := hS
  by_cases hki : i = k
  · subst hki
    obtain ⟨_, l, hI, hH⟩ := hG
    have hpc : ∀ pc, (tq_worker_func i true true true W).threads i = pc →
        pc ≠ WorkerPc.absent → pc ≠ WorkerPc.terminated →
        Serving i (tq_worker_func i true true true W) := by
      intro pc e h1 h2
      exact ⟨by rw [e]; exact h1, by rw [e]; exact h2, by rw [f2]; exact s3,
        by rw [f1]; exact s4⟩
    cases ht : W.threads i with
    | absent => exact absurd ht s1
    | terminated => exact absurd ht s2
    | startup =>
      exact hpc _ (ok_step_startup hI hH ht s4).2 (by simp) (by simp)
    | idle =>
      by_cases hl : l = []
      · subst hl
        exact hpc _ (ok_step_wait hI hH (Or.inl ht) s3).2 (by simp) (by simp)
      · obtain ⟨a, l2, _, h, _⟩ := ok_step_take hI hH (Or.inl ht) s3 hl
        exact hpc _ h (by simp) (by simp)
    | waiting =>
      by_cases hl : l = []
      · subst hl
        exact hpc _ (ok_step_wait hI hH (Or.inr ht) s3).2 (by simp) (by simp)
      · obtain ⟨a, l2, _, h, _⟩ := ok_step_take hI hH (Or.inr ht) s3 hl
        exact hpc _ h (by simp) (by simp)
    | started a => exact hpc _ (ok_step_started hI hH ht).2 (by simp) (by simp)
    | running a => exact hpc _ (ok_step_running hI hH ht).2 (by simp) (by simp)
    | finishing a => exact hpc _ (ok_step_finishing hI hH ht).2 (by simp) (by simp)
  · exact ⟨by rw [f6 i hki]; exact s1, by rw [f6 i hki]; exact s2, by rw [f2]; exact s3,
      by rw [f1]; exact s4⟩

theorem all_ok_eq {s : WorkerStep} (h : s.all_ok = true) :
    s.lock_ok = true ∧ s.wait_ok = true ∧ s.unlock_ok = true := by
  unfold WorkerStep.all_ok at h
  simp at h
  exact ⟨h.1.1, h.1.2, h.2⟩

/-- A schedule in which every platform call succeeds keeps a serving worker
serving. -/
theorem run_workers_serving {n : Int} {i : Nat} :
    ∀ (sched : List WorkerStep) {W : World}, (∀ s ∈ sched, s.all_ok = true) →
      Good n W → Serving i W → Serving i (run_workers sched W) := by
  intro sched
  induction sched with
  | nil => intro W _ _ h; exact h
  | cons s sched ih =>
    intro W hok hG hS
    rw [run_workers_cons]
    obtain ⟨e1, e2, e3⟩ := all_ok_eq (hok s (List.mem_cons_self _ _))
    rw [e1, e2, e3]
    exact ih (fun s2 h2 => hok s2 (List.mem_cons_of_mem _ h2))
      (good_worker s.i true true true hG) (ok_step_serving hG s.i hS)

theorem hist_of {n : Int} {W : World} {l : List Nat} (hr : Reachable n W) (hI : Inv W l) :
    Hist W l := by
  obtain ⟨l2, hI2, hH2⟩ := reachable_good hr
  rw [inv_unique hI hI2]
  exact hH2

theorem ok_step_all_ok (i : Nat) : (ok_step i).all_ok = true := rfl

theorem run_workers_ok_step (i : Nat) (sched : List WorkerStep) (W : World) :
    run_workers (ok_step i :: sched) W =
      run_workers sched (tq_worker_func i true true true W) := rfl

theorem ok_step_others (i : Nat) (W : World) :
    ∀ k, k ≠ i → (tq_worker_func i true true true W).threads k = W.threads k :=
  (worker_frame i true true true W).2.2.2.2.2.1

/-- A worker that holds a job whose function it has not called calls it
within two transitions. -/
theorem finish_todo {n : Int} {W : World} (hr : Reachable n W) (k : Nat) :
    ∃ sched, (∀ s ∈ sched, s.all_ok = true) ∧
      ((run_workers sched W).threads k).todo = none ∧
      ∀ m, m ≠ k → (run_workers sched W).threads m = W.threads m := by
  obtain ⟨l, hI, hH⟩ := reachable_good hr
  cases ht : W.threads k with
  | started a =>
    obtain ⟨⟨hI1, hH1⟩, h1⟩ := ok_step_started hI hH ht
    obtain ⟨_, h2⟩ := ok_step_running hI1 hH1 h1
    refine ⟨[ok_step k, ok_step k], ?_, ?_, ?_⟩
    · intro s hs
      simp at hs
      subst hs
      rfl
    · show ((tq_worker_func k true true true (tq_worker_func k true true true W)).threads
        k).todo = none
      rw [h2]; rfl
    · intro m hm
      show (tq_worker_func k true true true (tq_worker_func k true true true W)).threads m = _
      rw [ok_step_others k _ m hm, ok_step_others k _ m hm]
  | running a =>
    obtain ⟨_, h2⟩ := ok_step_running hI hH ht
    refine ⟨[ok_step k], ?_, ?_, ?_⟩
    · intro s hs
      simp at hs
      subst hs
      rfl
    · show ((tq_worker_func k true true true W).threads k).todo = none
      rw [h2]; rfl
    · intro m hm
      exact ok_step_others k _ m hm
  | absent => exact ⟨[], by simp, by show (W.threads k).todo = none; rw [ht]; rfl, fun _ _ => rfl⟩
  | terminated =>
    exact ⟨[], by simp, by show (W.threads k).todo = none; rw [ht]; rfl, fun _ _ => rfl⟩
  | startup => exact ⟨[], by simp, by show (W.threads k).todo = none; rw [ht]; rfl, fun _ _ => rfl⟩
  | idle => exact ⟨[], by simp, by show (W.threads k).todo = none; rw [ht]; rfl, fun _ _ => rfl⟩
  | waiting => exact ⟨[], by simp, by show (W.threads k).todo = none; rw [ht]; rfl, fun _ _ => rfl⟩
  | finishing a =>
    exact ⟨[], by simp, by show (W.threads k).todo = none; rw [ht]; rfl, fun _ _ => rfl⟩

/-- The workers of the slots below `m` call the function of the job they hold. -/
theorem finish_all {n : Int} :
    ∀ (m : Nat) {W : World}, Reachable n W →
      ∃ sched, (∀ s ∈ sched, s.all_ok = true) ∧
        ∀ k, k < m → ((run_workers sched W).threads k).todo = none := by
  intro m
  induction m with
  | zero => intro W _; exact ⟨[], by simp, fun k hk => absurd hk (by omega)⟩
  | succ m ih =>
    intro W hr
    obtain ⟨s1, hok1, h1⟩ := ih hr
    obtain ⟨s2, hok2, h2, h3⟩ := finish_todo (reachable_run_workers s1 hr) m
    refine ⟨s1 ++ s2, ?_, ?_⟩
    · intro s hs
      rcases List.mem_append.1 hs with h | h
      · exact hok1 s h
      · exact hok2 s h
    · intro k hk
      rw [run_workers_append]
      by_cases hkm : k = m
      · subst hkm; exact h2
      · rw [h3 k hkm]
        exact h1 k (by omega)

/-- A worker at the top of its loop, with its exit flag unset and a job
linked, unlinks the oldest job, calls the started hook and calls the function
of the job in three transitions. -/
theorem serve_round {i : Nat} {W : World} {l : List Nat} (hI : Inv W l) (hH : Hist W l)
    (hpc : W.threads i = WorkerPc.idle ∨ W.threads i = WorkerPc.waiting)
    (hexit : (W.queue.workers i).exit = false) (hl : l ≠ []) :
    ∃ l2 a, (Inv (run_workers [ok_step i, ok_step i, ok_step i] W) l2 ∧
        Hist (run_workers [ok_step i, ok_step i, ok_step i] W) l2) ∧
      (run_workers [ok_step i, ok_step i, ok_step i] W).threads i = WorkerPc.finishing a ∧
      l2.length + 1 = l.length ∧
      ∀ m, m ≠ i →
        (run_workers [ok_step i, ok_step i, ok_step i] W).threads m = W.threads m := by
  obtain ⟨a, l2, ⟨hI1, hH1⟩, h1, hlen⟩ := ok_step_take hI hH hpc hexit hl
  obtain ⟨⟨hI2, hH2⟩, h2⟩ := ok_step_started hI1 hH1 h1
  obtain ⟨⟨hI3, hH3⟩, h3⟩ := ok_step_running hI2 hH2 h2
  refine ⟨l2, a, ⟨hI3, hH3⟩, h3, hlen, ?_⟩
  intro m hm
  show (tq_worker_func i true true true (tq_worker_func i true true true
    (tq_worker_func i true true true W))).threads m = _
  rw [ok_step_others i _ m hm, ok_step_others i _ m hm, ok_step_others i _ m hm]

theorem mem_ok_steps {i : Nat} {sched : List WorkerStep}
    (h : ∀ s ∈ sched, s = ok_step i) : ∀ s ∈ sched, s.all_ok = true := by
  intro s hs
  rw [h s hs]
  rfl

/-- A serving worker that holds no job to execute unlinks the oldest linked job
and calls its function. -/
theorem serve_one {n : Int} {W : World} {l : List Nat} (hr : Reachable n W) (hI : Inv W l)
    {i : Nat} (hS : Serving i W) (ht : (W.threads i).todo = none) (hl : l ≠ []) :
    ∃ sched l2, (∀ s ∈ sched, s.all_ok = true) ∧
      Inv (run_workers sched W) l2 ∧ l2.length + 1 = l.length ∧
      ((run_workers sched W).threads i).todo = none ∧
      ∀ m, m ≠ i → (run_workers sched W).threads m = W.threads m := by
  have hH := hist_of hr hI
  have round : ∀ {V : World}, Inv V l → Hist V l →
      (V.threads i = WorkerPc.idle ∨ V.threads i = WorkerPc.waiting) →
      (V.queue.workers i).exit = false →
      ∃ l2, Inv (run_workers [ok_step i, ok_step i, ok_step i] V) l2 ∧
        l2.length + 1 = l.length ∧
        ((run_workers [ok_step i, ok_step i, ok_step i] V).threads i).todo = none ∧
        ∀ m, m ≠ i →
          (run_workers [ok_step i, ok_step i, ok_step i] V).threads m = V.threads m := by
    intro V hIV hHV hpc hexit
    obtain ⟨l2, a, ⟨hI3, _⟩, h3, hlen, hoth⟩ := serve_round hIV hHV hpc hexit hl
    exact ⟨l2, hI3, hlen, by rw [h3]; rfl, hoth⟩
  have first : ∀ (_ : (Inv (tq_worker_func i true true true W) l ∧
        Hist (tq_worker_func i true true true W) l) ∧
      (tq_worker_func i true true true W).threads i = WorkerPc.idle),
      ∃ sched l2, (∀ s ∈ sched, s.all_ok = true) ∧
        Inv (run_workers sched W) l2 ∧ l2.length + 1 = l.length ∧
        ((run_workers sched W).threads i).todo = none ∧
        ∀ m, m ≠ i → (run_workers sched W).threads m = W.threads m := by
    intro h
    obtain ⟨⟨hI1, hH1⟩, h1⟩ := h
    have hS1 := ok_step_serving (good_of_reachable hr) i hS
    obtain ⟨l2, hI4, hlen, htodo, hoth⟩ := round hI1 hH1 (Or.inl h1) hS1.2.2.1
    refine ⟨ok_step i :: [ok_step i, ok_step i, ok_step i], l2, ?_, ?_, hlen, ?_, ?_⟩
    · apply mem_ok_steps
      intro s hs
      simp at hs
      exact hs
    · rw [run_workers_ok_step]; exact hI4
    · rw [run_workers_ok_step]; exact htodo
    · intro m hm
      rw [run_workers_ok_step, hoth m hm, ok_step_others i _ m hm]
  obtain ⟨s1, s2, s3, s4⟩ := hS
  cases hpc : W.threads i with
  | absent => exact absurd hpc s1
  | terminated => exact absurd hpc s2
  | started a => rw [hpc] at ht; exact absurd ht (by simp [WorkerPc.todo])
  | running a => rw [hpc] at ht; exact absurd ht (by simp [WorkerPc.todo])
  | startup => exact first (ok_step_startup hI hH hpc s4)
  | finishing a => exact first (ok_step_finishing hI hH hpc)
  | idle =>
    obtain ⟨l2, hI4, hlen, htodo, hoth⟩ := round hI hH (Or.inl hpc) s3
    refine ⟨[ok_step i, ok_step i, ok_step i], l2, ?_, hI4, hlen, htodo, hoth⟩
    apply mem_ok_steps
    intro s hs
    simp at hs
    exact hs
  | waiting =>
    obtain ⟨l2, hI4, hlen, htodo, hoth⟩ := round hI hH (Or.inr hpc) s3
    refine ⟨[ok_step i, ok_step i, ok_step i], l2, ?_, hI4, hlen, htodo, hoth⟩
    apply mem_ok_steps
    intro s hs
    simp at hs
    exact hs

/-- A serving worker that holds no job to execute empties the list: it unlinks
and executes every linked job. -/
theorem drain_with {n : Int} {i : Nat} :
    ∀ (m : Nat) {W : World} {l : List Nat}, Reachable n W → Inv W l → l.length = m →
      Serving i W → (W.threads i).todo = none →
      ∃ sched, (∀ s ∈ sched, s.all_ok = true) ∧
        Inv (run_workers sched W) [] ∧
        ((run_workers sched W).threads i).todo = none ∧
        ∀ k, k ≠ i → (run_workers sched W).threads k = W.threads k := by
  intro m
  induction m with
  | zero =>
    intro W l _ hI hlen _ ht
    have : l = [] := List.eq_nil_of_length_eq_zero hlen
    subst this
    exact ⟨[], by simp, hI, ht, fun _ _ => rfl⟩
  | succ m ih =>
    intro W l hr hI hlen hS ht
    have hl : l ≠ [] := by
      intro h
      rw [h] at hlen
      exact absurd hlen (by simp)
    obtain ⟨s1, l2, hok1, hI1, hlen1, ht1, hoth1⟩ := serve_one hr hI hS ht hl
    obtain ⟨s2, hok2, hI2, ht2, hoth2⟩ :=
      ih (reachable_run_workers s1 hr) hI1 (by omega)
        (run_workers_serving s1 hok1 (good_of_reachable hr) hS) ht1
    refine ⟨s1 ++ s2, ?_, ?_, ?_, ?_⟩
    · intro s hs
      rcases List.mem_append.1 hs with h | h
      · exact hok1 s h
      · exact hok2 s h
    · rw [run_workers_append]; exact hI2
    · rw [run_workers_append]; exact ht2
    · intro k hk
      rw [run_workers_append, hoth2 k hk, hoth1 k hk]

/-- Progress: in a world with a serving worker, the workers can run, every
platform call succeeding, until no job is linked and no worker holds a job it
has not executed. -/
theorem all_executed {n : Int} {W : World} (hr : Reachable n W) {i : Nat}
    (hS : Serving i W) :
    ∃ sched, (∀ s ∈ sched, s.all_ok = true) ∧
      Inv (run_workers sched W) [] ∧
      ∀ k, ((run_workers sched W).threads k).todo = none := by
  obtain ⟨s1, hok1, h1⟩ := @finish_all n n.toNat W hr
  have hr1 := reachable_run_workers s1 hr
  have hS1 := run_workers_serving s1 hok1 (good_of_reachable hr) hS
  have hall : ∀ k, ((run_workers s1 W).threads k).todo = none := by
    intro k
    by_cases hk : k < n.toNat
    · exact h1 k hk
    · rw [(good_of_reachable hr1).1.none_above k (by omega)]
      rfl
  obtain ⟨l, hI, _⟩ := reachable_good hr1
  obtain ⟨s2, hok2, hI2, ht2, hoth2⟩ := drain_with l.length hr1 hI rfl hS1 (hall i)
  refine ⟨s1 ++ s2, ?_, ?_, ?_⟩
  · intro s hs
    rcases List.mem_append.1 hs with h | h
    · exact hok1 s h
    · exact hok2 s h
  · rw [run_workers_append]; exact hI2
  · intro k
    rw [run_workers_append]
    by_cases hk : k = i
    · subst hk; exact ht2
    · rw [hoth2 k hk]; exact hall k

/-- Once no job is linked and no worker holds a job it has not executed, the
jobs executed are the jobs submitted, and the counter is zero. -/
theorem executed_all {n : Int} {V : World} (hr : Reachable n V) (hI : Inv V [])
    (ht : ∀ k, (V.threads k).todo = none) :
    (executions V.trace).Perm (dequeues V.trace) ∧
    dequeued V.trace = submitted V.trace ∧
    V.queue.nb_jobs = 0 := by
  have hH := hist_of hr hI
  refine ⟨(good_once (good_of_reachable hr)).2.2.1 ht, ?_, ?_⟩
  · rw [hH.fifo]; simp
  · rw [hI.count]; rfl

/-! ## Jobs submitted before the start -/

/-- A call of `tq_queue_add_job` that takes the lock submits its job. -/
theorem add_job_submitted (func arg a : Nat) (u : Bool) (W : World) :
    submitted (tq_queue_add_job func arg (some a) true u W).2.trace =
      submitted W.trace ++ [(func, arg)] := by
  rw [add_job_ok_trace]
  simp only [submitted_append, submitted_lock, submitted_unlock]
  split <;> simp [submitted]

theorem run_append (W : World) (a1 a2 : List Action) :
    run W (a1 ++ a2) = run (run W a1) a2 := by
  simp [run, List.foldl_append]

theorem run_submit {n : Int} :
    ∀ (js : List (Nat × Nat × Nat)) {W : World}, Reachable n W →
      (js.map (fun j => j.2.2)).Nodup → (∀ j ∈ js, W.heap j.2.2 = none) →
      Reachable n (run W (submit js)) ∧
      (run W (submit js)).threads = W.threads ∧
      (run W (submit js)).cancel = W.cancel ∧
      (run W (submit js)).queue.workers = W.queue.workers ∧
      (run W (submit js)).queue.nb_workers = W.queue.nb_workers ∧
      submitted (run W (submit js)).trace = submitted W.trace ++ jobs_of js := by
  intro js
  induction js with
  | nil =>
    intro W hr _ _
    exact ⟨hr, rfl, rfl, rfl, rfl, by simp [run, submit, jobs_of]⟩
  | cons j js ih =>
    intro W hr hnd hfresh
    have hj : W.heap j.2.2 = none := hfresh j (List.mem_cons_self _ _)
    obtain ⟨l, hI, _⟩ := reachable_good hr
    have hr1 : Reachable n (step W (Action.add_job j.1 j.2.1 (some j.2.2) true true)) :=
      Reachable.step _ hr hj
    rw [List.map_cons, List.nodup_cons] at hnd
    have hfresh1 : ∀ k ∈ js,
        (step W (Action.add_job j.1 j.2.1 (some j.2.2) true true)).heap k.2.2 = none := by
      intro k hk
      have hk0 := hfresh k (List.mem_cons_of_mem _ hk)
      have hne : k.2.2 ≠ j.2.2 := by
        intro e
        apply hnd.1
        rw [← e]
        exact List.mem_map_of_mem (fun j => j.2.2) hk
      have hnl : k.2.2 ∉ l := fun hmem => dll_live hI.chain _ hmem hk0
      show (tq_queue_add_job j.1 j.2.1 (some j.2.2) true true W).2.heap k.2.2 = none
      rw [add_job_ok_heap_of_ne hI hne hnl]
      exact hk0
    obtain ⟨r1, r2, r3, r4, r5, r6⟩ := ih hr1 hnd.2 hfresh1
    obtain ⟨f1, f2, f3, f4, _⟩ := add_job_frame j.1 j.2.1 (some j.2.2) true true W
    have hrun : run W (submit (j :: js)) =
        run (step W (Action.add_job j.1 j.2.1 (some j.2.2) true true)) (submit js) := rfl
    rw [hrun]
    refine ⟨r1, r2.trans f1, r3.trans f2, r4.trans f3, r5.trans f4, ?_⟩
    rw [r6]
    show submitted (tq_queue_add_job j.1 j.2.1 (some j.2.2) true true W).2.trace ++ _ = _
    rw [add_job_submitted]
    simp [jobs_of]

theorem submitted_creates (i n : Nat) :
    submitted ((List.range' i n).map (fun j => Event.thread_create j true)) = [] := by
  induction n generalizing i with
  | zero => rfl
  | succ n ih =>
    rw [List.range'_succ, List.map_cons]
    show submitted ([Event.thread_create i true] ++ _) = []
    rw [submitted_append, ih]
    rfl

/-- The jobs of `js`, at distinct addresses, submitted to a new queue before
the start: the world is reachable, the jobs submitted are those of `js`, in
order, and every worker of the pool serves the queue. -/
theorem world_after_spec (n : Int) (js : List (Nat × Nat × Nat))
    (hnd : (js.map (fun j => j.2.2)).Nodup) :
    Reachable n (world_after n js) ∧
    submitted (world_after n js).trace = jobs_of js ∧
    ∀ i, i < n.toNat → Serving i (world_after n js) := by
  obtain ⟨r1, r2, r3, r4, r5, r6⟩ :=
    @run_submit n js (World.new n) Reachable.new hnd (fun _ _ => rfl)
  have hnb : (run (World.new n) (submit js)).queue.nb_workers.toNat = n.toNat := by
    rw [r5]; rfl
  have hw : world_after n js =
      (start_section true (fun _ => true) true (run (World.new n) (submit js))).2 := by
    unfold world_after
    rw [run_append]
    rfl
  obtain ⟨_, _, s3, s4, s5, s6⟩ :=
    start_section_ok (fun _ => true) true (run (World.new n) (submit js)) (fun _ _ => rfl)
  have hvalid : (Action.start true (fun _ => true) true).valid
      (run (World.new n) (submit js)) := by
    intro i _
    rw [r2]
    rfl
  refine ⟨?_, ?_, ?_⟩
  · rw [hw]
    exact Reachable.step (Action.start true (fun _ => true) true) r1 hvalid
  · rw [hw, s6]
    simp only [submitted_append, submitted_lock, submitted_unlock, submitted_creates,
      List.append_nil]
    rw [r6]
    simp [World.new, tq_queue_new, tq_mutex_init, submitted]
  · intro i hi
    rw [hw]
    have hti : (start_section true (fun _ => true) true
        (run (World.new n) (submit js))).2.threads i = WorkerPc.startup := by
      rw [s4 i, hnb]
      simp [hi]
    refine ⟨by rw [hti]; simp, by rw [hti]; simp, ?_, ?_⟩
    · rw [s3, r4]
      rfl
    · rw [s5, r3]
      rfl

/-- Progress: in a reachable world with a serving worker the workers can run,
every platform call succeeding, until every submitted job has been unlinked
and executed. -/
theorem progress {n : Int} {W : World} (hr : Reachable n W) {i : Nat} (hS : Serving i W) :
    ∃ sched, (∀ s ∈ sched, s.all_ok = true) ∧
      Reachable n (run_workers sched W) ∧
      (executions (run_workers sched W).trace).Perm (dequeues (run_workers sched W).trace) ∧
      dequeued (run_workers sched W).trace = submitted W.trace ∧
      (run_workers sched W).queue.nb_jobs = 0 ∧
      ∀ k, ((run_workers sched W).threads k).todo = none := by
  obtain ⟨sched, hok, hI, ht⟩ := all_executed hr hS
  have hrV := reachable_run_workers sched hr
  obtain ⟨e1, e2, e3⟩ := executed_all hrV hI ht
  exact ⟨sched, hok, hrV, e1, by rw [e2, run_workers_submitted], e3, ht⟩

/-- With one worker the jobs executed, followed by the job the worker holds
and has not executed, are the jobs unlinked. -/
theorem single_worker_executed {W : World} (hr : Reachable 1 W) :
    executed W.trace ++ pending_of W 0 = dequeued W.trace := by
  obtain ⟨l, _, hH⟩ := reachable_good hr
  have hS := reachable_slots hr
  have hdq : ∀ d ∈ dequeues W.trace, d.1 = 0 := by
    intro d hd
    have := hS.deq d hd
    simp at this
    exact this
  have hex : ∀ d ∈ executions W.trace, d.1 = 0 := by
    intro d hd
    have := hS.exe d hd
    simp at this
    exact this
  have hm := hH.mine 0
  unfold dequeued_by executed_by at hm
  rw [filter_all_of_worker hdq, filter_all_of_worker hex] at hm
  exact hm.symm

theorem pending_of_none {W : World} {k : Nat} (h : (W.threads k).todo = none) :
    pending_of W k = [] := by
  unfold pending_of
  rw [h]

/-! ## Every fair schedule executes every job -/

theorem steps_of_cons_self (s : WorkerStep) (sched : List WorkerStep) :
    steps_of s.i (s :: sched) = steps_of s.i sched + 1 := by
  simp [steps_of, List.filter_cons]

theorem steps_of_cons_ne {k : Nat} (s : WorkerStep) (sched : List WorkerStep)
    (h : s.i ≠ k) : steps_of k (s :: sched) = steps_of k sched := by
  simp [steps_of, List.filter_cons, h]

/-- A transition of a serving worker, every platform call succeeding, takes
one unit off the work left (four units for each linked job, and the units of
the worker itself), unless none is left. -/
theorem ok_step_work {n : Int} {W : World} {l : List Nat} (hr : Reachable n W)
    (hI : Inv W l) {j : Nat} (hS : Serving j W) :
    ∃ l2, Inv (tq_worker_func j true true true W) l2 ∧ l2.length ≤ l.length ∧
      (4 * l2.length + ((tq_worker_func j true true true W).threads j).work + 1 =
          4 * l.length + (W.threads j).work ∨
        4 * l2.length + ((tq_worker_func j true true true W).threads j).work = 0) := by
  have hH := hist_of hr hI
  obtain ⟨s1, s2, s3, s4⟩ := hS
  have top : (W.threads j = WorkerPc.idle ∨ W.threads j = WorkerPc.waiting) →
      ∃ l2, Inv (tq_worker_func j true true true W) l2 ∧ l2.length ≤ l.length ∧
        (4 * l2.length + ((tq_worker_func j true true true W).threads j).work + 1 =
            4 * l.length + (W.threads j).work ∨
          4 * l2.length + ((tq_worker_func j true true true W).threads j).work = 0) := by
    intro hpc
    have hw : (W.threads j).work = 0 := by
      rcases hpc with h | h <;> rw [h] <;> rfl
    by_cases hl : l = []
    · subst hl
      obtain ⟨⟨hI1, _⟩, h1⟩ := ok_step_wait hI hH hpc s3
      exact ⟨[], hI1, le_refl _, Or.inr (by rw [h1]; rfl)⟩
    · obtain ⟨a, l2, ⟨hI1, _⟩, h1, hlen⟩ := ok_step_take hI hH hpc s3 hl
      refine ⟨l2, hI1, by omega, Or.inl ?_⟩
      rw [h1, hw]
      show 4 * l2.length + 3 + 1 = 4 * l.length + 0
      omega
  cases hpc : W.threads j with
  | absent => exact absurd hpc s1
  | terminated => exact absurd hpc s2
  | startup =>
    obtain ⟨⟨hI1, _⟩, h1⟩ := ok_step_startup hI hH hpc s4
    refine ⟨l, hI1, le_refl _, Or.inl ?_⟩
    rw [h1]
    rfl
  | started a =>
    obtain ⟨⟨hI1, _⟩, h1⟩ := ok_step_started hI hH hpc
    refine ⟨l, hI1, le_refl _, Or.inl ?_⟩
    rw [h1]
    rfl
  | running a =>
    obtain ⟨⟨hI1, _⟩, h1⟩ := ok_step_running hI hH hpc
    refine ⟨l, hI1, le_refl _, Or.inl ?_⟩
    rw [h1]
    rfl
  | finishing a =>
    obtain ⟨⟨hI1, _⟩, h1⟩ := ok_step_finishing hI hH hpc
    refine ⟨l, hI1, le_refl _, Or.inl ?_⟩
    rw [h1]
    rfl
  | idle =>
    have := top (Or.inl hpc)
    rw [hpc] at this
    exact this
  | waiting =>
    have := top (Or.inr hpc)
    rw [hpc] at this
    exact this

theorem work_eq_zero {pc : WorkerPc} (h : pc.work = 0) : pc.todo = none := by
  cases pc <;> first | rfl | exact absurd h (by simp [WorkerPc.work])

/-- Fairness is enough: when every worker of the pool serves the queue and
takes, in a schedule whose platform calls all succeed, as many transitions as
four for each linked job plus those of the job it holds, then at the end no
job is linked and no worker holds a job it has not executed. -/
theorem run_fair {n : Int} (hn : 0 < n) :
    ∀ (sched : List WorkerStep) {W : World} {l : List Nat}, Reachable n W → Inv W l →
      (∀ s ∈ sched, s.all_ok = true) →
      (∀ k, k < n.toNat → Serving k W) →
      (∀ k, k < n.toNat → 4 * l.length + (W.threads k).work ≤ steps_of k sched) →
      Inv (run_workers sched W) [] ∧ ∀ k, ((run_workers sched W).threads k).todo = none := by
  intro sched
  induction sched with
  | nil =>
    intro W l hr hI _ _ hfair
    have h0 := hfair 0 (by omega)
    have hl : l = [] := by
      apply List.eq_nil_of_length_eq_zero
      have : steps_of 0 ([] : List WorkerStep) = 0 := rfl
      omega
    subst hl
    refine ⟨hI, ?_⟩
    intro k
    by_cases hk : k < n.toNat
    · have hk0 := hfair k hk
      have : steps_of k ([] : List WorkerStep) = 0 := rfl
      show (W.threads k).todo = none
      exact work_eq_zero (by omega)
    · show (W.threads k).todo = none
      rw [(reachable_slots hr).none_above k (by omega)]
      rfl
  | cons s rest ih =>
    intro W l hr hI hok hserv hfair
    obtain ⟨e1, e2, e3⟩ := all_ok_eq (hok s (List.mem_cons_self _ _))
    rw [run_workers_cons, e1, e2, e3]
    have hok2 : ∀ t ∈ rest, t.all_ok = true := fun t ht => hok t (List.mem_cons_of_mem _ ht)
    have hr1 : Reachable n (tq_worker_func s.i true true true W) :=
      Reachable.step (Action.worker s.i true true true) hr trivial
    have hserv1 : ∀ k, k < n.toNat → Serving k (tq_worker_func s.i true true true W) :=
      fun k hk => ok_step_serving (good_of_reachable hr) s.i (hserv k hk)
    by_cases hj : s.i < n.toNat
    · obtain ⟨l2, hI2, hlen, hwork⟩ := ok_step_work hr hI (hserv s.i hj)
      apply ih hr1 hI2 hok2 hserv1
      intro k hk
      by_cases hks : s.i = k
      · subst hks
        have := hfair s.i hk
        rw [steps_of_cons_self] at this
        omega
      · have := hfair k hk
        rw [steps_of_cons_ne s rest hks] at this
        rw [ok_step_others s.i W k (fun e => hks e.symm)]
        omega
    · have habs : W.threads s.i = WorkerPc.absent :=
        (reachable_slots hr).none_above s.i (by omega)
      have hsame : tq_worker_func s.i true true true W = W := worker_func_absent habs
      rw [hsame] at hr1 hserv1 ⊢
      apply ih hr hI hok2 hserv
      intro k hk
      have := hfair k hk
      rw [steps_of_cons_ne s rest (fun e => hj (e ▸ hk))] at this
      exact this

theorem world_after_startup (n : Int) (js : List (Nat × Nat × Nat))
    (hnd : (js.map (fun j => j.2.2)).Nodup) :
    ∀ i, i < n.toNat → (world_after n js).threads i = WorkerPc.startup := by
  obtain ⟨_, _, _, _, r5, _⟩ :=
    @run_submit n js (World.new n) Reachable.new hnd (fun _ _ => rfl)
  have hnb : (run (World.new n) (submit js)).queue.nb_workers.toNat = n.toNat := by
    rw [r5]; rfl
  have hw : world_after n js =
      (start_section true (fun _ => true) true (run (World.new n) (submit js))).2 := by
    unfold world_after
    rw [run_append]
    rfl
  obtain ⟨_, _, _, s4, _, _⟩ :=
    start_section_ok (fun _ => true) true (run (World.new n) (submit js)) (fun _ _ => rfl)
  intro i hi
  rw [hw, s4 i, hnb]
  simp [hi]

/-- After the jobs of `js` were submitted to a new queue of `n > 0` workers
and the pool started, every schedule whose platform calls all succeed and in
which each worker takes at least `4 * js.length + 1` transitions ends with
every job of `js` unlinked and executed. -/
theorem fair_after (n : Int) (js : List (Nat × Nat × Nat))
    (hnd : (js.map (fun j => j.2.2)).Nodup) (hn : 0 < n)
    (sched : List WorkerStep) (hok : ∀ s ∈ sched, s.all_ok = true)
    (hfair : ∀ k, k < n.toNat → 4 * js.length + 1 ≤ steps_of k sched) :
    Reachable n (run_workers sched (world_after n js)) ∧
    (executions (run_workers sched (world_after n js)).trace).Perm
      (dequeues (run_workers sched (world_after n js)).trace) ∧
    dequeued (run_workers sched (world_after n js)).trace = jobs_of js ∧
    (run_workers sched (world_after n js)).queue.nb_jobs = 0 ∧
    ∀ k, ((run_workers sched (world_after n js)).threads k).todo = none := by
  obtain ⟨hr, hsub, hserv⟩ := world_after_spec n js hnd
  obtain ⟨l, hI, hH⟩ := reachable_good hr
  have hlen : l.length ≤ js.length := by
    have h1 := hist_length hH
    rw [hsub] at h1
    simp [jobs_of] at h1
    omega
  have hrV := reachable_run_workers sched hr
  obtain ⟨hI2, ht⟩ := run_fair hn sched hr hI hok hserv (by
    intro k hk
    rw [world_after_startup n js hnd k hk]
    have := hfair k hk
    show 4 * l.length + 1 ≤ _
    omega)
  obtain ⟨e1, e2, e3⟩ := executed_all hrV hI2 ht
  exact ⟨hrV, e1, by rw [e2, run_workers_submitted, hsub], e3, ht⟩

/-- C1 (FIFO order).  In every world reachable from a newly created queue by
any interleaving of `tq_queue_add_job` calls, worker transitions and the other
calls: the jobs unlinked so far are, in order, the first jobs submitted, that
is, the k-th job unlinked is the k-th job submitted; a call of
`tq_queue_add_job` that takes the lock adds its function and argument at the
end of the jobs submitted; with one worker the jobs the worker has executed
are, in order, the first jobs submitted, and when the worker serves the queue
(its thread runs, with no exit flag and no cancellation request) it can run,
every platform call succeeding, until the jobs executed are exactly the jobs
submitted, in the order of submission.  In particular, when the jobs of `js`
(function, argument, address of the record; distinct addresses) are submitted
in that order to a new queue of one worker before `tq_queue_start`, the world
is reachable, the jobs submitted are those of `js`, and after every schedule
whose platform calls all succeed and in which the worker takes at least
`4 * js.length + 1` transitions (one to pass the start, four for each job) the
jobs executed are those of `js`, in that order. -/
theorem fifo_order (n : Int) (W : World) (h : Reachable n W) :
    dequeued W.trace = (submitted W.trace).take (dequeued W.trace).length ∧
    (∀ k, k < (dequeued W.trace).length →
      (dequeued W.trace)[k]? = (submitted W.trace)[k]?) ∧
    (∀ (func arg a : Nat) (unlock_ok : Bool),
      submitted (tq_queue_add_job func arg (some a) true unlock_ok W).2.trace =
        submitted W.trace ++ [(func, arg)]) ∧
    (n = 1 →
      executed W.trace ++ pending_of W 0 = dequeued W.trace ∧
      executed W.trace = (submitted W.trace).take (executed W.trace).length ∧
      (Serving 0 W →
        ∃ sched, (∀ s ∈ sched, s.all_ok = true) ∧
          executed (run_workers sched W).trace = submitted W.trace)) ∧
    (∀ js : List (Nat × Nat × Nat), (js.map (fun j => j.2.2)).Nodup →
      Reachable 1 (world_after 1 js) ∧
      submitted (world_after 1 js).trace = jobs_of js ∧
      ∀ sched, (∀ s ∈ sched, s.all_ok = true) →
        4 * js.length + 1 ≤ steps_of 0 sched →
        executed (run_workers sched (world_after 1 js)).trace = jobs_of js) := by
  obtain ⟨l, hI, hH⟩ := reachable_good h
  have hfifo := hH.fifo
  have h1 : dequeued W.trace = (submitted W.trace).take (dequeued W.trace).length := by
    rw [hfifo, List.take_left]
  refine ⟨h1, ?_, ?_, ?_, ?_⟩
  · intro k hk
    rw [hfifo, List.getElem?_append_left hk]
  · intro func arg a u
    exact add_job_submitted func arg a u W
  · intro hn
    subst hn
    have h2 := single_worker_executed h
    refine ⟨h2, ?_, ?_⟩
    · rw [hfifo, ← h2, List.append_assoc, List.take_left]
    · intro hS
      obtain ⟨sched, hok, p1, _, p3, _, p5⟩ := progress h hS
      refine ⟨sched, hok, ?_⟩
      have h3 := single_worker_executed p1
      rw [pending_of_none (p5 0), List.append_nil] at h3
      rw [h3, p3]
  · intro js hnd
    refine ⟨(world_after_spec 1 js hnd).1, (world_after_spec 1 js hnd).2.1, ?_⟩
    intro sched hok hfair
    obtain ⟨p1, _, p3, _, p5⟩ := fair_after 1 js hnd (by decide) sched hok (by
      intro k hk
      have hk0 : k = 0 := by
        have : k < 1 := hk
        omega
      subst hk0
      exact hfair)
    have h3 := single_worker_executed p1
    rw [pending_of_none (p5 0), List.append_nil] at h3
    rw [h3, p3]

theorem fifo_order_witness :
    Reachable 1 world_abc ∧
    submitted world_abc.trace = [(1, 10), (2, 20), (3, 30)] ∧
    executed world_abc.trace = [(1, 10), (2, 20), (3, 30)] ∧
    dequeued world_abc.trace =
      (submitted world_abc.trace).take (dequeued world_abc.trace).length ∧
    submitted (world_after 1 [(1, 10, 100), (2, 20, 200), (3, 30, 300)]).trace =
      [(1, 10), (2, 20), (3, 30)] ∧
    executed (run_workers (List.replicate 13 (ok_step 0))
      (world_after 1 [(1, 10, 100), (2, 20, 200), (3, 30, 300)])).trace =
      [(1, 10), (2, 20), (3, 30)] :=
  ⟨world_abc_reachable, by decide, by decide,
   (fifo_order 1 world_abc world_abc_reachable).1,
   ((fifo_order 1 world_abc world_abc_reachable).2.2.2.2
      [(1, 10, 100), (2, 20, 200), (3, 30, 300)] (by decide)).2.1,
   ((fifo_order 1 world_abc world_abc_reachable).2.2.2.2
      [(1, 10, 100), (2, 20, 200), (3, 30, 300)] (by decide)).2.2
      (List.replicate 13 (ok_step 0)) (by decide) (by decide)⟩

/-- C2 (queue invariant).  In every reachable world there is a list `l` of
distinct addresses such that following `next` from `jobs` visits exactly `l`,
`next_job` is the last node of `l`, `jobs == NULL` and `next_job == NULL` are
equivalent, and `nb_jobs` is the length of `l` as a C `int` holds it; as long
as fewer than `2^31` nodes are linked `nb_jobs` is the length of `l`, and
`next_job == NULL` and `nb_jobs == 0` are equivalent. -/
theorem queue_invariant (n : Int) (W : World) (h : Reachable n W) :
    ∃ l : List Nat,
      (∀ fuel, l.length ≤ fuel → nodes_from W.heap fuel W.queue.jobs = some l) ∧
      l.Nodup ∧
      W.queue.nb_jobs = int_wrap (l.length : Int) ∧
      W.queue.next_job = l.getLast? ∧
      (W.queue.jobs = none ↔ W.queue.next_job = none) ∧
      (l.length < 2147483648 →
        W.queue.nb_jobs = (l.length : Int) ∧
        (W.queue.next_job = none ↔ W.queue.nb_jobs = 0)) := by
  obtain ⟨l, hI, _⟩ := reachable_good h
  have hhead := dll_head hI.chain
  refine ⟨l, dll_nodes_from hI.chain, hI.nodup, hI.count, hI.last, ?_, ?_⟩
  · rw [hhead, hI.last]
    cases l <;> simp
  · intro hb
    have hc : W.queue.nb_jobs = (l.length : Int) := by
      rw [hI.count, int_wrap_length hb]
    refine ⟨hc, ?_⟩
    rw [hI.last, hc]
    cases l <;> simp
    omega

theorem queue_invariant_witness :
    Reachable 1 world_queued ∧
    ∃ l : List Nat,
      (∀ fuel, l.length ≤ fuel →
        nodes_from world_queued.heap fuel world_queued.queue.jobs = some l) ∧
      l.length = 3 ∧
      world_queued.queue.nb_jobs = (l.length : Int) ∧
      (world_queued.queue.next_job = none ↔ world_queued.queue.nb_jobs = 0) := by
  refine ⟨world_queued_reachable, ?_⟩
  obtain ⟨l, h1, _, _, _, _, h6⟩ := queue_invariant 1 world_queued world_queued_reachable
  have hl : l = [300, 200, 100] := by
    have a := h1 (max l.length 3) (le_max_left _ _)
    have b := dll_nodes_from world_queued_inv.chain (max l.length 3) (le_max_right _ _)
    rw [a] at b
    exact Option.some.inj b
  have hlen : l.length = 3 := by rw [hl]; rfl
  exact ⟨l, h1, hlen, h6 (by omega)⟩

/-- C3 (exactly-once execution).  In every world reachable from a newly
created queue, under every interleaving of calls and worker transitions: each
submitted job is unlinked by one worker, once, and executed by that worker,
once (see `ExactlyOnce`); a call of `tq_queue_add_job` that takes the lock adds
its function and argument to the jobs submitted; a worker that takes the lock
at the top of its loop, or wakes from the wait, with its exit flag unset and a
job linked, unlinks the job at `next_job`; when `tq_queue_drain` returns 0,
under whatever the other threads did meanwhile, `tq_queue_get_nb_jobs` is 0,
and every submitted job has been unlinked once as long as fewer than `2^31`
were waiting; and no job is lost: when a worker serves the queue (its thread
runs, with no exit flag and no cancellation request) the workers can run,
every platform call succeeding, until the jobs executed are the jobs
submitted, each as many times as it was submitted, with `nb_jobs` zero and
`tq_queue_drain` returning 0.  In particular, when the jobs of `js` (function,
argument, address of the record; distinct addresses) are submitted to a new
queue of `n > 0` workers before `tq_queue_start`, the world is reachable, the
jobs submitted are those of `js`, and after every schedule whose platform
calls all succeed and in which each worker takes at least `4 * js.length + 1`
transitions, whatever the interleaving, the jobs executed are those of `js`,
each once, no worker holds a job, and `tq_queue_get_nb_jobs` is 0. -/
theorem exactly_once (n : Int) (W : World) (h : Reachable n W) :
    ExactlyOnce W ∧
    (∀ (func arg a : Nat) (unlock_ok : Bool),
      submitted (tq_queue_add_job func arg (some a) true unlock_ok W).2.trace =
        submitted W.trace ++ [(func, arg)]) ∧
    (∀ (i a : Nat) (lock_ok wait_ok unlock_ok : Bool),
      (W.threads i = WorkerPc.idle ∧ lock_ok = true ∨
        W.threads i = WorkerPc.waiting ∧ wait_ok = true) →
      (W.queue.workers i).exit = false → W.queue.next_job = some a →
      (tq_worker_func i lock_ok wait_ok unlock_ok W).threads i = WorkerPc.started a ∧
      dequeues (tq_worker_func i lock_ok wait_ok unlock_ok W).trace =
        dequeues W.trace ++ [(i, payload W.heap a)] ∧
      (tq_worker_func i lock_ok wait_ok unlock_ok W).queue.nb_jobs =
        int_wrap (W.queue.nb_jobs - 1)) ∧
    (∀ (lock_ok wait_ok unlock_ok : Nat → Bool) (turns : List (List Action × List Action))
      (V : World),
      tq_queue_drain lock_ok wait_ok unlock_ok turns W = some (0, V) →
        tq_queue_get_nb_jobs V = 0 ∧ ExactlyOnce V ∧
        ((submitted V.trace).length - (dequeued V.trace).length < 2147483648 →
          dequeued V.trace = submitted V.trace)) ∧
    (∀ i, Serving i W →
      ∃ sched, (∀ s ∈ sched, s.all_ok = true) ∧
        (executed (run_workers sched W).trace).Perm (submitted W.trace) ∧
        dequeued (run_workers sched W).trace = submitted W.trace ∧
        (∀ k, pending_of (run_workers sched W) k = []) ∧
        tq_queue_get_nb_jobs (run_workers sched W) = 0 ∧
        ∃ V, tq_queue_drain (fun _ => true) (fun _ => true) (fun _ => true) []
            (run_workers sched W) = some (0, V) ∧
          tq_queue_get_nb_jobs V = 0 ∧
          executed V.trace = executed (run_workers sched W).trace) ∧
    (∀ js : List (Nat × Nat × Nat), (js.map (fun j => j.2.2)).Nodup → 0 < n →
      Reachable n (world_after n js) ∧
      submitted (world_after n js).trace = jobs_of js ∧
      ∀ sched, (∀ s ∈ sched, s.all_ok = true) →
        (∀ k, k < n.toNat → 4 * js.length + 1 ≤ steps_of k sched) →
        (executed (run_workers sched (world_after n js)).trace).Perm (jobs_of js) ∧
        dequeued (run_workers sched (world_after n js)).trace = jobs_of js ∧
        (∀ k, pending_of (run_workers sched (world_after n js)) k = []) ∧
        tq_queue_get_nb_jobs (run_workers sched (world_after n js)) = 0) := by
  have hG := good_of_reachable h
  refine ⟨good_once hG, ?_, ?_, ?_, ?_, ?_⟩
  · intro func arg a u
    exact add_job_submitted func arg a u W
  · intro i a lo wo uo hpc hexit hnext
    obtain ⟨l, hI, hH⟩ := hG.2
    rcases hpc with ⟨hpc, rfl⟩ | ⟨hpc, rfl⟩
    · rw [worker_func_idle hpc]
      obtain ⟨hI1, _⟩ := @frame W { W with trace := W.trace ++ tq_mutex_lock true } l
        rfl rfl rfl rfl (fun _ => rfl) (fun _ => rfl) (quiet_lock _ true) hI hH
      obtain ⟨r1, r2, r3⟩ := @worker_take_unlinks i a uo
        { W with trace := W.trace ++ tq_mutex_lock true } l hI1 hexit hnext
      refine ⟨r1, ?_, r3⟩
      rw [r2]
      show dequeues (W.trace ++ tq_mutex_lock true) ++ _ = _
      rw [dequeues_append, dequeues_lock, List.append_nil]
    · rw [worker_func_woken hpc]
      exact worker_take_unlinks hI hexit hnext
  · intro lo wo uo turns V hd
    obtain ⟨hGV, hnb, _⟩ := drain_loop_good lo wo uo turns 0 W 0 V hG hd
    have honce := good_once hGV
    exact ⟨hnb rfl, honce, honce.2.2.2 (hnb rfl)⟩
  · intro i hS
    obtain ⟨sched, hok, _, p2, p3, p4, p5⟩ := progress h hS
    refine ⟨sched, hok, ?_, p3, fun k => pending_of_none (p5 k), p4, _,
      drain_loop_empty _ _ _ [] 0 _ p4 rfl, p4, ?_⟩
    · rw [← p3]
      exact p2.map _
    · show executed ((run_workers sched W).trace ++ tq_mutex_lock true ++
        tq_mutex_unlock true) = _
      unfold executed
      rw [executions_append, executions_append, executions_lock, executions_unlock]
      simp
  · intro js hnd hn
    refine ⟨(world_after_spec n js hnd).1, (world_after_spec n js hnd).2.1, ?_⟩
    intro sched hok hfair
    obtain ⟨_, p2, p3, p4, p5⟩ := fair_after n js hnd hn sched hok hfair
    refine ⟨?_, p3, fun k => pending_of_none (p5 k), p4⟩
    rw [← p3]
    exact p2.map _

theorem exactly_once_witness :
    Reachable 1 world_abc ∧ ExactlyOnce world_abc ∧
    submitted world_abc.trace = [(1, 10), (2, 20), (3, 30)] ∧
    executed world_abc.trace = [(1, 10), (2, 20), (3, 30)] ∧
    tq_queue_get_nb_jobs
      { world_abc with
          trace := world_abc.trace ++ tq_mutex_lock true ++ tq_mutex_unlock true } = 0 ∧
    (executed (run_workers (List.replicate 13 (ok_step 1) ++ List.replicate 13 (ok_step 0))
      (world_after 2 [(1, 10, 100), (2, 20, 200), (3, 30, 300)])).trace).Perm
      [(1, 10), (2, 20), (3, 30)] ∧
    tq_queue_get_nb_jobs
      (run_workers (List.replicate 13 (ok_step 1) ++ List.replicate 13 (ok_step 0))
        (world_after 2 [(1, 10, 100), (2, 20, 200), (3, 30, 300)])) = 0 :=
  ⟨world_abc_reachable, (exactly_once 1 world_abc world_abc_reachable).1,
   by decide, by decide,
   ((exactly_once 1 world_abc world_abc_reachable).2.2.2.1 (fun _ => true) (fun _ => true)
      (fun _ => true) []
      { world_abc with
          trace := world_abc.trace ++ tq_mutex_lock true ++ tq_mutex_unlock true }
      (drain_loop_empty _ _ _ [] 0 world_abc rfl rfl)).1,
   (((exactly_once 2 world_started world_started_reachable).2.2.2.2.2
      [(1, 10, 100), (2, 20, 200), (3, 30, 300)] (by decide) (by decide)).2.2
      (List.replicate 13 (ok_step 1) ++ List.replicate 13 (ok_step 0)) (by decide)
      (fun k hk => by
        have hk2 : k < 2 := hk
        interval_cases k <;> decide)).1,
   (((exactly_once 2 world_started world_started_reachable).2.2.2.2.2
      [(1, 10, 100), (2, 20, 200), (3, 30, 300)] (by decide) (by decide)).2.2
      (List.replicate 13 (ok_step 1) ++ List.replicate 13 (ok_step 0)) (by decide)
      (fun k hk => by
        have hk2 : k < 2 := hk
        interval_cases k <;> decide)).2.2.2⟩

end TaskQueue
